import Mathlib

/- Shallow embedding of the two-stage PDF extraction pipeline:
   stage 1 (per-page classification, selective OCR, brand-glitch
   normalisation, page-ordered reassembly) and stage 2 (line cleaning,
   vendor/competitor gating, family detection, product-code and
   quantity extraction). -/

set_option maxRecDepth 10000
set_option maxHeartbeats 1000000

namespace Pdf

/-- Character class mirroring regex word characters on the repertoire this
pipeline handles: ASCII alphanumerics, underscore and the German letters. -/
def isWordChar (c : Char) : Bool :=
  c.isAlphanum || c = '_' || c = 'ö' || c = 'Ö' || c = 'ä' || c = 'Ä' ||
    c = 'ü' || c = 'Ü' || c = 'ß'

/-- Character class mirroring regex whitespace (ASCII repertoire). -/
def isSpaceChar (c : Char) : Bool :=
  c = ' ' || c = '\t' || c = '\n' || c = '\x0d' || c = '\x0b' || c = '\x0c'

/-- Lower-casing as the Python runtime performs it on this repertoire. -/
def pyLower (c : Char) : Char :=
  if c = 'A' then 'a' else if c = 'B' then 'b' else if c = 'C' then 'c'
  else if c = 'D' then 'd' else if c = 'E' then 'e' else if c = 'F' then 'f'
  else if c = 'G' then 'g' else if c = 'H' then 'h' else if c = 'I' then 'i'
  else if c = 'J' then 'j' else if c = 'K' then 'k' else if c = 'L' then 'l'
  else if c = 'M' then 'm' else if c = 'N' then 'n' else if c = 'O' then 'o'
  else if c = 'P' then 'p' else if c = 'Q' then 'q' else if c = 'R' then 'r'
  else if c = 'S' then 's' else if c = 'T' then 't' else if c = 'U' then 'u'
  else if c = 'V' then 'v' else if c = 'W' then 'w' else if c = 'X' then 'x'
  else if c = 'Y' then 'y' else if c = 'Z' then 'z'
  else if c = 'Ö' then 'ö'
  else if c = 'Ä' then 'ä'
  else if c = 'Ü' then 'ü'
  else c

/-- Case-insensitive character comparison (IGNORECASE matching). -/
def lowEq (a b : Char) : Bool := pyLower a == pyLower b

/-- Lower-case a whole string (Python str.lower on this repertoire). -/
def lowerStr (s : List Char) : List Char := s.map pyLower

/-- Python str.strip: drop leading and trailing whitespace. -/
def pyStrip (s : List Char) : List Char :=
  ((s.dropWhile isSpaceChar).reverse.dropWhile isSpaceChar).reverse

/-- Substring test: Python `needle in hay`. -/
def containsSub (needle : List Char) : List Char → Bool
  | [] => needle.isEmpty
  | c :: t => needle.isPrefixOf (c :: t) || containsSub needle t

/-- Numeric value of a digit string (Python int on an all-digit string). -/
def digitsToNat (s : List Char) : Nat :=
  s.foldl (fun a c => a * 10 + (c.toNat - 48)) 0

/-- First maximal run of digits in a line (re.findall of a digit run, first
hit), used to read the ordinal out of a page marker. -/
def firstDigitRun : List Char → Option (List Char)
  | [] => none
  | c :: t => if c.isDigit then some (c :: t.takeWhile Char.isDigit)
              else firstDigitRun t

/- ## Generic leftmost regex-substitution scanner -/

/-- Attempt of a pattern match at the current position, given the previous
original character (lookbehind context), the current character and the
remaining input: on success, the replacement text, the matched original
text and the remaining input after the match. -/
abbrev TryFun := Option Char → Char → List Char → Option (List Char × List Char × List Char)

/-- Last character of the matched original text, which becomes the
lookbehind context for the rest of the scan (regex engines inspect the
original input, not the replacement). -/
def lastD (mt : List Char) (p : Option Char) : Option Char :=
  match mt.getLast? with
  | some c => some c
  | none => p

/-- Fuelled scanner performing leftmost, non-overlapping substitution as
re.sub does: try the pattern at each position; on a match emit the
replacement and continue after the matched text, otherwise keep the
character and move one position right. -/
def runSubF (tm : TryFun) : Nat → Option Char → List Char → List Char
  | 0, _, s => s
  | _ + 1, _, [] => []
  | fuel + 1, p, c :: t =>
    match tm p c t with
    | some (r, mt, rest) => r ++ runSubF tm fuel (lastD mt p) rest
    | none => c :: runSubF tm fuel (some c) t

/-- One full substitution pass over a string. -/
def subBy (tm : TryFun) (s : List Char) : List Char :=
  runSubF tm (s.length + 1) none s

/-- Soundness of a match function: the matched text is a nonempty prefix
of the input at the current position and reassembles with the rest. -/
def TmSound (tm : TryFun) : Prop :=
  ∀ p c t r mt rest, tm p c t = some (r, mt, rest) → mt ++ rest = c :: t ∧ mt ≠ []

/-- Boolean test that no position of the scan fires the pattern. -/
def noFireB (tm : TryFun) : Option Char → List Char → Bool
  | _, [] => true
  | p, c :: t => (tm p c t).isNone && noFireB tm (some c) t

/-- Lookbehind test (?<!\w). -/
def prevNonWord : Option Char → Bool
  | none => true
  | some c => !isWordChar c

/-- Lookahead test (?!\w). -/
def nextNonWord : List Char → Bool
  | [] => true
  | c :: _ => !isWordChar c

/-- Head-is-word-character test. -/
def headIsWord : List Char → Bool
  | [] => false
  | c :: _ => isWordChar c

/- ## The substitution patterns of the pipeline -/

/-- Match the remaining letters of a fuzzy token: before each letter the
pattern allows a run of whitespace (the \s* inserted between letters by
make_fuzzy_token). Returns the matched original text and the rest. -/
def fuzzyAfter : List Char → List Char → Option (List Char × List Char)
  | [], s => some ([], s)
  | c :: tok, s =>
    let sp := s.takeWhile isSpaceChar
    match s.dropWhile isSpaceChar with
    | [] => none
    | x :: s2 =>
      if lowEq x c then
        match fuzzyAfter tok s2 with
        | some (mt, rest) => some (sp ++ x :: mt, rest)
        | none => none
      else none

/-- Attempt of a whitespace-tolerant token pattern (make_fuzzy_token):
lookbehind not-word, the token letters case-insensitively with optional
whitespace between them, lookahead not-word; the replacement is the
canonical token itself. -/
def tmFuzzy (tok : List Char) : TryFun := fun p c t =>
  match tok with
  | [] => none
  | c0 :: tokRest =>
    if prevNonWord p && lowEq c c0 then
      match fuzzyAfter tokRest t with
      | some (mt, rest) =>
        if nextNonWord rest then some (tok, c :: mt, rest) else none
      | none => none
    else none

/-- Attempt of the unit normalisation pattern S\s*t\b (ignorecase),
replacement "St". -/
def tmSt : TryFun := fun _ c t =>
  if lowEq c 'S' then
    let sp := t.takeWhile isSpaceChar
    match t.dropWhile isSpaceChar with
    | x :: rest =>
      if lowEq x 't' && nextNonWord rest then
        some ("St".toList, c :: sp ++ [x], rest)
      else none
    | [] => none
  else none

/-- Attempt of the hyphen tightening pattern \s*-\s*, replacement "-". -/
def tmHyph : TryFun := fun _ c t =>
  if c = '-' then
    let sp := t.takeWhile isSpaceChar
    some (['-'], c :: sp, t.dropWhile isSpaceChar)
  else if isSpaceChar c then
    match t.dropWhile isSpaceChar with
    | '-' :: r =>
      let sp := t.takeWhile isSpaceChar
      let sp2 := r.takeWhile isSpaceChar
      some (['-'], c :: sp ++ '-' :: sp2, r.dropWhile isSpaceChar)
    | _ => none
  else none

/-- Attempt of the digit joining pattern (?<=\d)\s+(?=\d), empty
replacement. -/
def tmDig : TryFun := fun p c t =>
  if isSpaceChar c && (match p with | some d => d.isDigit | none => false) then
    match t.dropWhile isSpaceChar with
    | x :: r =>
      if x.isDigit then some ([], c :: t.takeWhile isSpaceChar, x :: r) else none
    | [] => none
  else none

/-- Case-insensitive literal match of a word at the head of the input. -/
def matchCI : List Char → List Char → Option (List Char × List Char)
  | [], s => some ([], s)
  | _ :: _, [] => none
  | c :: w, x :: s =>
    if lowEq x c then (matchCI w s).map (fun pr => (x :: pr.1, pr.2)) else none

/-- Attempt of the brand glitch pattern \b[1Il|]EBEA(\s*®)?\b
(ignorecase), replacement TEBEA with the optional trademark group
preserved by backreference. -/
def tmGlitch : TryFun := fun p c t =>
  let isGl := c = '1' || lowEq c 'i' || lowEq c 'l' || c = '|'
  let bOk := if isWordChar c then prevNonWord p else !(prevNonWord p)
  if isGl && bOk then
    match matchCI ("EBEA".toList) t with
    | some (mt, rest) =>
      let sp := rest.takeWhile isSpaceChar
      match rest.dropWhile isSpaceChar with
      | '®' :: r2 =>
        if headIsWord r2 then
          some ("TEBEA".toList ++ sp ++ ['®'], c :: mt ++ sp ++ ['®'], r2)
        else if nextNonWord rest then some ("TEBEA".toList, c :: mt, rest) else none
      | _ => if nextNonWord rest then some ("TEBEA".toList, c :: mt, rest) else none
    | none => none
  else none

/-- Function normalize_known_ocr_brand_glitches. -/
def normalize_known_ocr_brand_glitches (s : List Char) : List Char :=
  subBy tmGlitch s

/-- The seven canonical tokens of CANONICAL_FIXES, in dict order. -/
def FIX_TOKENS : List (List Char) :=
  ["Schöck".toList, "Schoeck".toList, "Isokorb".toList, "Tronsole".toList,
   "Tronsolen".toList, "Stacon".toList, "Brandschutzmanschette".toList]

/-- Function clean_line_for_matching: the seven fuzzy token repairs in
dict order, then unit, hyphen and digit-space normalisation. -/
def clean_line_for_matching (line : List Char) : List Char :=
  subBy tmDig (subBy tmHyph (subBy tmSt
    (FIX_TOKENS.foldl (fun s tok => subBy (tmFuzzy tok) s) line)))

/-- Search (re.search viewed as a boolean) of a fuzzy token pattern
anywhere in a line. -/
def fuzzyFoundAux (tok : List Char) : Option Char → List Char → Bool
  | _, [] => false
  | p, c :: t => (tmFuzzy tok p c t).isSome || fuzzyFoundAux tok (some c) t

/-- Boolean fuzzy-pattern search from the start of a line. -/
def fuzzySearch (tok s : List Char) : Bool := fuzzyFoundAux tok none s

/- ## Stage 2: LV position pattern -/

/-- Parse one repetition \s*\.\s*\d+ of the LV pattern: returns the
leading whitespace, the rest of the repetition text (dot, whitespace,
digits) and the remaining input. -/
def lvRep (s : List Char) : Option (List Char × List Char × List Char) :=
  let sp1 := s.takeWhile isSpaceChar
  match s.dropWhile isSpaceChar with
  | '.' :: r =>
    let sp2 := r.takeWhile isSpaceChar
    let ds := (r.dropWhile isSpaceChar).takeWhile Char.isDigit
    if ds.isEmpty then none
    else some (sp1, '.' :: sp2 ++ ds, (r.dropWhile isSpaceChar).drop ds.length)
  | _ => none

/-- Greedy collection of LV repetitions (fuelled). -/
def lvReps : Nat → List Char → List (List Char × List Char) × List Char
  | 0, s => ([], s)
  | fuel + 1, s =>
    match lvRep s with
    | some (sp1, body, r) =>
      let pr := lvReps fuel r
      ((sp1, body) :: pr.1, pr.2)
    | none => ([], s)

/-- Parse the trailing \s*\. of the LV pattern. -/
def lvDot (s : List Char) : Option (List Char) :=
  let sp := s.takeWhile isSpaceChar
  match s.dropWhile isSpaceChar with
  | '.' :: _ => some (sp ++ ['.'])
  | _ => none

/-- Attempt of the LV pattern \b\d+(?:\s*\.\s*\d+)+\s*\. at the current
position: greedy repetitions, with the regex backtracking fallback that
reuses the final repetition's dot as the trailing dot. -/
def lvTry (p : Option Char) (c : Char) (t : List Char) : Option (List Char) :=
  if prevNonWord p && c.isDigit then
    let ds := t.takeWhile Char.isDigit
    let rest0 := t.drop ds.length
    let pr := lvReps rest0.length rest0
    match lvDot pr.2 with
    | some d =>
      if 1 ≤ pr.1.length then
        some (c :: ds ++ (pr.1.map (fun q => q.1 ++ q.2)).flatten ++ d)
      else none
    | none =>
      match pr.1.getLast? with
      | some lastRep =>
        if 2 ≤ pr.1.length then
          some (c :: ds ++ ((pr.1.dropLast).map (fun q => q.1 ++ q.2)).flatten ++
            lastRep.1 ++ ['.'])
        else none
      | none => none
  else none

/-- Leftmost search of the LV pattern in a line (group 0 text). -/
def lvSearchAux : Option Char → List Char → Option (List Char)
  | _, [] => none
  | p, c :: t =>
    match lvTry p c t with
    | some m => some m
    | none => lvSearchAux (some c) t

/-- LV search from the start of a line. -/
def lvSearch (s : List Char) : Option (List Char) := lvSearchAux none s

/- ## Stage 2: quantity and unit pattern -/

/-- Attempt of the unit alternation S\s*t|St|m with trailing \b
(ignorecase): the matched unit text and the rest. -/
def unitTry : List Char → Option (List Char × List Char)
  | [] => none
  | c :: r =>
    if lowEq c 'S' then
      let sp := r.takeWhile isSpaceChar
      match r.dropWhile isSpaceChar with
      | x :: r2 =>
        if lowEq x 't' && nextNonWord r2 then some (c :: sp ++ [x], r2) else none
      | [] => none
    else if lowEq c 'm' && nextNonWord r then some ([c], r)
    else none

/-- Parse one thousands-group repetition [.,]\d{3}. -/
def qtyRep : List Char → Option (List Char × List Char)
  | c :: d1 :: d2 :: d3 :: r =>
    if (c = '.' || c = ',') && d1.isDigit && d2.isDigit && d3.isDigit then
      some ([c, d1, d2, d3], r)
    else none
  | _ => none

/-- Candidate thousands-group consumptions in backtracking priority
order: the maximal number of repetitions first, down to zero. -/
def qtyRepsList : Nat → List Char → List (List Char × List Char)
  | 0, s => [([], s)]
  | fuel + 1, s =>
    match qtyRep s with
    | some (rt, r) =>
      (qtyRepsList fuel r).map (fun pr => (rt ++ pr.1, pr.2)) ++ [([], s)]
    | none => [([], s)]

/-- Attempt of the quantity+unit pattern
\d\x7b1,3\x7d(?:[.,]\d\x7b3\x7d)*\s*(S\s*t|St|m)\b at the current
position, with regex backtracking priority; returns the quantity text and
the unit text. -/
def qtyTryAt (c : Char) (t : List Char) : Option (List Char × List Char) :=
  if c.isDigit then
    let run := c :: t.takeWhile Char.isDigit
    ([3, 2, 1].filter (· ≤ run.length)).findSome? (fun k =>
      let qd := run.take k
      let rest := (c :: t).drop k
      (qtyRepsList rest.length rest).findSome? (fun pr =>
        (unitTry (pr.2.dropWhile isSpaceChar)).map (fun ur => (qd ++ pr.1, ur.1))))
  else none

/-- Leftmost search of the quantity+unit pattern in a line. -/
def qtySearch : List Char → Option (List Char × List Char)
  | [] => none
  | c :: t =>
    match qtyTryAt c t with
    | some m => some m
    | none => qtySearch t

/-- Quantity normalisation int(q.replace with separators removed). -/
def normalizeQty (q : List Char) : Nat :=
  digitsToNat (q.filter (fun c => c ≠ '.' && c ≠ ','))

/-- Unit normalisation (only literal blanks are removed). -/
def normalizeUnit (u : List Char) : List Char := u.filter (fun c => c ≠ ' ')

/-- The lookahead window constant of parse_txt_file. -/
def LOOKAHEAD : Nat := 3

/-- Quantity search over the current line and the lookahead window: the
first matching line in window order wins; each window line is cleaned
before searching. -/
def find_qty_unit (lines : List (List Char)) (idx : Nat) : Option (Nat × List Char) :=
  ((List.range' idx (min (idx + 1 + LOOKAHEAD) lines.length - idx)).findSome?
    (fun j => qtySearch (clean_line_for_matching (lines.getD j []))))
    |>.map (fun pr => (normalizeQty pr.1, normalizeUnit pr.2))

/- ## Stage 2: product-code patterns -/

/-- Backtracking matcher combinators: a matcher maps an input to the list
of possible consumed lengths, in backtracking priority order. -/
abbrev Matcher := List Char → List Nat

/-- Sequencing of matchers (priority order preserved). -/
def mSeq (a b : Matcher) : Matcher := fun s =>
  (a s).flatMap (fun n => (b (s.drop n)).map (n + ·))

/-- Case-insensitive literal matcher. -/
def mLit (w : List Char) : Matcher := fun s =>
  if (matchCI w s).isSome then [w.length] else []

/-- Greedy star over a character class. -/
def mStarG (p : Char → Bool) : Matcher := fun s =>
  (List.range ((s.takeWhile p).length + 1)).reverse

/-- Lazy star over a character class. -/
def mStarL (p : Char → Bool) : Matcher := fun s =>
  List.range ((s.takeWhile p).length + 1)

/-- Greedy plus over a character class. -/
def mPlusG (p : Char → Bool) : Matcher := fun s =>
  ((List.range ((s.takeWhile p).length + 1)).reverse).dropLast

/-- Greedy optional group. -/
def mOpt (m : Matcher) : Matcher := fun s => m s ++ [0]

/-- Alternation (first branch priority). -/
def mAlt (a b : Matcher) : Matcher := fun s => a s ++ b s

/-- Class of characters matched by [-\s\w]. -/
def isCodeChar (c : Char) : Bool := c = '-' || isSpaceChar c || isWordChar c

/-- The ISOKORB_CODE pattern in combinator form:
(?:K-\w+|Q(?:\s*-?\s*V\d+)?)[-\s\w]*REI\d+[-\s\w]*?(?:CV\d+)?[-\s\w]*X\d+[-\s\w]*H\d+. -/
def isokorbM : Matcher :=
  mSeq (mAlt (mSeq (mLit ("K-".toList)) (mPlusG isWordChar))
             (mSeq (mLit ("Q".toList))
               (mOpt (mSeq (mStarG isSpaceChar)
                 (mSeq (mOpt (mLit ("-".toList)))
                   (mSeq (mStarG isSpaceChar)
                     (mSeq (mLit ("V".toList)) (mPlusG Char.isDigit))))))))
    (mSeq (mStarG isCodeChar)
      (mSeq (mLit ("REI".toList))
        (mSeq (mPlusG Char.isDigit)
          (mSeq (mStarL isCodeChar)
            (mSeq (mOpt (mSeq (mLit ("CV".toList)) (mPlusG Char.isDigit)))
              (mSeq (mStarG isCodeChar)
                (mSeq (mLit ("X".toList))
                  (mSeq (mPlusG Char.isDigit)
                    (mSeq (mStarG isCodeChar)
                      (mSeq (mLit ("H".toList)) (mPlusG Char.isDigit)))))))))))

/-- Leftmost regex search with a combinator matcher: the first position
with a candidate wins, and the first candidate there gives group 0. -/
def reSearch (m : Matcher) : List Char → Option (List Char)
  | [] => ((m []).head?).map (fun _ => ([] : List Char))
  | c :: t =>
    match (m (c :: t)).head? with
    | some n => some ((c :: t).take n)
    | none => reSearch m t

/-- Class [A-Z0-9/\-\s] of the Tronsole code group (IGNORECASE adds the
lower-case letters). -/
def isTronChar (c : Char) : Bool :=
  ('A' ≤ c && c ≤ 'Z') || ('a' ≤ c && c ≤ 'z') || ('0' ≤ c && c ≤ '9') ||
    c = '/' || c = '-' || isSpaceChar c

/-- Attempt of the TRONSOLE_CODE pattern Typ[:\s]*([A-Z0-9/\-\s]+) at the
current position, returning the captured group: after the literal Typ the
greedy [:\s]* run backtracks to the last whitespace character when the
group would otherwise be empty. -/
def tronTryAt (s : List Char) : Option (List Char) :=
  match matchCI ("Typ".toList) s with
  | some pr =>
    let fill := pr.2.takeWhile (fun c => c = ':' || isSpaceChar c)
    let r2 := pr.2.drop fill.length
    if (r2.takeWhile isTronChar).isEmpty then
      let after := fill.reverse.takeWhile (fun c => !isSpaceChar c)
      if after.length = fill.length then none
      else some [fill.getD (fill.length - after.length - 1) ' ']
    else some (r2.takeWhile isTronChar)
  | none => none

/-- Leftmost search of the TRONSOLE_CODE pattern, returning group 1. -/
def tronSearch : List Char → Option (List Char)
  | [] => none
  | c :: t =>
    match tronTryAt (c :: t) with
    | some g => some g
    | none => tronSearch t

/-- Class [^\s,;/] of the Stacon code tail. -/
def isStaconTail (c : Char) : Bool := !(isSpaceChar c || c = ',' || c = ';' || c = '/')

/-- The LS-Q branch of the STACON_CODE pattern. -/
def staconTryLSQ (s : List Char) : Option (List Char) :=
  match matchCI ("LS-Q".toList) s with
  | some pr =>
    let tl := pr.2.takeWhile isStaconTail
    if tl.isEmpty then none else some (pr.1 ++ tl)
  | none => none

/-- Attempt of the STACON_CODE pattern (SLD[^\s,;/]+|LS-Q[^\s,;/]+) at
the current position (SLD branch first). -/
def staconTryAt (s : List Char) : Option (List Char) :=
  match matchCI ("SLD".toList) s with
  | some pr =>
    let tl := pr.2.takeWhile isStaconTail
    if tl.isEmpty then staconTryLSQ s else some (pr.1 ++ tl)
  | none => staconTryLSQ s

/-- Leftmost search of the STACON_CODE pattern, returning group 1. -/
def staconSearch : List Char → Option (List Char)
  | [] => none
  | c :: t =>
    match staconTryAt (c :: t) with
    | some g => some g
    | none => staconSearch t

/- ## Stage 2: the line scan of parse_txt_file -/

/-- Competitor words to ignore. -/
def COMPETITORS : List (List Char) :=
  ["halfen".toList, "hit".toList, "tebea".toList, "arbox".toList]

/-- Function looks_like_competitor: plain substring test on the lowered
line. -/
def looks_like_competitor (lineLower : List Char) : Bool :=
  COMPETITORS.any (fun w => containsSub w lineLower)

/-- Family names, in FAMILY_PATTERNS dict order. -/
def FAMILY_ORDER : List (List Char) :=
  ["Isokorb".toList, "Tronsole".toList, "Stacon".toList, "Tronsolen".toList]

/-- First family whose fuzzy pattern matches the cleaned line. -/
def searchFamilyIn (cl : List Char) : Option (List Char) :=
  FAMILY_ORDER.find? (fun f => fuzzySearch f cl)

/-- Family detection: the cleaned current line first, then the cleaned
previous line. -/
def detect_family (lines : List (List Char)) (idx : Nat) (cline : List Char) :
    Option (List Char) :=
  match searchFamilyIn cline with
  | some f => some f
  | none =>
    if 0 < idx then
      searchFamilyIn (clean_line_for_matching (pyStrip (lines.getD (idx - 1) [])))
    else none

/-- The cleaned current line joined with the cleaned next line: the
segment the code patterns are applied to. -/
def segment_for (lines : List (List Char)) (idx : Nat) (cline : List Char) : List Char :=
  if idx + 1 < lines.length then
    cline ++ ' ' :: clean_line_for_matching (pyStrip (lines.getD (idx + 1) []))
  else cline

/-- Family-specific product code extraction. -/
def extract_code (fam : List Char) (seg : List Char) : List Char :=
  if fam = "Isokorb".toList then
    match reSearch isokorbM seg with
    | some m => pyStrip m
    | none => []
  else if fam = "Tronsole".toList then
    match tronSearch seg with
    | some g => "Typ ".toList ++ pyStrip g
    | none => []
  else if fam = "Stacon".toList then
    match staconSearch seg with
    | some g => pyStrip g
    | none => []
  else []

/-- Marker-line test: startswith("--- [PAGE ") and endswith("] ---"). -/
def isMarkerLine (line : List Char) : Bool :=
  ("--- [PAGE ".toList).isPrefixOf line && ("] ---".toList).isSuffixOf line

/-- Vendor-mention test on the cleaned lowered line. -/
def vendor_present (clower : List Char) : Bool :=
  containsSub ("schöck".toList) clower || containsSub ("schoeck".toList) clower

/-- One emitted record of parse_txt_file. -/
structure Row where
  document : List Char
  page : Option Nat
  lv_position : Option (List Char)
  family : List Char
  product_code : List Char
  quantity : Option Nat
  unit : Option (List Char)
  source_line : List Char
deriving DecidableEq, Repr

/-- Carried scan state of the line loop: current page, current LV. -/
structure ScanSt where
  page : Option Nat
  lv : Option (List Char)
deriving DecidableEq, Repr

/-- Processing of one line of parse_txt_file: the updated scan state and
the emitted row, if any. -/
def processLine (stem : List Char) (lines : List (List Char)) (st : ScanSt)
    (idx : Nat) : ScanSt × Option Row :=
  let line := pyStrip (lines.getD idx [])
  let cline := clean_line_for_matching line
  let clower := lowerStr cline
  if isMarkerLine line then
    ({ page := (firstDigitRun line).map digitsToNat, lv := st.lv }, none)
  else
    let lv2 := match lvSearch cline with
      | some m => some m
      | none => st.lv
    let st2 : ScanSt := { page := st.page, lv := lv2 }
    if !vendor_present clower then (st2, none)
    else if looks_like_competitor clower then (st2, none)
    else
      match detect_family lines idx cline with
      | none => (st2, none)
      | some fam =>
        let code := extract_code fam (segment_for lines idx cline)
        let qu := find_qty_unit lines idx
        if qu.isSome || !code.isEmpty then
          (st2, some {
            document := stem ++ ".pdf".toList,
            page := st.page,
            lv_position := lv2,
            family := fam,
            product_code := code,
            quantity := qu.map Prod.fst,
            unit := qu.map Prod.snd,
            source_line := line.take 500 })
        else (st2, none)

/-- The emitted-record component of one line scan, flattened out of the
state-passing form for reasoning. -/
def emittedRow (stem : List Char) (lines : List (List Char)) (st : ScanSt)
    (idx : Nat) : Option Row :=
  let line := pyStrip (lines.getD idx [])
  let cline := clean_line_for_matching line
  let clower := lowerStr cline
  if isMarkerLine line then none
  else if !vendor_present clower then none
  else if looks_like_competitor clower then none
  else
    match detect_family lines idx cline with
    | none => none
    | some fam =>
      let code := extract_code fam (segment_for lines idx cline)
      let qu := find_qty_unit lines idx
      if qu.isSome || !code.isEmpty then
        some { document := stem ++ ".pdf".toList, page := st.page,
               lv_position := (match lvSearch cline with | some m => some m | none => st.lv),
               family := fam, product_code := code,
               quantity := qu.map Prod.fst, unit := qu.map Prod.snd,
               source_line := line.take 500 }
      else none

/-- Function parse_txt_file: fold the per-line processing over the lines,
accumulating the emitted rows. -/
def parse_txt_file (stem : List Char) (lines : List (List Char)) : List Row :=
  ((List.range lines.length).foldl
    (fun acc idx =>
      let r := processLine stem lines acc.1 idx
      (r.1, acc.2 ++ r.2.toList))
    (⟨⟨none, none⟩, []⟩ : ScanSt × List Row)).2

/- ## Stage 1: page classifier (1_extract_text.py) -/

/-- Threshold constants of 1_extract_text.py. -/
def MIN_CHARS_PER_PAGE : Nat := 20

/-- Sparse-text character threshold. -/
def SPARSE_TEXT_CHARS : Nat := 800

/-- Sparse word-count threshold. -/
def SPARSE_WORDS : Nat := 80

/-- Vector-object density threshold. -/
def VECTOR_OBJECT_THRESHOLD : Nat := 30

/-- Abstraction of one pdfplumber page: its extracted raw text, the number
of words pdfplumber reports, and the four vector-object counts. -/
structure PageData where
  raw : List Char
  words : Nat
  rects : Nat
  lins : Nat
  curves : Nat
  imgs : Nat
deriving DecidableEq, Repr

/-- Function is_sparse_digital_page: a digital page is sparse when its text
is short, it has few words, and rects+lines+curves+images is dense. -/
def is_sparse_digital_page (txtLen wordCount rects lins curves imgs : Nat) : Bool :=
  if SPARSE_TEXT_CHARS ≤ txtLen then false
  else if SPARSE_WORDS ≤ wordCount then false
  else VECTOR_OBJECT_THRESHOLD ≤ rects + lins + curves + imgs

/-- Three-way page classification of the spec (section 4.1). -/
inductive PageClass where
  | NO_TEXT
  | SPARSE_VECTOR
  | DIGITAL_OK
deriving DecidableEq, Repr

/-- Page classification as the branch structure of extract_text_mixed
performs it: stripped text below the minimum goes to OCR, sparse
vector-heavy pages are forced to OCR, the rest keep digital text. -/
def classify_page (p : PageData) : PageClass :=
  let txt := pyStrip p.raw
  if txt.length < MIN_CHARS_PER_PAGE then .NO_TEXT
  else if is_sparse_digital_page txt.length p.words p.rects p.lins p.curves p.imgs then
    .SPARSE_VECTOR
  else .DIGITAL_OK

/- ## Stage 1: per-page assembly of extract_text_mixed -/

/-- Page marker text "\n--- [PAGE n] ---\n". -/
def markerText (n : Nat) : List Char :=
  '\n' :: "--- [PAGE ".toList ++ (Nat.toDigits 10 n) ++ "] ---".toList ++ ['\n']

/-- Routing decision of extract_text_mixed for one page: OCR when the
stripped text is below the minimum, or when the page is sparse digital. -/
def pageNeedsOcr (p : PageData) : Bool :=
  let txt := pyStrip p.raw
  if txt.length < MIN_CHARS_PER_PAGE then true
  else is_sparse_digital_page txt.length p.words p.rects p.lins p.curves p.imgs

/-- Initial pieces array: digital pages are finalised inside the page
loop with their marker and verbatim stripped text; pages queued for OCR
stay unfilled. -/
def initPieces (pages : List PageData) : List (Option (List Char)) :=
  (List.range pages.length).map (fun i =>
    let p := pages.getD i ⟨[], 0, 0, 0, 0, 0⟩
    if pageNeedsOcr p then none
    else some (markerText (i + 1) ++ pyStrip p.raw))

/-- Pages queued for OCR, as 1-based page numbers in page order. -/
def pagesForOcr (pages : List PageData) : List Nat :=
  ((List.range pages.length).filter
    (fun i => pageNeedsOcr (pages.getD i ⟨[], 0, 0, 0, 0, 0⟩))).map (· + 1)

/-- Write one finished OCR result into its page slot (1-based page
number); the recognised text passes the glitch normaliser. -/
def writeOcr (ocr : Nat → List Char) (pieces : List (Option (List Char)))
    (pno : Nat) : List (Option (List Char)) :=
  pieces.set (pno - 1)
    (some (markerText pno ++ normalize_known_ocr_brand_glitches (ocr pno)))

/-- Assembly of the annotated blob: digital pages finalised in the page
loop, OCR results written back into their slots in completion order, and
the pieces joined in page order. -/
def extract_text_mixed (pages : List PageData) (ocr : Nat → List Char)
    (completionOrder : List Nat) : List Char :=
  ((completionOrder.foldl (writeOcr ocr) (initPieces pages)).map
    (fun o => o.getD [])).flatten

/-- The final text of one page in the canonical result. -/
def finalPageText (pages : List PageData) (ocr : Nat → List Char) (i : Nat) : List Char :=
  let p := pages.getD i ⟨[], 0, 0, 0, 0, 0⟩
  if pageNeedsOcr p then normalize_known_ocr_brand_glitches (ocr (i + 1))
  else pyStrip p.raw

/-- The canonical blob: pages 1..N contribute, in page order, exactly one
marker each followed by exactly one (possibly empty) text section. -/
def canonicalBlob (pages : List PageData) (ocr : Nat → List Char) : List Char :=
  ((List.range pages.length).map
    (fun i => markerText (i + 1) ++ finalPageText pages ocr i)).flatten

/- ## Stage 1: OCR worker-pool configuration -/

/-- Python str.isdigit restricted to ASCII digit strings. -/
def isDigitStr (s : List Char) : Bool := !s.isEmpty && s.all Char.isDigit

/-- MAX_WORKERS initialisation: default min(cpu_count or 2, 8); an
environment value that is a nonempty digit string overrides it with
max 1 (int value). -/
def max_workers (cpu : Option Nat) (env : Option (List Char)) : Nat :=
  let d := min (match cpu with | none => 2 | some 0 => 2 | some n => n) 8
  match env with
  | none => d
  | some s => if isDigitStr s then max 1 (digitsToNat s) else d


/- ## Proof-layer notions for the normaliser development -/

/-- Letters of the repertoire: ASCII letters and the German letters. -/
def isLetterChar (c : Char) : Bool :=
  c.isAlpha || c = 'ö' || c = 'Ö' || c = 'ä' || c = 'Ä' ||
    c = 'ü' || c = 'Ü' || c = 'ß'

/-- Inductive trace of the leftmost-substitution scan: relates a scan
state (previous original character, remaining input) to the output the
scan produces, one copied character or one fired match at a time. -/
inductive Trace (tm : TryFun) : Option Char → List Char → List Char → Prop where
  | nil : ∀ p, Trace tm p [] []
  | copy : ∀ p c t o, tm p c t = none → Trace tm (some c) t o →
      Trace tm p (c :: t) (c :: o)
  | fire : ∀ p c t r mt rest o, tm p c t = some (r, mt, rest) →
      Trace tm (lastD mt p) rest o → Trace tm p (c :: t) (r ++ o)

/-- Every firing position of the scan (with actual previous characters)
fires an identity match: the replacement equals the matched text. -/
def allIdB (tm : TryFun) : Option Char → List Char → Bool
  | _, [] => true
  | p, c :: t =>
    (match tm p c t with
     | none => true
     | some (r, mt, _) => decide (r = mt)) && allIdB tm (some c) t
/-- Last-character context of a cons. -/
theorem lastD_cons (c : Char) (u : List Char) (p : Option Char) :
    lastD (c :: u) p = lastD u (some c) := by
  cases u with
  | nil => rfl
  | cons d u2 =>
    simp only [lastD, List.getLast?_cons_cons]
    cases hg : (d :: u2).getLast? with
    | none => simp at hg
    | some a => rfl

/-- The pattern suffixes never spell out a whole replacement token. -/
def NoCrossP (tokp w : List Char) : Prop :=
  ∀ j : Nat, (lowerStr tokp).isPrefixOf (lowerStr (List.drop j w)) = false

/-- Every unit-pattern fire in a string is the identity fire on the
literal text "St". -/
def stOKB : List Char → Bool
  | [] => true
  | c :: t =>
    (match tmSt none c t with
     | none => true
     | some (r, mt, _) => decide (r = mt)) && stOKB t

/-- An adjacent pair is benign for the hyphen pattern unless it is
space-hyphen or hyphen-space. -/
def hyphPairOK (a b : Char) : Bool :=
  !((isSpaceChar a && b = '-') || (a = '-' && isSpaceChar b))

/-- No space-hyphen or hyphen-space adjacency, given a left context. -/
def npH : Option Char → List Char → Bool
  | _, [] => true
  | none, c :: t => npH (some c) t
  | some a, c :: t => hyphPairOK a c && npH (some c) t

end Pdf

/- ## Theorems -/

namespace Pdf

/-- C3: the page classifier returns NO_TEXT exactly when the stripped text
length is below 20; with text length at least 20 it returns SPARSE_VECTOR
exactly when text length is below 800, word count below 80, and the sum of
rect, line, curve and image counts is at least 30; failing any one of the
three sparse conditions (with text length at least 20) yields DIGITAL_OK. -/
theorem c3_page_classifier (p : PageData) :
    (classify_page p = .NO_TEXT ↔ (pyStrip p.raw).length < 20) ∧
    ((pyStrip p.raw).length ≥ 20 →
      (classify_page p = .SPARSE_VECTOR ↔
        ((pyStrip p.raw).length < 800 ∧ p.words < 80 ∧
          30 ≤ p.rects + p.lins + p.curves + p.imgs))) ∧
    ((pyStrip p.raw).length ≥ 20 →
      ((pyStrip p.raw).length ≥ 800 ∨ p.words ≥ 80 ∨
        p.rects + p.lins + p.curves + p.imgs < 30) →
      classify_page p = .DIGITAL_OK) := by
  have hcls : classify_page p =
      if (pyStrip p.raw).length < 20 then .NO_TEXT
      else if (pyStrip p.raw).length < 800 ∧ p.words < 80 ∧
          30 ≤ p.rects + p.lins + p.curves + p.imgs then .SPARSE_VECTOR
      else .DIGITAL_OK := by
    unfold classify_page is_sparse_digital_page
    unfold MIN_CHARS_PER_PAGE SPARSE_TEXT_CHARS SPARSE_WORDS VECTOR_OBJECT_THRESHOLD
    by_cases h1 : (pyStrip p.raw).length < 20
    · simp [h1]
    · by_cases h2 : 800 ≤ (pyStrip p.raw).length
      · have hn : ¬ ((pyStrip p.raw).length < 800 ∧ p.words < 80 ∧
            30 ≤ p.rects + p.lins + p.curves + p.imgs) := by
          rintro ⟨a, -, -⟩; omega
        simp [h1, h2, hn]
      · by_cases h3 : 80 ≤ p.words
        · have hn : ¬ ((pyStrip p.raw).length < 800 ∧ p.words < 80 ∧
              30 ≤ p.rects + p.lins + p.curves + p.imgs) := by
            rintro ⟨-, b, -⟩; omega
          simp [h1, h2, h3, hn]
        · by_cases h4 : 30 ≤ p.rects + p.lins + p.curves + p.imgs
          · have hp : (pyStrip p.raw).length < 800 ∧ p.words < 80 ∧
                30 ≤ p.rects + p.lins + p.curves + p.imgs := ⟨by omega, by omega, h4⟩
            simp [h1, h2, h3, h4, hp]
          · simp [h1, h2, h3, h4]
  rw [hcls]
  refine ⟨?_, ?_, ?_⟩
  · by_cases h1 : (pyStrip p.raw).length < 20
    · simp [h1]
    · simp only [if_neg h1]
      constructor
      · intro h; split at h <;> simp_all
      · intro h; omega
  · intro h20
    have h1 : ¬ ((pyStrip p.raw).length < 20) := by omega
    simp only [if_neg h1]
    constructor
    · intro h; split at h <;> simp_all
    · intro h; simp [h]
  · intro h20 hfail
    have h1 : ¬ ((pyStrip p.raw).length < 20) := by omega
    have hn : ¬ ((pyStrip p.raw).length < 800 ∧ p.words < 80 ∧
        30 ≤ p.rects + p.lins + p.curves + p.imgs) := by
      rintro ⟨a, b, c⟩
      rcases hfail with h | h | h <;> omega
    simp [h1, hn]

/-- C3 witness: a concrete sparse vector-heavy page is classified
SPARSE_VECTOR, and making one condition fail yields DIGITAL_OK. -/
theorem c3_page_classifier_witness :
    (pyStrip ("abcdefghijklmnopqrstuvwx".toList)).length ≥ 20 ∧
    classify_page ⟨"abcdefghijklmnopqrstuvwx".toList, 10, 20, 20, 0, 0⟩ = .SPARSE_VECTOR := by
  have h := c3_page_classifier ⟨"abcdefghijklmnopqrstuvwx".toList, 10, 20, 20, 0, 0⟩
  refine ⟨by decide, ?_⟩
  exact (h.2.1 (by decide)).mpr (by decide)

/-- A substitution pass with no firing position is the identity, whatever
the fuel. -/
theorem runSubF_of_noFire (tm : TryFun) :
    ∀ (fuel : Nat) (p : Option Char) (s : List Char),
      noFireB tm p s = true → runSubF tm fuel p s = s := by
  intro fuel
  induction fuel with
  | zero => intro p s _; rfl
  | succ n ih =>
    intro p s h
    cases s with
    | nil => rfl
    | cons c t =>
      simp only [noFireB, Bool.and_eq_true, Option.isNone_iff_eq_none] at h
      simp only [runSubF, h.1]
      rw [ih _ _ h.2]

/-- Specialisation of the identity lemma to a whole pass. -/
theorem subBy_of_noFire (tm : TryFun) (s : List Char)
    (h : noFireB tm none s = true) : subBy tm s = s :=
  runSubF_of_noFire tm _ none s h

/-- C7: every standalone occurrence of the brand token whose first letter
was substituted by a configured character is rewritten to the canonical
TEBEA, case-insensitively and word-boundary anchored; a trailing
registered-trademark glyph is preserved; in particular 1EBEA normalises
to TEBEA; and text with no glitch-pattern match anywhere is unchanged. -/
theorem c7_glitch_normalizer :
    (∀ g ∈ ['1', 'I', 'l'],
      normalize_known_ocr_brand_glitches (' ' :: g :: "EBEA x".toList) =
        " TEBEA x".toList) ∧
    normalize_known_ocr_brand_glitches ("a|EBEA".toList) = "aTEBEA".toList ∧
    normalize_known_ocr_brand_glitches ("1EBEA".toList) = "TEBEA".toList ∧
    normalize_known_ocr_brand_glitches ("1EBEA®".toList) = "TEBEA®".toList ∧
    normalize_known_ocr_brand_glitches ("1EBEA ®".toList) = "TEBEA ®".toList ∧
    (∀ s, noFireB tmGlitch none s = true →
      normalize_known_ocr_brand_glitches s = s) := by
  refine ⟨by decide, by decide, by decide, by decide, by decide, ?_⟩
  intro s h
  exact subBy_of_noFire tmGlitch s h

/-- C7 witness: concrete instantiations of the rewrite and of the
identity on glitch-free text. -/
theorem c7_glitch_normalizer_witness :
    normalize_known_ocr_brand_glitches (' ' :: 'I' :: "EBEA x".toList) = " TEBEA x".toList ∧
    normalize_known_ocr_brand_glitches ("kein Treffer".toList) = "kein Treffer".toList := by
  refine ⟨c7_glitch_normalizer.1 'I' (by decide), ?_⟩
  exact c7_glitch_normalizer.2.2.2.2.2 ("kein Treffer".toList) (by decide)

set_option maxHeartbeats 2000000 in
/-- Rejection of any line whose cleaned lowered form contains a
competitor word: the scan emits nothing for it. -/
theorem processLine_none_of_competitor (stem : List Char) (lines : List (List Char))
    (st : ScanSt) (idx : Nat)
    (hc : looks_like_competitor
      (lowerStr (clean_line_for_matching (pyStrip (lines.getD idx [])))) = true) :
    (processLine stem lines st idx).2 = none := by
  unfold processLine
  by_cases hm : isMarkerLine (pyStrip (lines.getD idx [])) = true
  · simp only [hm, if_true, if_pos]
  · simp only [Bool.not_eq_true] at hm
    simp only [hm, Bool.false_eq_true, if_false]
    by_cases hv : vendor_present
        (lowerStr (clean_line_for_matching (pyStrip (lines.getD idx [])))) = true
    · simp only [hv, hc, Bool.not_true, Bool.false_eq_true, if_false, if_true]
    · simp only [Bool.not_eq_true] at hv
      simp only [hv, Bool.not_false, if_true]

/-- C2: a line whose cleaned lowered form contains the vendor name and
also a configured competitor name yields no record, regardless of what
else is on it. -/
theorem c2_competitor_precision_gate (stem : List Char) (lines : List (List Char))
    (st : ScanSt) (idx : Nat)
    (_hv : vendor_present
      (lowerStr (clean_line_for_matching (pyStrip (lines.getD idx [])))) = true)
    (hc : looks_like_competitor
      (lowerStr (clean_line_for_matching (pyStrip (lines.getD idx [])))) = true) :
    (processLine stem lines st idx).2 = none :=
  processLine_none_of_competitor stem lines st idx hc

/-- C2 witness: a concrete vendor plus competitor line is dropped. -/
theorem c2_competitor_precision_gate_witness :
    (processLine ("doc".toList) [("Schöck und Halfen Isokorb 5 St".toList)]
      ⟨none, none⟩ 0).2 = none := by
  exact c2_competitor_precision_gate ("doc".toList)
    [("Schöck und Halfen Isokorb 5 St".toList)] ⟨none, none⟩ 0
    (by decide) (by decide)

/-- C9 counterexample: the German words Einheit and Schicht do not in
fact contain the competitor substring hit, and a vendor line containing
Einheit (with family and quantity present) does emit a record. -/
theorem c9_counterexample :
    containsSub ("hit".toList) (lowerStr ("Einheit".toList)) = false ∧
    containsSub ("hit".toList) (lowerStr ("Schicht".toList)) = false ∧
    (processLine ("doc".toList) [("Schöck Isokorb Einheit 5 St".toList)]
      ⟨none, none⟩ 0).2 ≠ none := by
  refine ⟨by decide, by decide, ?_⟩
  decide

/-- C9 (amended): competitor rejection is plain substring matching on the
cleaned lowered line, so every line whose cleaned lowered form contains
halfen, hit, tebea or arbox anywhere — including inside an unrelated
longer word such as Architekt or Hitze — yields no record, even when a
vendor mention, family, code and quantity are present. -/
theorem c9_substring_rejection (stem : List Char) (lines : List (List Char))
    (st : ScanSt) (idx : Nat)
    (hc : looks_like_competitor
      (lowerStr (clean_line_for_matching (pyStrip (lines.getD idx [])))) = true) :
    (processLine stem lines st idx).2 = none :=
  processLine_none_of_competitor stem lines st idx hc

/-- C9 witness: a vendor line mentioning Hitzeschutz (which contains hit)
is dropped even though family, code and quantity are present. -/
theorem c9_substring_rejection_witness :
    (processLine ("doc".toList)
      [("Schöck Isokorb K-M6 Hitzeschutz 5 St".toList)] ⟨none, none⟩ 0).2 = none := by
  exact c9_substring_rejection ("doc".toList)
    [("Schöck Isokorb K-M6 Hitzeschutz 5 St".toList)] ⟨none, none⟩ 0 (by decide)

set_option maxHeartbeats 2000000 in
/-- The record component of the line scan agrees with the flattened
form. -/
theorem processLine_snd (stem : List Char) (lines : List (List Char))
    (st : ScanSt) (idx : Nat) :
    (processLine stem lines st idx).2 = emittedRow stem lines st idx := by
  unfold processLine emittedRow
  by_cases hm : isMarkerLine (pyStrip (lines.getD idx [])) = true
  · simp only [hm, if_true]
  · simp only [Bool.not_eq_true] at hm
    simp only [hm, Bool.false_eq_true, if_false]
    by_cases hv : vendor_present
        (lowerStr (clean_line_for_matching (pyStrip (lines.getD idx [])))) = true
    · simp only [hv, Bool.not_true, Bool.false_eq_true, if_false]
      by_cases hc : looks_like_competitor
          (lowerStr (clean_line_for_matching (pyStrip (lines.getD idx [])))) = true
      · simp only [hc, if_true]
      · simp only [Bool.not_eq_true] at hc
        simp only [hc, Bool.false_eq_true, if_false]
        cases hf : detect_family lines idx
            (clean_line_for_matching (pyStrip (lines.getD idx []))) with
        | none => simp only [hf]
        | some fam =>
          simp only [hf]
          by_cases hg : ((find_qty_unit lines idx).isSome
              || !(extract_code fam (segment_for lines idx
                    (clean_line_for_matching (pyStrip (lines.getD idx []))))).isEmpty) = true
          · simp only [hg, if_true]
          · simp only [Bool.not_eq_true] at hg
            simp only [hg, Bool.false_eq_true, if_false]
    · simp only [Bool.not_eq_true] at hv
      simp only [hv, Bool.not_false, if_true]

/-- Membership of detected families in the configured list. -/
theorem detect_family_mem (lines : List (List Char)) (idx : Nat) (cl fam : List Char)
    (h : detect_family lines idx cl = some fam) : fam ∈ FAMILY_ORDER := by
  unfold detect_family searchFamilyIn at h
  cases h1 : List.find? (fun f => fuzzySearch f cl) FAMILY_ORDER with
  | some f =>
    simp only [h1] at h
    injection h with h
    subst h
    exact List.mem_of_find?_eq_some h1
  | none =>
    simp only [h1] at h
    by_cases h2 : 0 < idx
    · rw [if_pos h2] at h
      exact List.mem_of_find?_eq_some h
    · rw [if_neg h2] at h
      cases h

/-- Structure of every emitted row: its family comes from detection, its
code from the family-specific extraction, its quantity and unit from the
lookahead search, and the emission gate held. -/
theorem processLine_row_spec (stem : List Char) (lines : List (List Char))
    (st : ScanSt) (idx : Nat) (row : Row)
    (h : (processLine stem lines st idx).2 = some row) :
    ∃ fam, detect_family lines idx
        (clean_line_for_matching (pyStrip (lines.getD idx []))) = some fam ∧
      row.family = fam ∧
      row.product_code = extract_code fam (segment_for lines idx
        (clean_line_for_matching (pyStrip (lines.getD idx [])))) ∧
      row.quantity = (find_qty_unit lines idx).map Prod.fst ∧
      row.unit = (find_qty_unit lines idx).map Prod.snd ∧
      ((find_qty_unit lines idx).isSome = true ∨ row.product_code ≠ []) := by
  rw [processLine_snd] at h
  unfold emittedRow at h
  dsimp only at h
  split at h
  · cases h
  · split at h
    · cases h
    · split at h
      · cases h
      · split at h
        · cases h
        · next fam hf =>
          split at h
          · next hg =>
            injection h with h
            subst h
            refine ⟨fam, hf, rfl, rfl, rfl, rfl, ?_⟩
            simp only [Bool.or_eq_true] at hg
            rcases hg with h1 | h1
            · exact Or.inl h1
            · refine Or.inr ?_
              simp only [Bool.not_eq_true', List.isEmpty_eq_false] at h1
              simpa using h1
          · cases h

/-- Every row produced by the fold satisfies any property that every
single-line emission satisfies. -/
theorem parse_rows_inv (stem : List Char) (lines : List (List Char))
    (P : Row → Prop)
    (h : ∀ st idx row, (processLine stem lines st idx).2 = some row → P row) :
    ∀ row ∈ parse_txt_file stem lines, P row := by
  have h2 : ∀ (l : List Nat) (st : ScanSt) (acc : List Row), (∀ r ∈ acc, P r) →
      ∀ r ∈ (l.foldl (fun acc2 idx =>
        let r := processLine stem lines acc2.1 idx
        (r.1, acc2.2 ++ r.2.toList)) (st, acc)).2, P r := by
    intro l
    induction l with
    | nil => intro st acc hacc r hr; exact hacc r hr
    | cons i l ih =>
      intro st acc hacc r hr
      rw [List.foldl_cons] at hr
      refine ih _ _ ?_ r hr
      intro r2 hr2
      dsimp only at hr2
      rcases List.mem_append.mp hr2 with h3 | h3
      · exact hacc r2 h3
      · cases ho : (processLine stem lines st i).2 with
        | none => rw [ho] at h3; cases h3
        | some row2 =>
          rw [ho] at h3
          simp only [Option.toList_some, List.mem_singleton] at h3
          rw [h3]
          exact h st i row2 ho
  intro row hrow
  exact h2 (List.range lines.length) ⟨none, none⟩ [] (by intro r hr; cases hr) row hrow

/-- C1: every emitted record has a family from the configured list and at
least one of quantity and product code present; and a line yields a
record exactly when it is not a page marker, mentions the vendor, does
not mention a competitor, a family was determined, and a quantity or a
nonempty product code was found. -/
theorem c1_emission_gate (stem : List Char) (lines : List (List Char)) :
    (∀ row ∈ parse_txt_file stem lines,
        row.family ∈ FAMILY_ORDER ∧ (row.quantity ≠ none ∨ row.product_code ≠ [])) ∧
    (∀ (st : ScanSt) (idx : Nat), (processLine stem lines st idx).2 ≠ none ↔
      (isMarkerLine (pyStrip (lines.getD idx [])) = false ∧
       vendor_present (lowerStr (clean_line_for_matching (pyStrip (lines.getD idx [])))) = true ∧
       looks_like_competitor (lowerStr (clean_line_for_matching (pyStrip (lines.getD idx [])))) = false ∧
       ∃ fam, detect_family lines idx
           (clean_line_for_matching (pyStrip (lines.getD idx []))) = some fam ∧
         (find_qty_unit lines idx ≠ none ∨
          extract_code fam (segment_for lines idx
            (clean_line_for_matching (pyStrip (lines.getD idx [])))) ≠ []))) := by
  constructor
  · refine parse_rows_inv stem lines _ ?_
    intro st idx row h
    obtain ⟨fam, hf, hfam, hcode, hq, hu, hgate⟩ := processLine_row_spec stem lines st idx row h
    refine ⟨hfam ▸ detect_family_mem lines idx _ fam hf, ?_⟩
    rcases hgate with h1 | h1
    · refine Or.inl ?_
      rw [hq]
      rcases Option.isSome_iff_exists.mp h1 with ⟨v, hv⟩
      simp [hv]
    · exact Or.inr h1
  · intro st idx
    rw [processLine_snd]
    unfold emittedRow
    simp only [List.getD_eq_getElem?_getD]
    split
    · next hm =>
      simp [hm]
    · next hm =>
      simp only [Bool.not_eq_true] at hm
      split
      · next hv =>
        rw [Bool.not_eq_true'] at hv
        simp [hm, hv]
      · next hv =>
        rw [Bool.not_eq_true, Bool.not_eq_false'] at hv
        split
        · next hc => simp [hm, hv, hc]
        · next hc =>
          simp only [Bool.not_eq_true] at hc
          split
          · next hf => simp [hm, hv, hc, hf]
          · next fam hf =>
            split
            · next hg =>
              simp only [ne_eq, reduceCtorEq, not_false_eq_true, true_iff]
              refine ⟨hm, hv, hc, fam, hf, ?_⟩
              simp only [Bool.or_eq_true] at hg
              rcases hg with h1 | h1
              · exact Or.inl (by simpa [Option.isSome_iff_ne_none] using h1)
              · refine Or.inr ?_
                rw [Bool.not_eq_true'] at h1
                intro h2
                rw [h2] at h1
                simp at h1
            · next hg =>
              simp only [ne_eq, not_true_eq_false, false_iff, not_and]
              intro _ _ _
              rintro ⟨fam2, hf2, hor⟩
              rw [hf] at hf2
              injection hf2 with hf2
              subst hf2
              rw [Bool.not_eq_true, Bool.or_eq_false_iff] at hg
              rcases hor with h1 | h1
              · have h2 : (find_qty_unit lines idx).isSome = true := by
                  simpa [Option.isSome_iff_ne_none] using h1
                rw [h2] at hg
                cases hg.1
              · have h2 := hg.2
                rw [Bool.not_eq_false', List.isEmpty_iff] at h2
                exact h1 h2

/-- C1 witness: a concrete line that passes every gate emits a record
with a configured family and the gate disjunction, and yields a
non-empty result. -/
theorem c1_emission_gate_witness :
    (∃ row ∈ parse_txt_file ("doc".toList) [("Schöck Isokorb 5 St".toList)],
      row.family ∈ FAMILY_ORDER ∧ (row.quantity ≠ none ∨ row.product_code ≠ [])) ∧
    (processLine ("doc".toList) [("Schöck Isokorb 5 St".toList)] ⟨none, none⟩ 0).2 ≠ none := by
  have hmem := (c1_emission_gate ("doc".toList) [("Schöck Isokorb 5 St".toList)]).1
  have hne : parse_txt_file ("doc".toList) [("Schöck Isokorb 5 St".toList)] ≠ [] := by decide
  constructor
  · cases hp : parse_txt_file ("doc".toList) [("Schöck Isokorb 5 St".toList)] with
    | nil => exact absurd hp hne
    | cons r l =>
      exact ⟨r, List.mem_cons_self r l, hmem r (by rw [hp]; exact List.mem_cons_self r l)⟩
  · exact ((c1_emission_gate ("doc".toList) [("Schöck Isokorb 5 St".toList)]).2 ⟨none, none⟩ 0).mpr
      (by exact ⟨by decide, by decide, by decide, "Isokorb".toList, by decide, Or.inl (by decide)⟩)

/-- C10: every emitted record whose family is Tronsolen has an empty
product code, and therefore a present quantity and unit. -/
theorem c10_tronsolen_rows (stem : List Char) (lines : List (List Char))
    (st : ScanSt) (idx : Nat) (row : Row)
    (h : (processLine stem lines st idx).2 = some row)
    (hfam : row.family = "Tronsolen".toList) :
    row.product_code = [] ∧ row.quantity ≠ none ∧ row.unit ≠ none := by
  obtain ⟨fam, hf, hfam2, hcode, hq, hu, hgate⟩ := processLine_row_spec stem lines st idx row h
  have hfe : fam = "Tronsolen".toList := by rw [← hfam2, hfam]
  subst hfe
  have hce : extract_code ("Tronsolen".toList) (segment_for lines idx
      (clean_line_for_matching (pyStrip (lines.getD idx [])))) = [] := by
    unfold extract_code
    rw [if_neg (by decide), if_neg (by decide), if_neg (by decide)]
  rw [hce] at hcode
  have hqs : (find_qty_unit lines idx).isSome = true := by
    rcases hgate with h1 | h1
    · exact h1
    · exact absurd hcode h1
  rcases Option.isSome_iff_exists.mp hqs with ⟨v, hv⟩
  refine ⟨hcode, ?_, ?_⟩
  · rw [hq, hv]; simp
  · rw [hu, hv]; simp

/-- C10 witness: a concrete Tronsolen record has empty code and a present
quantity and unit. -/
theorem c10_tronsolen_rows_witness :
    ∃ row, (processLine ("doc".toList) [("Schöck Tronsolen 5 St".toList)]
        ⟨none, none⟩ 0).2 = some row ∧ row.family = "Tronsolen".toList ∧
      (row.product_code = [] ∧ row.quantity ≠ none ∧ row.unit ≠ none) := by
  have hconc : (processLine ("doc".toList) [("Schöck Tronsolen 5 St".toList)]
      ⟨none, none⟩ 0).2 = some
      { document := "doc.pdf".toList, page := none, lv_position := none,
        family := "Tronsolen".toList, product_code := [],
        quantity := some 5, unit := some ("St".toList),
        source_line := "Schöck Tronsolen 5 St".toList } := by decide
  exact ⟨_, hconc, rfl,
    c10_tronsolen_rows ("doc".toList) [("Schöck Tronsolen 5 St".toList)]
      ⟨none, none⟩ 0 _ hconc rfl⟩

/-- Length preservation of the write-back fold. -/
theorem foldl_writeOcr_length (ocr : Nat → List Char) :
    ∀ (order : List Nat) (pieces : List (Option (List Char))),
      (order.foldl (writeOcr ocr) pieces).length = pieces.length := by
  intro order
  induction order with
  | nil => intro pieces; rfl
  | cons pno rest ih =>
    intro pieces
    rw [List.foldl_cons, ih]
    simp [writeOcr]

/-- Slot contents after the write-back fold: a queued page's slot holds
its OCR piece whatever the completion order; other slots are untouched. -/
theorem foldl_writeOcr_getElem? (ocr : Nat → List Char) :
    ∀ (order : List Nat) (pieces : List (Option (List Char))) (i : Nat),
      (∀ p ∈ order, 0 < p) → i < pieces.length →
      (order.foldl (writeOcr ocr) pieces)[i]? =
        if (i + 1) ∈ order then
          some (some (markerText (i + 1) ++
            normalize_known_ocr_brand_glitches (ocr (i + 1))))
        else pieces[i]? := by
  intro order
  induction order with
  | nil =>
    intro pieces i _ _
    simp
  | cons pno rest ih =>
    intro pieces i hpos hi
    rw [List.foldl_cons]
    rw [ih (writeOcr ocr pieces pno) i
      (fun p hp => hpos p (List.mem_cons_of_mem pno hp))
      (by simpa [writeOcr] using hi)]
    by_cases hmem : (i + 1) ∈ rest
    · rw [if_pos hmem, if_pos (List.mem_cons_of_mem pno hmem)]
    · rw [if_neg hmem]
      by_cases heq : pno = i + 1
      · subst heq
        rw [if_pos (List.mem_cons_self _ _)]
        unfold writeOcr
        rw [List.getElem?_set]
        simp [hi]
      · have hne : ¬ (i + 1) ∈ (pno :: rest) := by
          intro hx
          rcases List.mem_cons.mp hx with h | h
          · exact heq h.symm
          · exact hmem h
        rw [if_neg hne]
        unfold writeOcr
        rw [List.getElem?_set]
        have hd : ¬ (pno - 1 = i) := by
          have := hpos pno (List.mem_cons_self _ _)
          omega
        rw [if_neg hd]

/-- Queued-page membership in terms of the per-page routing decision. -/
theorem mem_pagesForOcr (pages : List PageData) (i : Nat)
    (hi : i < pages.length) :
    ((i + 1) ∈ pagesForOcr pages ↔
      pageNeedsOcr (pages.getD i ⟨[], 0, 0, 0, 0, 0⟩) = true) := by
  unfold pagesForOcr
  constructor
  · intro hx
    rcases List.mem_map.mp hx with ⟨j, hj, hj2⟩
    have : j = i := by omega
    subst this
    exact (List.mem_filter.mp hj).2
  · intro hx
    exact List.mem_map.mpr ⟨i, List.mem_filter.mpr ⟨List.mem_range.mpr hi, hx⟩, rfl⟩

/-- C4: for every completion order that is a permutation of the queued
pages, the assembled blob equals the canonical page-ordered blob — one
marker per page, ordinals 1..N in strictly increasing order with no gaps
or duplicates, each followed by exactly one (possibly empty) text
section — independently of OCR completion order. -/
theorem c4_page_ordered_reassembly (pages : List PageData) (ocr : Nat → List Char)
    (order : List Nat) (hperm : order.Perm (pagesForOcr pages)) :
    extract_text_mixed pages ocr order = canonicalBlob pages ocr := by
  unfold extract_text_mixed canonicalBlob
  congr 1
  apply List.ext_getElem?
  intro i
  have hlen0 : (initPieces pages).length = pages.length := by
    simp [initPieces]
  have hpos : ∀ p ∈ order, 0 < p := by
    intro p hp
    have hp2 := hperm.mem_iff.mp hp
    unfold pagesForOcr at hp2
    rcases List.mem_map.mp hp2 with ⟨j, -, rfl⟩
    omega
  by_cases hi : i < pages.length
  · rw [List.getElem?_map, List.getElem?_map]
    rw [foldl_writeOcr_getElem? ocr order (initPieces pages) i hpos (by omega)]
    rw [List.getElem?_range hi]
    have hinit : (initPieces pages)[i]? =
        some (if pageNeedsOcr (pages.getD i ⟨[], 0, 0, 0, 0, 0⟩) then none
              else some (markerText (i + 1) ++
                pyStrip (pages.getD i ⟨[], 0, 0, 0, 0, 0⟩).raw)) := by
      unfold initPieces
      rw [List.getElem?_map, List.getElem?_range hi]
      rfl
    have hmemiff : ((i + 1) ∈ order ↔
        pageNeedsOcr (pages.getD i ⟨[], 0, 0, 0, 0, 0⟩) = true) := by
      rw [hperm.mem_iff]
      exact mem_pagesForOcr pages i hi
    by_cases hocr : pageNeedsOcr (pages.getD i ⟨[], 0, 0, 0, 0, 0⟩) = true
    · rw [if_pos (hmemiff.mpr hocr)]
      simp only [List.getD_eq_getElem?_getD] at hocr
      simp [finalPageText, hocr]
    · rw [if_neg (fun hx => hocr (hmemiff.mp hx))]
      rw [hinit]
      simp only [Bool.not_eq_true] at hocr
      simp only [List.getD_eq_getElem?_getD] at hocr
      simp [finalPageText, hocr, List.getD_eq_getElem?_getD]
  · rw [List.getElem?_map, List.getElem?_map]
    have h1 : (order.foldl (writeOcr ocr) (initPieces pages))[i]? = none := by
      refine List.getElem?_eq_none ?_
      rw [foldl_writeOcr_length, hlen0]
      omega
    have h2 : (List.range pages.length)[i]? = none := by
      refine List.getElem?_eq_none ?_
      rw [List.length_range]
      omega
    rw [h1, h2]
    rfl

/-- C4 witness: a three-page document with one digital page and two OCR
pages, with OCR completions arriving in reverse order. -/
theorem c4_page_ordered_reassembly_witness :
    ([3, 2].Perm (pagesForOcr
      [⟨"abcdefghijklmnopqrstuvwx".toList, 100, 0, 0, 0, 0⟩,
       ⟨[], 0, 0, 0, 0, 0⟩, ⟨[], 0, 0, 0, 0, 0⟩])) ∧
    extract_text_mixed
      [⟨"abcdefghijklmnopqrstuvwx".toList, 100, 0, 0, 0, 0⟩,
       ⟨[], 0, 0, 0, 0, 0⟩, ⟨[], 0, 0, 0, 0, 0⟩]
      (fun n => if n = 2 then "zwei".toList else "drei".toList) [3, 2] =
    canonicalBlob
      [⟨"abcdefghijklmnopqrstuvwx".toList, 100, 0, 0, 0, 0⟩,
       ⟨[], 0, 0, 0, 0, 0⟩, ⟨[], 0, 0, 0, 0, 0⟩]
      (fun n => if n = 2 then "zwei".toList else "drei".toList) := by
  refine ⟨by decide, ?_⟩
  exact c4_page_ordered_reassembly
    [⟨"abcdefghijklmnopqrstuvwx".toList, 100, 0, 0, 0, 0⟩,
     ⟨[], 0, 0, 0, 0, 0⟩, ⟨[], 0, 0, 0, 0, 0⟩]
    (fun n => if n = 2 then "zwei".toList else "drei".toList) [3, 2] (by decide)

/-- Congruence for findSome? under pointwise agreement on the list. -/
theorem findSome?_congr {α β : Type} (f g : α → Option β) :
    ∀ l : List α, (∀ a ∈ l, f a = g a) → l.findSome? f = l.findSome? g := by
  intro l
  induction l with
  | nil => intro _; rfl
  | cons a l ih =>
    intro h
    rw [List.findSome?_cons, List.findSome?_cons, h a (List.mem_cons_self a l)]
    cases g a with
    | some b => rfl
    | none => exact ih (fun x hx => h x (List.mem_cons_of_mem a hx))

/-- findSome? over a contiguous index range returns the first hit. -/
theorem findSome?_range'_first {β : Type} (f : Nat → Option β) :
    ∀ (n a j : Nat) (v : β), a ≤ j → j < a + n →
      (∀ k, a ≤ k → k < j → f k = none) → f j = some v →
      (List.range' a n).findSome? f = some v := by
  intro n
  induction n with
  | zero => intro a j v h1 h2 _ _; omega
  | succ n ih =>
    intro a j v h1 h2 hnone hsome
    rw [List.range'_succ, List.findSome?_cons]
    by_cases ha : a = j
    · subst ha
      rw [hsome]
    · rw [hnone a le_rfl (by omega)]
      exact ih (a + 1) j v (by omega) (by omega)
        (fun k hk1 hk2 => hnone k (by omega) hk2) hsome

/-- C6: the quantity search examines the current line and up to three
subsequent lines only; the first line with a match (in lookahead order)
wins; the recorded quantity is the matched integer with the grouping
separators '.' and ',' stripped; and "10,000 St" yields the match
"10,000"/"St", normalised to quantity 10000 with unit St. -/
theorem c6_quantity_lookahead (lines : List (List Char)) (idx : Nat) :
    (find_qty_unit lines idx = find_qty_unit (lines.take (idx + 1 + LOOKAHEAD)) idx) ∧
    (∀ j q u, idx ≤ j → j < min (idx + 1 + LOOKAHEAD) lines.length →
      (∀ k, idx ≤ k → k < j →
        qtySearch (clean_line_for_matching (lines.getD k [])) = none) →
      qtySearch (clean_line_for_matching (lines.getD j [])) = some (q, u) →
      find_qty_unit lines idx = some (normalizeQty q, normalizeUnit u)) ∧
    qtySearch (clean_line_for_matching ("10,000 St".toList)) =
      some ("10,000".toList, "St".toList) ∧
    find_qty_unit [("10,000 St".toList)] 0 = some (10000, "St".toList) := by
  refine ⟨?_, ?_, by decide, by decide⟩
  · unfold find_qty_unit
    have hlen : min (idx + 1 + LOOKAHEAD) (lines.take (idx + 1 + LOOKAHEAD)).length =
        min (idx + 1 + LOOKAHEAD) lines.length := by
      rw [List.length_take]
      omega
    rw [hlen]
    have hcongr : ∀ j ∈ List.range' idx (min (idx + 1 + LOOKAHEAD) lines.length - idx),
        qtySearch (clean_line_for_matching (lines.getD j [])) =
        qtySearch (clean_line_for_matching ((lines.take (idx + 1 + LOOKAHEAD)).getD j [])) := by
      intro j hj
      rw [List.mem_range'_1] at hj
      have hjlt : j < idx + 1 + LOOKAHEAD := by omega
      rw [List.getD_eq_getElem?_getD, List.getD_eq_getElem?_getD,
        List.getElem?_take, if_pos hjlt]
    rw [findSome?_congr _ _ _ hcongr]
  · intro j q u hj1 hj2 hnone hsome
    unfold find_qty_unit
    rw [findSome?_range'_first
      (fun k => qtySearch (clean_line_for_matching (lines.getD k [])))
      (min (idx + 1 + LOOKAHEAD) lines.length - idx) idx j (q, u)
      hj1 (by omega) (fun k hk1 hk2 => hnone k hk1 hk2) hsome]
    rfl

/-- C6 witness: with no match on the current line, the match on the next
line wins and is normalised. -/
theorem c6_quantity_lookahead_witness :
    find_qty_unit [("keine Menge".toList), ("10,000 St".toList)] 0 =
      some (10000, "St".toList) := by
  have h := (c6_quantity_lookahead [("keine Menge".toList), ("10,000 St".toList)] 0).2.1
    1 ("10,000".toList) ("St".toList) (by omega) (by decide)
    (fun k hk1 hk2 => by
      have hk : k = 0 := by omega
      subst hk
      decide)
    (by decide)
  rw [h]
  decide

/-- C8 counterexample: the environment value "0" does not parse as a
positive integer, yet the pool size becomes 1 instead of keeping the
default min(4, 8) = 4. -/
theorem c8_counterexample :
    max_workers (some 4) (some ("0".toList)) = 1 ∧
    isDigitStr ("0".toList) = true ∧ digitsToNat ("0".toList) = 0 ∧
    max_workers (some 4) none = 4 := by decide

/-- C8 (amended): a digit-string environment value sets the pool size to
max 1 (parsed value) — equal to the value when it is positive, and 1
rather than the default when it is zero; a value that is not a nonempty
digit string keeps the default min(available parallelism, 8). -/
theorem c8_worker_pool_override (cpu : Option Nat) (s : List Char) :
    (isDigitStr s = true → 0 < digitsToNat s →
        max_workers cpu (some s) = digitsToNat s) ∧
    (isDigitStr s = true → digitsToNat s = 0 → max_workers cpu (some s) = 1) ∧
    (isDigitStr s = false → max_workers cpu (some s) = max_workers cpu none) := by
  refine ⟨?_, ?_, ?_⟩
  · intro h hpos
    simp [max_workers, h]
    omega
  · intro h hz
    simp [max_workers, h, hz]
  · intro h
    simp [max_workers, h]

/-- C8 witness: instantiations of the override behaviour at concrete
environment values "3", "0" and "x". -/
theorem c8_worker_pool_override_witness :
    max_workers (some 4) (some ("3".toList)) = 3 ∧
    max_workers (some 4) (some ("0".toList)) = 1 ∧
    max_workers (some 4) (some ("x".toList)) = max_workers (some 4) none := by
  refine ⟨?_, ?_, ?_⟩
  · exact (c8_worker_pool_override (some 4) ("3".toList)).1 (by decide) (by decide)
  · exact (c8_worker_pool_override (some 4) ("0".toList)).2.1 (by decide) (by decide)
  · exact (c8_worker_pool_override (some 4) ("x".toList)).2.2 (by decide)

/- ## Character-class algebra for the normaliser proofs -/

/-- The lower-casing map preserves the isSpaceChar character class. -/
theorem pyLower_space (c : Char) : isSpaceChar (pyLower c) = isSpaceChar c := by
  by_cases h1 : c = 'A'
  · subst h1; rfl
  by_cases h2 : c = 'B'
  · subst h2; rfl
  by_cases h3 : c = 'C'
  · subst h3; rfl
  by_cases h4 : c = 'D'
  · subst h4; rfl
  by_cases h5 : c = 'E'
  · subst h5; rfl
  by_cases h6 : c = 'F'
  · subst h6; rfl
  by_cases h7 : c = 'G'
  · subst h7; rfl
  by_cases h8 : c = 'H'
  · subst h8; rfl
  by_cases h9 : c = 'I'
  · subst h9; rfl
  by_cases h10 : c = 'J'
  · subst h10; rfl
  by_cases h11 : c = 'K'
  · subst h11; rfl
  by_cases h12 : c = 'L'
  · subst h12; rfl
  by_cases h13 : c = 'M'
  · subst h13; rfl
  by_cases h14 : c = 'N'
  · subst h14; rfl
  by_cases h15 : c = 'O'
  · subst h15; rfl
  by_cases h16 : c = 'P'
  · subst h16; rfl
  by_cases h17 : c = 'Q'
  · subst h17; rfl
  by_cases h18 : c = 'R'
  · subst h18; rfl
  by_cases h19 : c = 'S'
  · subst h19; rfl
  by_cases h20 : c = 'T'
  · subst h20; rfl
  by_cases h21 : c = 'U'
  · subst h21; rfl
  by_cases h22 : c = 'V'
  · subst h22; rfl
  by_cases h23 : c = 'W'
  · subst h23; rfl
  by_cases h24 : c = 'X'
  · subst h24; rfl
  by_cases h25 : c = 'Y'
  · subst h25; rfl
  by_cases h26 : c = 'Z'
  · subst h26; rfl
  by_cases h27 : c = 'Ö'
  · subst h27; rfl
  by_cases h28 : c = 'Ä'
  · subst h28; rfl
  by_cases h29 : c = 'Ü'
  · subst h29; rfl
  unfold pyLower
  rw [if_neg h1, if_neg h2, if_neg h3, if_neg h4, if_neg h5, if_neg h6, if_neg h7, if_neg h8, if_neg h9, if_neg h10, if_neg h11, if_neg h12, if_neg h13, if_neg h14, if_neg h15, if_neg h16, if_neg h17, if_neg h18, if_neg h19, if_neg h20, if_neg h21, if_neg h22, if_neg h23, if_neg h24, if_neg h25, if_neg h26, if_neg h27, if_neg h28, if_neg h29]

/-- The lower-casing map preserves the isWordChar character class. -/
theorem pyLower_word (c : Char) : isWordChar (pyLower c) = isWordChar c := by
  by_cases h1 : c = 'A'
  · subst h1; rfl
  by_cases h2 : c = 'B'
  · subst h2; rfl
  by_cases h3 : c = 'C'
  · subst h3; rfl
  by_cases h4 : c = 'D'
  · subst h4; rfl
  by_cases h5 : c = 'E'
  · subst h5; rfl
  by_cases h6 : c = 'F'
  · subst h6; rfl
  by_cases h7 : c = 'G'
  · subst h7; rfl
  by_cases h8 : c = 'H'
  · subst h8; rfl
  by_cases h9 : c = 'I'
  · subst h9; rfl
  by_cases h10 : c = 'J'
  · subst h10; rfl
  by_cases h11 : c = 'K'
  · subst h11; rfl
  by_cases h12 : c = 'L'
  · subst h12; rfl
  by_cases h13 : c = 'M'
  · subst h13; rfl
  by_cases h14 : c = 'N'
  · subst h14; rfl
  by_cases h15 : c = 'O'
  · subst h15; rfl
  by_cases h16 : c = 'P'
  · subst h16; rfl
  by_cases h17 : c = 'Q'
  · subst h17; rfl
  by_cases h18 : c = 'R'
  · subst h18; rfl
  by_cases h19 : c = 'S'
  · subst h19; rfl
  by_cases h20 : c = 'T'
  · subst h20; rfl
  by_cases h21 : c = 'U'
  · subst h21; rfl
  by_cases h22 : c = 'V'
  · subst h22; rfl
  by_cases h23 : c = 'W'
  · subst h23; rfl
  by_cases h24 : c = 'X'
  · subst h24; rfl
  by_cases h25 : c = 'Y'
  · subst h25; rfl
  by_cases h26 : c = 'Z'
  · subst h26; rfl
  by_cases h27 : c = 'Ö'
  · subst h27; rfl
  by_cases h28 : c = 'Ä'
  · subst h28; rfl
  by_cases h29 : c = 'Ü'
  · subst h29; rfl
  unfold pyLower
  rw [if_neg h1, if_neg h2, if_neg h3, if_neg h4, if_neg h5, if_neg h6, if_neg h7, if_neg h8, if_neg h9, if_neg h10, if_neg h11, if_neg h12, if_neg h13, if_neg h14, if_neg h15, if_neg h16, if_neg h17, if_neg h18, if_neg h19, if_neg h20, if_neg h21, if_neg h22, if_neg h23, if_neg h24, if_neg h25, if_neg h26, if_neg h27, if_neg h28, if_neg h29]

/-- The lower-casing map preserves the isLetterChar character class. -/
theorem pyLower_letter (c : Char) : isLetterChar (pyLower c) = isLetterChar c := by
  by_cases h1 : c = 'A'
  · subst h1; rfl
  by_cases h2 : c = 'B'
  · subst h2; rfl
  by_cases h3 : c = 'C'
  · subst h3; rfl
  by_cases h4 : c = 'D'
  · subst h4; rfl
  by_cases h5 : c = 'E'
  · subst h5; rfl
  by_cases h6 : c = 'F'
  · subst h6; rfl
  by_cases h7 : c = 'G'
  · subst h7; rfl
  by_cases h8 : c = 'H'
  · subst h8; rfl
  by_cases h9 : c = 'I'
  · subst h9; rfl
  by_cases h10 : c = 'J'
  · subst h10; rfl
  by_cases h11 : c = 'K'
  · subst h11; rfl
  by_cases h12 : c = 'L'
  · subst h12; rfl
  by_cases h13 : c = 'M'
  · subst h13; rfl
  by_cases h14 : c = 'N'
  · subst h14; rfl
  by_cases h15 : c = 'O'
  · subst h15; rfl
  by_cases h16 : c = 'P'
  · subst h16; rfl
  by_cases h17 : c = 'Q'
  · subst h17; rfl
  by_cases h18 : c = 'R'
  · subst h18; rfl
  by_cases h19 : c = 'S'
  · subst h19; rfl
  by_cases h20 : c = 'T'
  · subst h20; rfl
  by_cases h21 : c = 'U'
  · subst h21; rfl
  by_cases h22 : c = 'V'
  · subst h22; rfl
  by_cases h23 : c = 'W'
  · subst h23; rfl
  by_cases h24 : c = 'X'
  · subst h24; rfl
  by_cases h25 : c = 'Y'
  · subst h25; rfl
  by_cases h26 : c = 'Z'
  · subst h26; rfl
  by_cases h27 : c = 'Ö'
  · subst h27; rfl
  by_cases h28 : c = 'Ä'
  · subst h28; rfl
  by_cases h29 : c = 'Ü'
  · subst h29; rfl
  unfold pyLower
  rw [if_neg h1, if_neg h2, if_neg h3, if_neg h4, if_neg h5, if_neg h6, if_neg h7, if_neg h8, if_neg h9, if_neg h10, if_neg h11, if_neg h12, if_neg h13, if_neg h14, if_neg h15, if_neg h16, if_neg h17, if_neg h18, if_neg h19, if_neg h20, if_neg h21, if_neg h22, if_neg h23, if_neg h24, if_neg h25, if_neg h26, if_neg h27, if_neg h28, if_neg h29]

/-- The lower-casing map preserves the Char.isDigit character class. -/
theorem pyLower_digit (c : Char) : Char.isDigit (pyLower c) = Char.isDigit c := by
  by_cases h1 : c = 'A'
  · subst h1; rfl
  by_cases h2 : c = 'B'
  · subst h2; rfl
  by_cases h3 : c = 'C'
  · subst h3; rfl
  by_cases h4 : c = 'D'
  · subst h4; rfl
  by_cases h5 : c = 'E'
  · subst h5; rfl
  by_cases h6 : c = 'F'
  · subst h6; rfl
  by_cases h7 : c = 'G'
  · subst h7; rfl
  by_cases h8 : c = 'H'
  · subst h8; rfl
  by_cases h9 : c = 'I'
  · subst h9; rfl
  by_cases h10 : c = 'J'
  · subst h10; rfl
  by_cases h11 : c = 'K'
  · subst h11; rfl
  by_cases h12 : c = 'L'
  · subst h12; rfl
  by_cases h13 : c = 'M'
  · subst h13; rfl
  by_cases h14 : c = 'N'
  · subst h14; rfl
  by_cases h15 : c = 'O'
  · subst h15; rfl
  by_cases h16 : c = 'P'
  · subst h16; rfl
  by_cases h17 : c = 'Q'
  · subst h17; rfl
  by_cases h18 : c = 'R'
  · subst h18; rfl
  by_cases h19 : c = 'S'
  · subst h19; rfl
  by_cases h20 : c = 'T'
  · subst h20; rfl
  by_cases h21 : c = 'U'
  · subst h21; rfl
  by_cases h22 : c = 'V'
  · subst h22; rfl
  by_cases h23 : c = 'W'
  · subst h23; rfl
  by_cases h24 : c = 'X'
  · subst h24; rfl
  by_cases h25 : c = 'Y'
  · subst h25; rfl
  by_cases h26 : c = 'Z'
  · subst h26; rfl
  by_cases h27 : c = 'Ö'
  · subst h27; rfl
  by_cases h28 : c = 'Ä'
  · subst h28; rfl
  by_cases h29 : c = 'Ü'
  · subst h29; rfl
  unfold pyLower
  rw [if_neg h1, if_neg h2, if_neg h3, if_neg h4, if_neg h5, if_neg h6, if_neg h7, if_neg h8, if_neg h9, if_neg h10, if_neg h11, if_neg h12, if_neg h13, if_neg h14, if_neg h15, if_neg h16, if_neg h17, if_neg h18, if_neg h19, if_neg h20, if_neg h21, if_neg h22, if_neg h23, if_neg h24, if_neg h25, if_neg h26, if_neg h27, if_neg h28, if_neg h29]

/-- Case-insensitive equality is equality of the lowered characters. -/
theorem lowEq_iff {a b : Char} : lowEq a b = true ↔ pyLower a = pyLower b := by
  simp [lowEq]

/-- Case-insensitive equality is reflexive. -/
theorem lowEq_refl (a : Char) : lowEq a a = true := lowEq_iff.mpr rfl

/-- Case-insensitive equality is symmetric. -/
theorem lowEq_symm {a b : Char} (h : lowEq a b = true) : lowEq b a = true :=
  lowEq_iff.mpr (lowEq_iff.mp h).symm

/-- Case-insensitive equality is transitive. -/
theorem lowEq_trans {a b c : Char} (h1 : lowEq a b = true)
    (h2 : lowEq b c = true) : lowEq a c = true :=
  lowEq_iff.mpr ((lowEq_iff.mp h1).trans (lowEq_iff.mp h2))

/-- Case-insensitively equal characters have the same word class. -/
theorem lowEq_word {a b : Char} (h : lowEq a b = true) :
    isWordChar a = isWordChar b := by
  rw [← pyLower_word a, ← pyLower_word b, lowEq_iff.mp h]

/-- Case-insensitively equal characters have the same space class. -/
theorem lowEq_space {a b : Char} (h : lowEq a b = true) :
    isSpaceChar a = isSpaceChar b := by
  rw [← pyLower_space a, ← pyLower_space b, lowEq_iff.mp h]

/-- Case-insensitively equal characters have the same letter class. -/
theorem lowEq_letter {a b : Char} (h : lowEq a b = true) :
    isLetterChar a = isLetterChar b := by
  rw [← pyLower_letter a, ← pyLower_letter b, lowEq_iff.mp h]

/-- Case-insensitively equal characters have the same digit class. -/
theorem lowEq_digit {a b : Char} (h : lowEq a b = true) :
    Char.isDigit a = Char.isDigit b := by
  rw [← pyLower_digit a, ← pyLower_digit b, lowEq_iff.mp h]

/-- Letters are word characters. -/
theorem letter_word {c : Char} (h : isLetterChar c = true) :
    isWordChar c = true := by
  simp only [isLetterChar, Bool.or_eq_true, decide_eq_true_eq] at h
  rcases h with ((((((ha | h) | h) | h) | h) | h) | h) | h
  · simp [isWordChar, Char.isAlphanum, ha]
  all_goals subst h; decide

/-- Space characters are not word characters. -/
theorem space_not_word {c : Char} (h : isSpaceChar c = true) :
    isWordChar c = false := by
  simp only [isSpaceChar, Bool.or_eq_true, decide_eq_true_eq] at h
  rcases h with ((((h | h) | h) | h) | h) | h
  all_goals subst h; decide

/-- Letters are not space characters. -/
theorem letter_not_space {c : Char} (h : isLetterChar c = true) :
    isSpaceChar c = false := by
  cases hs : isSpaceChar c with
  | false => rfl
  | true =>
    exfalso
    simp only [isSpaceChar, Bool.or_eq_true, decide_eq_true_eq] at hs
    rcases hs with ((((hs | hs) | hs) | hs) | hs) | hs
    all_goals subst hs; revert h; decide

/-- Digits are not space characters. -/
theorem digit_not_space {c : Char} (h : Char.isDigit c = true) :
    isSpaceChar c = false := by
  cases hs : isSpaceChar c with
  | false => rfl
  | true =>
    exfalso
    simp only [isSpaceChar, Bool.or_eq_true, decide_eq_true_eq] at hs
    rcases hs with ((((hs | hs) | hs) | hs) | hs) | hs
    all_goals subst hs; revert h; decide

/-- Digits are word characters. -/
theorem digit_word {c : Char} (h : Char.isDigit c = true) :
    isWordChar c = true := by
  simp [isWordChar, Char.isAlphanum, h]

/-- Word characters are not space characters. -/
theorem word_not_space {c : Char} (h : isWordChar c = true) :
    isSpaceChar c = false := by
  cases hs : isSpaceChar c with
  | false => rfl
  | true => rw [space_not_word hs] at h; exact absurd h (by decide)

/-- Letters are not digits. -/
theorem letter_not_digit {c : Char} (h : isLetterChar c = true) :
    Char.isDigit c = false := by
  simp only [isLetterChar, Bool.or_eq_true, decide_eq_true_eq] at h
  rcases h with ((((((ha | h) | h) | h) | h) | h) | h) | h
  · cases hd : Char.isDigit c with
    | false => rfl
    | true =>
      exfalso
      simp only [Char.isAlpha, Char.isUpper, Char.isLower, Bool.or_eq_true,
        Bool.and_eq_true, decide_eq_true_eq] at ha
      simp only [Char.isDigit, Bool.and_eq_true, decide_eq_true_eq] at hd
      rcases ha with ⟨h1, h2⟩ | ⟨h1, h2⟩ <;>
        exact absurd (UInt32.le_trans h1 hd.2) (by decide)
  all_goals subst h; decide

/- ## Scanner traces and identity of all-identity passes -/

/-- The fuelled scanner realises a trace when the fuel covers the input. -/
theorem trace_runSubF (tm : TryFun) (hs : TmSound tm) :
    ∀ (fuel : Nat) (p : Option Char) (s : List Char), s.length < fuel →
      Trace tm p s (runSubF tm fuel p s) := by
  intro fuel
  induction fuel with
  | zero => intro p s h; exact absurd h (Nat.not_lt_zero _)
  | succ n ih =>
    intro p s hlen
    cases s with
    | nil => exact Trace.nil p
    | cons c t =>
      cases h : tm p c t with
      | none =>
        simp only [runSubF, h]
        exact Trace.copy p c t _ h (ih (some c) t (Nat.lt_of_succ_lt_succ hlen))
      | some pr =>
        obtain ⟨r, mt, rest⟩ := pr
        simp only [runSubF, h]
        obtain ⟨heq, hne⟩ := hs p c t r mt rest h
        have hrest : rest.length < n := by
          have hl : mt.length + rest.length = t.length + 1 := by
            have := congrArg List.length heq
            simpa using this
          have hmt : 1 ≤ mt.length := by
            cases mt with
            | nil => exact absurd rfl hne
            | cons a u => simp
          have ht : t.length < n := Nat.lt_of_succ_lt_succ hlen
          omega
        exact Trace.fire p c t r mt rest _ h (ih (lastD mt p) rest hrest)

/-- The whole-pass scanner realises a trace. -/
theorem subBy_trace (tm : TryFun) (hs : TmSound tm) (s : List Char) :
    Trace tm none s (subBy tm s) :=
  trace_runSubF tm hs (s.length + 1) none s (Nat.lt_succ_self _)

/-- The all-identity property passes to any suffix with its own context. -/
theorem allId_append (tm : TryFun) :
    ∀ (u : List Char) (p : Option Char) (v : List Char),
      allIdB tm p (u ++ v) = true → allIdB tm (lastD u p) v = true := by
  intro u
  induction u with
  | nil => intro p v h; exact h
  | cons c u2 ih =>
    intro p v h
    rw [lastD_cons]
    simp only [List.cons_append, allIdB, Bool.and_eq_true] at h
    exact ih (some c) v h.2

/-- A trace in which every fired match is an identity reproduces its
input. -/
theorem trace_allId {tm : TryFun} (hs : TmSound tm) :
    ∀ {p s o}, Trace tm p s o → allIdB tm p s = true → o = s := by
  intro p s o tr
  induction tr with
  | nil p => intro _; rfl
  | copy p c t o h htr ih =>
    intro hall
    simp only [allIdB, h, Bool.true_and] at hall
    rw [ih hall]
  | fire p c t r mt rest o h htr ih =>
    intro hall
    obtain ⟨heq, hne⟩ := hs p c t r mt rest h
    have hrmt : r = mt := by
      simp only [allIdB, h, Bool.and_eq_true, decide_eq_true_eq] at hall
      exact hall.1
    have h2 : allIdB tm p (mt ++ rest) = true := by rw [heq]; exact hall
    have h3 := allId_append tm mt p rest h2
    rw [ih h3, hrmt, ← heq]

/-- A pass all of whose fires are identities is the identity. -/
theorem subBy_of_allId {tm : TryFun} (hs : TmSound tm) {s : List Char}
    (h : allIdB tm none s = true) : subBy tm s = s :=
  trace_allId hs (subBy_trace tm hs s) h

/- ## Soundness of the four cleaning patterns -/

/-- A successful fuzzy continuation consumes a prefix of the input. -/
theorem fuzzyAfter_sound :
    ∀ (w s mt rest : List Char),
      fuzzyAfter w s = some (mt, rest) → mt ++ rest = s := by
  intro w
  induction w with
  | nil =>
    intro s mt rest h
    simp only [fuzzyAfter, Option.some.injEq, Prod.mk.injEq] at h
    rw [← h.1, ← h.2]; rfl
  | cons c w2 ih =>
    intro s mt rest h
    simp only [fuzzyAfter] at h
    cases hdrop : s.dropWhile isSpaceChar with
    | nil => simp only [hdrop] at h; exact Option.noConfusion h
    | cons x s2 =>
      simp only [hdrop] at h
      by_cases hle : lowEq x c = true
      · rw [if_pos hle] at h
        cases hfa : fuzzyAfter w2 s2 with
        | none => simp only [hfa] at h; exact Option.noConfusion h
        | some pr =>
          obtain ⟨mt2, rest2⟩ := pr
          simp only [hfa, Option.some.injEq, Prod.mk.injEq] at h
          have hih := ih s2 mt2 rest2 hfa
          rw [← h.1, ← h.2]
          rw [List.append_assoc, List.cons_append, hih]
          rw [← hdrop, List.takeWhile_append_dropWhile]
      · rw [if_neg hle] at h
        exact absurd h (by simp)

/-- The fuzzy token pattern is a sound match function. -/
theorem tmSound_fuzzy (tok : List Char) : TmSound (tmFuzzy tok) := by
  intro p c t r mt rest h
  cases tok with
  | nil => simp only [tmFuzzy] at h; exact Option.noConfusion h
  | cons c0 tokRest =>
    simp only [tmFuzzy] at h
    by_cases hg : (prevNonWord p && lowEq c c0) = true
    · rw [if_pos hg] at h
      cases hfa : fuzzyAfter tokRest t with
      | none => simp only [hfa] at h; exact Option.noConfusion h
      | some pr =>
        obtain ⟨mtf, restf⟩ := pr
        simp only [hfa] at h
        by_cases hnw : nextNonWord restf = true
        · rw [if_pos hnw] at h
          simp only [Option.some.injEq, Prod.mk.injEq] at h
          refine ⟨?_, ?_⟩
          · rw [← h.2.1, ← h.2.2, List.cons_append, fuzzyAfter_sound _ _ _ _ hfa]
          · rw [← h.2.1]; simp
        · rw [if_neg hnw] at h
          exact absurd h (by simp)
    · rw [if_neg hg] at h
      exact absurd h (by simp)

/-- The unit pattern is a sound match function. -/
theorem tmSound_st : TmSound tmSt := by
  intro p c t r mt rest h
  unfold tmSt at h
  by_cases hle : lowEq c 'S' = true
  · rw [if_pos hle] at h
    cases hdrop : t.dropWhile isSpaceChar with
    | nil => simp only [hdrop] at h; exact Option.noConfusion h
    | cons x rest2 =>
      simp only [hdrop] at h
      by_cases hc : (lowEq x 't' && nextNonWord rest2) = true
      · rw [if_pos hc] at h
        simp only [Option.some.injEq, Prod.mk.injEq] at h
        refine ⟨?_, ?_⟩
        · rw [← h.2.1, ← h.2.2]
          have h5 : t = t.takeWhile isSpaceChar ++ x :: rest2 := by
            rw [← hdrop, List.takeWhile_append_dropWhile]
          conv_rhs => rw [h5]
          simp
        · rw [← h.2.1]; simp
      · rw [if_neg hc] at h
        exact absurd h (by simp)
  · rw [if_neg hle] at h
    exact absurd h (by simp)

/-- The hyphen pattern is a sound match function. -/
theorem tmSound_hyph : TmSound tmHyph := by
  intro p c t r mt rest h
  unfold tmHyph at h
  by_cases hc : c = '-'
  · rw [if_pos hc] at h
    simp only [Option.some.injEq, Prod.mk.injEq] at h
    refine ⟨?_, ?_⟩
    · rw [← h.2.1, ← h.2.2]
      simp [List.takeWhile_append_dropWhile]
    · rw [← h.2.1]; simp
  · rw [if_neg hc] at h
    by_cases hsp : isSpaceChar c = true
    · rw [if_pos hsp] at h
      split at h
      · rename_i r2 heq2
        simp only [Option.some.injEq, Prod.mk.injEq] at h
        refine ⟨?_, ?_⟩
        · rw [← h.2.1, ← h.2.2]
          have h5 : t = t.takeWhile isSpaceChar ++ '-' :: r2 := by
            rw [← heq2, List.takeWhile_append_dropWhile]
          conv_rhs => rw [h5]
          simp [List.takeWhile_append_dropWhile]
        · rw [← h.2.1]; simp
      · exact absurd h (by simp)
    · rw [if_neg hsp] at h
      exact absurd h (by simp)

/-- The digit-joining pattern is a sound match function. -/
theorem tmSound_dig : TmSound tmDig := by
  intro p c t r mt rest h
  unfold tmDig at h
  split at h
  · cases hdrop : t.dropWhile isSpaceChar with
    | nil => simp only [hdrop] at h; exact Option.noConfusion h
    | cons x r2 =>
      simp only [hdrop] at h
      by_cases hx : x.isDigit = true
      · rw [if_pos hx] at h
        simp only [Option.some.injEq, Prod.mk.injEq] at h
        refine ⟨?_, ?_⟩
        · rw [← h.2.1, ← h.2.2]
          have h5 : t = t.takeWhile isSpaceChar ++ x :: r2 := by
            rw [← hdrop, List.takeWhile_append_dropWhile]
          conv_rhs => rw [h5]
          simp
        · rw [← h.2.1]; simp
      · rw [if_neg hx] at h
        exact absurd h (by simp)
  · exact absurd h (by simp)

/- ## Structure of fuzzy continuation matches -/

/-- Last element of an append with a nonempty right part. -/
theorem getLast?_append_cons :
    ∀ (u : List Char) (x : Char) (v : List Char),
      (u ++ x :: v).getLast? = (x :: v).getLast? := by
  intro u
  induction u with
  | nil => intro x v; rfl
  | cons a u2 ih =>
    intro x v
    cases u2 with
    | nil => simp [List.getLast?_cons_cons]
    | cons b u3 =>
      have hih := ih x v
      rw [List.cons_append] at hih
      rw [List.cons_append, List.cons_append, List.getLast?_cons_cons]
      exact hih

/-- Peeling a leading space off a fuzzy continuation. -/
theorem fuzzyAfter_cons_space {c : Char} (hc : isSpaceChar c = true)
    (l : Char) (w z : List Char) :
    fuzzyAfter (l :: w) (c :: z) =
      (fuzzyAfter (l :: w) z).map (fun pr => (c :: pr.1, pr.2)) := by
  conv_lhs => rw [fuzzyAfter]
  conv_rhs => rw [fuzzyAfter]
  simp only [List.takeWhile_cons, List.dropWhile_cons, hc, if_true]
  cases hdrop : z.dropWhile isSpaceChar with
  | nil => simp
  | cons x s2 =>
    by_cases hle : lowEq x l = true
    · cases hfa : fuzzyAfter w s2 with
      | none => simp [hle, hfa]
      | some pr => simp [hle, hfa]
    · simp [hle]

/-- Unfolding a fuzzy continuation at a non-space head. -/
theorem fuzzyAfter_cons_nonspace {x : Char} (hx : isSpaceChar x = false)
    (l : Char) (w s2 : List Char) :
    fuzzyAfter (l :: w) (x :: s2) =
      (if lowEq x l = true then
        (fuzzyAfter w s2).map (fun pr => (x :: pr.1, pr.2)) else none) := by
  conv_lhs => rw [fuzzyAfter]
  simp only [List.takeWhile_cons, List.dropWhile_cons, hx, Bool.false_eq_true,
    if_false]
  by_cases hle : lowEq x l = true
  · cases hfa : fuzzyAfter w s2 with
    | none => simp [hle, hfa]
    | some pr => simp [hle, hfa]
  · simp [hle]

/-- A fuzzy continuation pattern matches its own literal text exactly. -/
theorem fuzzyAfter_literal :
    ∀ (w z : List Char), (∀ a ∈ w, isLetterChar a = true) →
      fuzzyAfter w (w ++ z) = some (w, z) := by
  intro w
  induction w with
  | nil => intro z _; rfl
  | cons l w2 ih =>
    intro z hw
    have hl : isLetterChar l = true := hw l (by simp)
    rw [List.cons_append,
      fuzzyAfter_cons_nonspace (letter_not_space hl) l w2 (w2 ++ z),
      if_pos (lowEq_refl l), ih z (fun a ha => hw a (by simp [ha]))]
    rfl

/-- Decomposition of a fuzzy continuation over a block of letters: the
match either ends inside the block, consuming a case-insensitive copy of
the whole pattern, or consumes the whole block case-insensitively and
continues beyond it. -/
theorem fuzzyAfter_through :
    ∀ (u w z γ ρ : List Char), (∀ a ∈ u, isLetterChar a = true) →
      fuzzyAfter w (u ++ z) = some (γ, ρ) →
      (w.length < u.length ∧ γ = u.take w.length ∧
        ρ = u.drop w.length ++ z ∧ lowerStr γ = lowerStr w) ∨
      (u.length ≤ w.length ∧ lowerStr (w.take u.length) = lowerStr u ∧
        ∃ γ2, fuzzyAfter (w.drop u.length) z = some (γ2, ρ) ∧ γ = u ++ γ2) := by
  intro u
  induction u with
  | nil =>
    intro w z γ ρ _ h
    right
    exact ⟨Nat.zero_le _, by simp [lowerStr], γ, by simpa using h, by simp⟩
  | cons a u2 ih =>
    intro w z γ ρ hu h
    have ha : isLetterChar a = true := hu a (by simp)
    cases w with
    | nil =>
      left
      simp only [fuzzyAfter, Option.some.injEq, Prod.mk.injEq] at h
      obtain ⟨h1, h2⟩ := h
      subst h1; subst h2
      exact ⟨by simp, rfl, rfl, rfl⟩
    | cons l w2 =>
      rw [List.cons_append,
        fuzzyAfter_cons_nonspace (letter_not_space ha) l w2 (u2 ++ z)] at h
      by_cases hle : lowEq a l = true
      · rw [if_pos hle] at h
        cases hfa : fuzzyAfter w2 (u2 ++ z) with
        | none => rw [hfa] at h; exact Option.noConfusion h
        | some pr =>
          obtain ⟨γ2, ρ2⟩ := pr
          rw [hfa] at h
          simp only [Option.map_some', Option.some.injEq, Prod.mk.injEq] at h
          obtain ⟨hγ, hρ⟩ := h
          rcases ih w2 z γ2 ρ2 (fun b hb => hu b (by simp [hb])) hfa with
            ⟨h1, h2, h3, h4⟩ | ⟨h1, h2, γ3, h3, h4⟩
          · left
            refine ⟨by simpa using Nat.succ_lt_succ h1, ?_, ?_, ?_⟩
            · rw [← hγ, h2]; simp [List.take_cons]
            · rw [← hρ, h3]; simp
            · rw [← hγ]
              simp only [lowerStr, List.map_cons, List.cons.injEq]
              refine ⟨lowEq_iff.mp hle, ?_⟩
              simpa [lowerStr] using h4
          · right
            refine ⟨by simpa using Nat.succ_le_succ h1, ?_, γ3, ?_, ?_⟩
            · simp only [List.length_cons, List.take_succ_cons, lowerStr,
                List.map_cons, List.cons.injEq]
              refine ⟨(lowEq_iff.mp hle).symm, ?_⟩
              simpa [lowerStr] using h2
            · rw [← hρ]; simpa using h3
            · rw [← hγ, h4]; simp
      · rw [if_neg hle] at h
        exact Option.noConfusion h

/-- The matched text of a nonempty fuzzy continuation ends in a character
case-insensitively equal to the last pattern letter. -/
theorem fuzzyAfter_last :
    ∀ (w s γ ρ : List Char), w ≠ [] → fuzzyAfter w s = some (γ, ρ) →
      ∃ a b, w.getLast? = some a ∧ γ.getLast? = some b ∧ lowEq b a = true := by
  intro w
  induction w with
  | nil => intro s γ ρ hne _; exact absurd rfl hne
  | cons l w2 ih =>
    intro s γ ρ _ h
    simp only [fuzzyAfter] at h
    cases hdrop : s.dropWhile isSpaceChar with
    | nil => simp only [hdrop] at h; exact Option.noConfusion h
    | cons x s2 =>
      simp only [hdrop] at h
      by_cases hle : lowEq x l = true
      · rw [if_pos hle] at h
        cases hfa : fuzzyAfter w2 s2 with
        | none => rw [hfa] at h; exact Option.noConfusion h
        | some pr =>
          obtain ⟨γ2, ρ2⟩ := pr
          rw [hfa] at h
          simp only [Option.some.injEq, Prod.mk.injEq] at h
          cases w2 with
          | nil =>
            simp only [fuzzyAfter, Option.some.injEq, Prod.mk.injEq] at hfa
            refine ⟨l, x, rfl, ?_, hle⟩
            rw [← h.1, ← hfa.1]
            simp [getLast?_append_cons]
          | cons l2 w3 =>
            obtain ⟨a, b, ha, hb, hab⟩ := ih s2 γ2 ρ2 (by simp) hfa
            refine ⟨a, b, ?_, ?_, hab⟩
            · rw [← ha]; simp [List.getLast?_cons_cons]
            · rw [← h.1, getLast?_append_cons, ← hb]
              have hγ2 : γ2 ≠ [] := by
                intro hempty; rw [hempty] at hb; exact Option.noConfusion hb
              cases γ2 with
              | nil => exact absurd rfl hγ2
              | cons g γ3 => simp [List.getLast?_cons_cons]
      · rw [if_neg hle] at h
        exact Option.noConfusion h

/- ## Inversion of the four cleaning patterns -/

/-- Inversion of a fuzzy token fire. -/
theorem tmFuzzy_inv {tok : List Char} {p : Option Char} {c : Char}
    {t r mt rest : List Char} (h : tmFuzzy tok p c t = some (r, mt, rest)) :
    ∃ c0 tokRest γf, tok = c0 :: tokRest ∧ prevNonWord p = true ∧
      lowEq c c0 = true ∧ fuzzyAfter tokRest t = some (γf, rest) ∧
      nextNonWord rest = true ∧ r = tok ∧ mt = c :: γf := by
  cases tok with
  | nil => simp only [tmFuzzy] at h; exact Option.noConfusion h
  | cons c0 tokRest =>
    simp only [tmFuzzy] at h
    by_cases hg : (prevNonWord p && lowEq c c0) = true
    · rw [if_pos hg] at h
      cases hfa : fuzzyAfter tokRest t with
      | none => rw [hfa] at h; exact Option.noConfusion h
      | some pr =>
        obtain ⟨γf, restf⟩ := pr
        simp only [hfa] at h
        by_cases hnw : nextNonWord restf = true
        · rw [if_pos hnw] at h
          simp only [Option.some.injEq, Prod.mk.injEq] at h
          rw [Bool.and_eq_true] at hg
          obtain ⟨hg1, hg2⟩ := hg
          refine ⟨c0, tokRest, γf, rfl, hg1, hg2, ?_, ?_, h.1.symm, h.2.1.symm⟩
          · rw [hfa, h.2.2]
          · rw [← h.2.2]; exact hnw
        · rw [if_neg hnw] at h; exact Option.noConfusion h
    · rw [if_neg hg] at h; exact Option.noConfusion h

/-- Inversion of a unit-pattern fire. -/
theorem tmSt_inv {p : Option Char} {c : Char} {t r mt rest : List Char}
    (h : tmSt p c t = some (r, mt, rest)) :
    lowEq c 'S' = true ∧ ∃ x, t.dropWhile isSpaceChar = x :: rest ∧
      lowEq x 't' = true ∧ nextNonWord rest = true ∧
      r = "St".toList ∧ mt = c :: t.takeWhile isSpaceChar ++ [x] := by
  unfold tmSt at h
  by_cases hle : lowEq c 'S' = true
  · rw [if_pos hle] at h
    cases hdrop : t.dropWhile isSpaceChar with
    | nil => simp only [hdrop] at h; exact Option.noConfusion h
    | cons x rest2 =>
      simp only [hdrop] at h
      by_cases hc : (lowEq x 't' && nextNonWord rest2) = true
      · rw [if_pos hc] at h
        simp only [Option.some.injEq, Prod.mk.injEq] at h
        rw [Bool.and_eq_true] at hc
        obtain ⟨h1, h2⟩ := hc
        refine ⟨hle, x, ?_, h1, ?_, h.1.symm, h.2.1.symm⟩
        · rw [h.2.2]
        · rw [← h.2.2]; exact h2
      · rw [if_neg hc] at h; exact Option.noConfusion h
  · rw [if_neg hle] at h; exact Option.noConfusion h

/-- Inversion of a hyphen-pattern fire. -/
theorem tmHyph_inv {p : Option Char} {c : Char} {t r mt rest : List Char}
    (h : tmHyph p c t = some (r, mt, rest)) :
    r = ['-'] ∧
      ((c = '-' ∧ mt = c :: t.takeWhile isSpaceChar ∧
        rest = t.dropWhile isSpaceChar) ∨
       (isSpaceChar c = true ∧ ∃ r2, t.dropWhile isSpaceChar = '-' :: r2 ∧
        mt = c :: t.takeWhile isSpaceChar ++ '-' :: r2.takeWhile isSpaceChar ∧
        rest = r2.dropWhile isSpaceChar)) := by
  unfold tmHyph at h
  by_cases hc : c = '-'
  · rw [if_pos hc] at h
    simp only [Option.some.injEq, Prod.mk.injEq] at h
    exact ⟨h.1.symm, Or.inl ⟨hc, h.2.1.symm, h.2.2.symm⟩⟩
  · rw [if_neg hc] at h
    by_cases hsp : isSpaceChar c = true
    · rw [if_pos hsp] at h
      split at h
      · rename_i r2 heq2
        simp only [Option.some.injEq, Prod.mk.injEq] at h
        exact ⟨h.1.symm, Or.inr ⟨hsp, r2, heq2, h.2.1.symm,
          h.2.2.symm⟩⟩
      · exact Option.noConfusion h
    · rw [if_neg hsp] at h; exact Option.noConfusion h

/-- Inversion of a digit-joining fire. -/
theorem tmDig_inv {p : Option Char} {c : Char} {t r mt rest : List Char}
    (h : tmDig p c t = some (r, mt, rest)) :
    isSpaceChar c = true ∧ (∃ d, p = some d ∧ d.isDigit = true) ∧
      ∃ x r2, t.dropWhile isSpaceChar = x :: r2 ∧ x.isDigit = true ∧
        r = [] ∧ mt = c :: t.takeWhile isSpaceChar ∧ rest = x :: r2 := by
  unfold tmDig at h
  split at h
  · rename_i hcond
    rw [Bool.and_eq_true] at hcond
    obtain ⟨h1, h2⟩ := hcond
    cases hdrop : t.dropWhile isSpaceChar with
    | nil => simp only [hdrop] at h; exact Option.noConfusion h
    | cons x r2 =>
      simp only [hdrop] at h
      by_cases hx : x.isDigit = true
      · rw [if_pos hx] at h
        simp only [Option.some.injEq, Prod.mk.injEq] at h
        refine ⟨h1, ?_, x, r2, rfl, hx, h.1.symm, h.2.1.symm, h.2.2.symm⟩
        cases p with
        | none => exact absurd h2 (by simp)
        | some d => exact ⟨d, rfl, h2⟩
      · rw [if_neg hx] at h; exact Option.noConfusion h
  · exact Option.noConfusion h

/- ## Fuzzy-match transfer through the cleaning passes -/

/-- No-cross conditions are inherited by pattern tails. -/
theorem noCross_tail {tokp : List Char} {l : Char} {w : List Char}
    (h : NoCrossP tokp (l :: w)) : NoCrossP tokp w := by
  intro j
  have h2 := h (j + 1)
  simpa using h2

/-- Transfer of a fuzzy match backwards through a fuzzy-token pass: a
match with a word-boundary end on the output of the pass, whose pattern
cannot spell the replacement token, is a match on the pass input with the
same matched text. -/
theorem fz_core (tok2 : List Char) (hl2 : ∀ a ∈ tok2, isLetterChar a = true) :
    ∀ {p t o}, Trace (tmFuzzy tok2) p t o →
      ∀ w γ ρ, NoCrossP tok2 w → fuzzyAfter w o = some (γ, ρ) →
        nextNonWord ρ = true →
        ∃ ρ2, fuzzyAfter w t = some (γ, ρ2) ∧ nextNonWord ρ2 = true := by
  intro p t o tr
  induction tr with
  | nil p =>
    intro w γ ρ hnc hfa hnw
    cases w with
    | nil =>
      simp only [fuzzyAfter, Option.some.injEq, Prod.mk.injEq] at hfa
      exact ⟨[], by rw [← hfa.1]; rfl, rfl⟩
    | cons l w2 =>
      simp only [fuzzyAfter, List.dropWhile_nil] at hfa
      exact Option.noConfusion hfa
  | copy p c t2 o2 hnone htr ih =>
    intro w γ ρ hnc hfa hnw
    cases w with
    | nil =>
      simp only [fuzzyAfter, Option.some.injEq, Prod.mk.injEq] at hfa
      refine ⟨c :: t2, by rw [← hfa.1]; rfl, ?_⟩
      rw [← hfa.2] at hnw
      exact hnw
    | cons l w2 =>
      by_cases hsp : isSpaceChar c = true
      · rw [fuzzyAfter_cons_space hsp] at hfa
        cases hfa2 : fuzzyAfter (l :: w2) o2 with
        | none => rw [hfa2] at hfa; exact Option.noConfusion hfa
        | some pr =>
          obtain ⟨γ2, ρ2⟩ := pr
          rw [hfa2] at hfa
          simp only [Option.map_some', Option.some.injEq, Prod.mk.injEq] at hfa
          obtain ⟨hρ3, hfa3, hnw3⟩ := ih (l :: w2) γ2 ρ2 hnc hfa2
            (by rw [hfa.2]; exact hnw)
          refine ⟨hρ3, ?_, hnw3⟩
          rw [fuzzyAfter_cons_space hsp, hfa3, ← hfa.1]
          rfl
      · have hsp2 : isSpaceChar c = false := by
          cases hv : isSpaceChar c
          · rfl
          · exact absurd hv hsp
        rw [fuzzyAfter_cons_nonspace hsp2] at hfa
        by_cases hle : lowEq c l = true
        · rw [if_pos hle] at hfa
          cases hfa2 : fuzzyAfter w2 o2 with
          | none => rw [hfa2] at hfa; exact Option.noConfusion hfa
          | some pr =>
            obtain ⟨γ2, ρ2⟩ := pr
            rw [hfa2] at hfa
            simp only [Option.map_some', Option.some.injEq, Prod.mk.injEq] at hfa
            obtain ⟨hρ3, hfa3, hnw3⟩ := ih w2 γ2 ρ2 (noCross_tail hnc) hfa2
              (by rw [hfa.2]; exact hnw)
            refine ⟨hρ3, ?_, hnw3⟩
            rw [fuzzyAfter_cons_nonspace hsp2, if_pos hle, hfa3, ← hfa.1]
            rfl
        · rw [if_neg hle] at hfa
          exact Option.noConfusion hfa
  | fire p c t2 r mt rest o2 hfire htr ih =>
    intro w γ ρ hnc hfa hnw
    obtain ⟨c0, tokRest, γf, htok, hpv, hlec, hfaf, hnwf, hr, hmt⟩ :=
      tmFuzzy_inv hfire
    rw [hr] at hfa
    cases w with
    | nil =>
      exfalso
      simp only [fuzzyAfter, Option.some.injEq, Prod.mk.injEq] at hfa
      rw [← hfa.2] at hnw
      rw [htok] at hnw
      have hw : isWordChar c0 = true :=
        letter_word (hl2 c0 (by rw [htok]; simp))
      simp only [List.cons_append, nextNonWord, hw] at hnw
      exact Bool.noConfusion hnw
    | cons l w2 =>
      exfalso
      rcases fuzzyAfter_through tok2 (l :: w2) o2 γ ρ hl2 hfa with
        ⟨h1, h2, h3, h4⟩ | ⟨h1, h2, γ3, h3, h4⟩
      · have hd : tok2.drop (l :: w2).length ≠ [] := by
          intro hempty
          rw [List.drop_eq_nil_iff] at hempty
          omega
        cases hdd : tok2.drop (l :: w2).length with
        | nil => exact hd hdd
        | cons d u3 =>
          rw [h3, hdd] at hnw
          have hdw : isWordChar d = true := by
            refine letter_word (hl2 d ?_)
            have : d ∈ tok2.drop (l :: w2).length := by rw [hdd]; simp
            exact List.drop_subset _ _ this
          simp only [List.cons_append, nextNonWord, hdw] at hnw
          exact Bool.noConfusion hnw
      · have hpref : (lowerStr tok2).isPrefixOf (lowerStr (l :: w2)) = true := by
          rw [List.isPrefixOf_iff_prefix]
          rw [← h2]
          have : lowerStr (List.take tok2.length (l :: w2)) =
              (lowerStr (l :: w2)).take tok2.length := by
            simp [lowerStr, List.map_take]
          rw [this]
          exact List.take_prefix _ _
        have := hnc 0
        rw [List.drop_zero] at this
        rw [hpref] at this
        exact Bool.noConfusion this

/- ## The master fuzzy-pass preservation lemma -/

/-- Construction of a fuzzy fire from its parts. -/
theorem tmFuzzy_mk {tok : List Char} {c0 : Char} {tokRest : List Char}
    {p : Option Char} {c : Char} {t γf ρ : List Char}
    (htok : tok = c0 :: tokRest) (hpv : prevNonWord p = true)
    (hle : lowEq c c0 = true) (hfa : fuzzyAfter tokRest t = some (γf, ρ))
    (hnw : nextNonWord ρ = true) :
    tmFuzzy tok p c t = some (tok, c :: γf, ρ) := by
  subst htok
  simp [tmFuzzy, hpv, hle, hfa, hnw]

/-- A fuzzy pattern cannot fire after a word character. -/
theorem tmFuzzy_blocked {tok : List Char} {p : Option Char} {c : Char}
    {t : List Char} (h : prevNonWord p = false) : tmFuzzy tok p c t = none := by
  cases tok with
  | nil => rfl
  | cons c0 tokRest => simp [tmFuzzy, h]

/-- After a block of word characters the lookbehind context is a word
character. -/
theorem lastD_word {u : List Char} {pc : Char}
    (hu : ∀ a ∈ u, isWordChar a = true) (hpc : isWordChar pc = true) :
    prevNonWord (lastD u (some pc)) = false := by
  cases hg : u.getLast? with
  | none =>
    simp only [lastD, hg]
    simp [prevNonWord, hpc]
  | some a =>
    simp only [lastD, hg]
    simp [prevNonWord, hu a (List.mem_of_mem_getLast? hg)]

/-- The fuzzy pattern never fires inside a block of word characters, so
the all-identity property over a block plus a tail reduces to the tail. -/
theorem fz_allId_blocked (tok : List Char) :
    ∀ (u : List Char), (∀ a ∈ u, isWordChar a = true) →
      ∀ (pc : Char) (o1 : List Char), isWordChar pc = true →
        allIdB (tmFuzzy tok) (lastD u (some pc)) o1 = true →
        allIdB (tmFuzzy tok) (some pc) (u ++ o1) = true := by
  intro u
  induction u with
  | nil => intro _ pc o1 _ h; exact h
  | cons a u2 ih =>
    intro hu pc o1 hpc h
    rw [List.cons_append]
    simp only [allIdB]
    rw [tmFuzzy_blocked (by simp [prevNonWord, hpc])]
    simp only [Bool.true_and]
    rw [lastD_cons] at h
    exact ih (fun b hb => hu b (by simp [hb])) a o1 (hu a (by simp)) h

/-- Establishment and preservation of literal-only fuzzy fires by a
fuzzy-token pass: if the pattern token cannot spell out the pass token
across the seams (or is the pass token itself), and the pass input has
only literal fires of the pattern (or the pass is the pattern pass
itself), then the pass output has only literal fires of the pattern. -/
theorem fz_master (tok tok2 : List Char)
    (hl2 : ∀ a ∈ tok2, isLetterChar a = true)
    (hc1 : NoCrossP tok2 (tok.drop 1))
    (hc0 : tok = tok2 ∨ (lowerStr tok2).isPrefixOf (lowerStr tok) = false ∨
      tok.length < tok2.length) :
    ∀ {p s o}, Trace (tmFuzzy tok2) p s o →
      (tok = tok2 ∨ allIdB (tmFuzzy tok) p s = true) →
      ∀ q : Option Char, (prevNonWord q = true → prevNonWord p = true) →
        allIdB (tmFuzzy tok) q o = true := by
  intro p s o tr
  induction tr with
  | nil p => intro _ q _; rfl
  | copy p c t2 o2 hnone htr ih =>
    intro hpre q hq
    simp only [allIdB, Bool.and_eq_true]
    constructor
    · cases hfo : tmFuzzy tok q c o2 with
      | none => rfl
      | some pr =>
        obtain ⟨r1, mt1, rest1⟩ := pr
        obtain ⟨c0, tokRest, γf, htok, hpv, hlec, hfaf, hnwf, hr, hmt⟩ :=
          tmFuzzy_inv hfo
        have hnc : NoCrossP tok2 tokRest := by
          have : tok.drop 1 = tokRest := by rw [htok]; rfl
          rw [← this]; exact hc1
        obtain ⟨ρ2, hfa2, hnw2⟩ := fz_core tok2 hl2 htr tokRest γf rest1
          hnc hfaf hnwf
        have hmk : tmFuzzy tok p c t2 = some (tok, c :: γf, ρ2) :=
          tmFuzzy_mk htok (hq hpv) hlec hfa2 hnw2
        rcases hpre with heq | hall
        · rw [heq] at hmk
          rw [hmk] at hnone
          exact Option.noConfusion hnone
        · simp only [allIdB, hmk, Bool.and_eq_true, decide_eq_true_eq] at hall
          rw [hr, hmt, hall.1]
          simp
    · apply ih _ (some c) (by intro h2; exact h2)
      rcases hpre with heq | hall
      · exact Or.inl heq
      · refine Or.inr ?_
        simp only [allIdB, Bool.and_eq_true] at hall
        exact hall.2
  | fire p c t2 r mt rest o2 hfire htr ih =>
    intro hpre q hq
    obtain ⟨c0, tokRest, γf, htok, hpv, hlec, hfaf, hnwf, hr, hmt⟩ :=
      tmFuzzy_inv hfire
    rw [hr, htok, List.cons_append]
    simp only [allIdB, Bool.and_eq_true]
    have hword : ∀ a ∈ tokRest, isWordChar a = true := by
      intro a ha
      exact letter_word (hl2 a (by rw [htok]; simp [ha]))
    have hc0w : isWordChar c0 = true :=
      letter_word (hl2 c0 (by rw [htok]; simp))
    have htail : allIdB (tmFuzzy tok) (lastD tokRest (some c0)) o2 = true := by
      apply ih
      · rcases hpre with heq | hall
        · exact Or.inl heq
        · refine Or.inr ?_
          have hsound := tmSound_fuzzy tok2 p c t2 r mt rest hfire
          have h2 : allIdB (tmFuzzy tok) p (mt ++ rest) = true := by
            rw [hsound.1]; exact hall
          exact allId_append _ mt p rest h2
      · intro hqw
        rw [lastD_word hword hc0w] at hqw
        exact Bool.noConfusion hqw
    refine ⟨?_, fz_allId_blocked tok tokRest hword c0 o2 hc0w htail⟩
    cases hfo : tmFuzzy tok q c0 (tokRest ++ o2) with
    | none => rfl
    | some pr =>
      obtain ⟨r1, mt1, rest1⟩ := pr
      obtain ⟨c0b, tokRestB, γ1, htokB, hpvB, hlecB, hfaB, hnwB, hrB, hmtB⟩ :=
        tmFuzzy_inv hfo
      rcases fuzzyAfter_through tokRest tokRestB o2 γ1 rest1
        (fun a ha => hl2 a (by rw [htok]; simp [ha])) hfaB with
        ⟨h1, h2, h3, h4⟩ | ⟨h1, h2, γ3, h3, h4⟩
      · exfalso
        have hd : tokRest.drop tokRestB.length ≠ [] := by
          intro hempty
          rw [List.drop_eq_nil_iff] at hempty
          omega
        cases hdd : tokRest.drop tokRestB.length with
        | nil => exact hd hdd
        | cons d u3 =>
          rw [h3, hdd] at hnwB
          have hdw : isWordChar d = true := by
            refine letter_word (hl2 d ?_)
            have hmem : d ∈ tokRest.drop tokRestB.length := by rw [hdd]; simp
            rw [htok]
            exact List.mem_cons_of_mem _ (List.drop_subset _ _ hmem)
          simp only [List.cons_append, nextNonWord, hdw] at hnwB
          exact Bool.noConfusion hnwB
      · have hpref : lowerStr tok2 = (lowerStr tok).take tok2.length := by
          rw [htok, htokB]
          simp only [lowerStr, List.map_cons, List.length_cons,
            List.take_succ_cons, List.cons.injEq]
          constructor
          · exact lowEq_iff.mp hlecB
          · rw [← List.map_take]
            simpa [lowerStr] using h2.symm
        rcases hc0 with heq | hpf | hlen
        · have htokeq : c0b = c0 ∧ tokRestB = tokRest := by
            have : c0b :: tokRestB = c0 :: tokRest := by
              rw [← htokB, heq, htok]
            exact ⟨by injection this, by injection this⟩
          obtain ⟨he1, he2⟩ := htokeq
          subst he1; subst he2
          have hdr : tokRestB.drop tokRestB.length = [] := by simp
          rw [hdr] at h3
          simp only [fuzzyAfter, Option.some.injEq, Prod.mk.injEq] at h3
          rw [hrB, hmtB, htokB, h4, ← h3.1]
          simp
        · exfalso
          have : (lowerStr tok2).isPrefixOf (lowerStr tok) = true := by
            rw [List.isPrefixOf_iff_prefix, hpref]
            exact List.take_prefix _ _
          rw [this] at hpf
          exact Bool.noConfusion hpf
        · exfalso
          have hlen2 : tok2.length ≤ tok.length := by
            rw [htok, htokB]
            simp only [List.length_cons]
            omega
          omega

/- ## Transfer of fuzzy matches through the unit, hyphen and digit passes -/

/-- Peeling a block of spaces off a fuzzy continuation. -/
theorem fuzzyAfter_spaces :
    ∀ (sp : List Char), (∀ a ∈ sp, isSpaceChar a = true) →
      ∀ (l : Char) (w z : List Char),
        fuzzyAfter (l :: w) (sp ++ z) =
          (fuzzyAfter (l :: w) z).map (fun pr => (sp ++ pr.1, pr.2)) := by
  intro sp
  induction sp with
  | nil =>
    intro _ l w z
    simp only [List.nil_append]
    cases hfa : fuzzyAfter (l :: w) z with
    | none => simp
    | some pr => simp
  | cons a sp2 ih =>
    intro hsp l w z
    rw [List.cons_append, fuzzyAfter_cons_space (hsp a (by simp)),
      ih (fun b hb => hsp b (by simp [hb])) l w z]
    cases hfa : fuzzyAfter (l :: w) z with
    | none => simp
    | some pr => simp

/-- The lookbehind context after a hyphen-pattern fire is non-word. -/
theorem lastD_hyph_nonword {p : Option Char} {c : Char} {t r mt rest : List Char}
    (h : tmHyph p c t = some (r, mt, rest)) :
    prevNonWord (lastD mt p) = true := by
  obtain ⟨hr, hcase⟩ := tmHyph_inv h
  have hmem : ∀ a, mt.getLast? = some a → isWordChar a = false := by
    intro a hg
    have ha := List.mem_of_mem_getLast? hg
    rcases hcase with ⟨hc, hmt, _⟩ | ⟨hc, r2, hdrop, hmt, _⟩
    · rw [hmt] at ha
      rcases List.mem_cons.mp ha with h1 | h1
      · rw [h1, hc]; decide
      · exact space_not_word (List.mem_takeWhile_imp h1)
    · rw [hmt] at ha
      rcases List.mem_cons.mp ha with h1 | h1
      · rw [h1]; exact space_not_word hc
      · rcases List.mem_append.mp h1 with h2 | h2
        · exact space_not_word (List.mem_takeWhile_imp h2)
        · rcases List.mem_cons.mp h2 with h3 | h3
          · rw [h3]; decide
          · exact space_not_word (List.mem_takeWhile_imp h3)
  cases hg : mt.getLast? with
  | none =>
    simp only [lastD, hg]
    exfalso
    rcases hcase with ⟨_, hmt, _⟩ | ⟨_, _, _, hmt, _⟩ <;>
      (rw [hmt] at hg; simp at hg)
  | some a =>
    simp only [lastD, hg]
    simp [prevNonWord, hmem a hg]

/-- The lookbehind context after a digit-joining fire is non-word. -/
theorem lastD_dig_nonword {p : Option Char} {c : Char} {t r mt rest : List Char}
    (h : tmDig p c t = some (r, mt, rest)) :
    prevNonWord (lastD mt p) = true := by
  obtain ⟨hc, _, x, r2, hdrop, hx, hr, hmt, hrest⟩ := tmDig_inv h
  have hmem : ∀ a, mt.getLast? = some a → isWordChar a = false := by
    intro a hg
    have ha := List.mem_of_mem_getLast? hg
    rw [hmt] at ha
    rcases List.mem_cons.mp ha with h1 | h1
    · rw [h1]; exact space_not_word hc
    · exact space_not_word (List.mem_takeWhile_imp h1)
  cases hg : mt.getLast? with
  | none =>
    rw [hmt] at hg; simp at hg
  | some a =>
    simp only [lastD, hg]
    simp [prevNonWord, hmem a hg]

/-- Transfer of a fuzzy match backwards through the unit pass, for
patterns that cannot spell out the replacement "St". -/
theorem st_core :
    ∀ {p t o}, Trace tmSt p t o →
      ∀ w γ ρ, NoCrossP ("St".toList) w → fuzzyAfter w o = some (γ, ρ) →
        nextNonWord ρ = true →
        ∃ ρ2, fuzzyAfter w t = some (γ, ρ2) ∧ nextNonWord ρ2 = true := by
  intro p t o tr
  induction tr with
  | nil p =>
    intro w γ ρ hnc hfa hnw
    cases w with
    | nil =>
      simp only [fuzzyAfter, Option.some.injEq, Prod.mk.injEq] at hfa
      exact ⟨[], by rw [← hfa.1]; rfl, rfl⟩
    | cons l w2 =>
      simp only [fuzzyAfter, List.dropWhile_nil] at hfa
      exact Option.noConfusion hfa
  | copy p c t2 o2 hnone htr ih =>
    intro w γ ρ hnc hfa hnw
    cases w with
    | nil =>
      simp only [fuzzyAfter, Option.some.injEq, Prod.mk.injEq] at hfa
      refine ⟨c :: t2, by rw [← hfa.1]; rfl, ?_⟩
      rw [← hfa.2] at hnw
      exact hnw
    | cons l w2 =>
      by_cases hsp : isSpaceChar c = true
      · rw [fuzzyAfter_cons_space hsp] at hfa
        cases hfa2 : fuzzyAfter (l :: w2) o2 with
        | none => rw [hfa2] at hfa; exact Option.noConfusion hfa
        | some pr =>
          obtain ⟨γ2, ρ2⟩ := pr
          rw [hfa2] at hfa
          simp only [Option.map_some', Option.some.injEq, Prod.mk.injEq] at hfa
          obtain ⟨ρ3, hfa3, hnw3⟩ := ih (l :: w2) γ2 ρ2 hnc hfa2
            (by rw [hfa.2]; exact hnw)
          refine ⟨ρ3, ?_, hnw3⟩
          rw [fuzzyAfter_cons_space hsp, hfa3, ← hfa.1]
          rfl
      · have hsp2 : isSpaceChar c = false := by
          cases hv : isSpaceChar c
          · rfl
          · exact absurd hv hsp
        rw [fuzzyAfter_cons_nonspace hsp2] at hfa
        by_cases hle : lowEq c l = true
        · rw [if_pos hle] at hfa
          cases hfa2 : fuzzyAfter w2 o2 with
          | none => rw [hfa2] at hfa; exact Option.noConfusion hfa
          | some pr =>
            obtain ⟨γ2, ρ2⟩ := pr
            rw [hfa2] at hfa
            simp only [Option.map_some', Option.some.injEq, Prod.mk.injEq] at hfa
            obtain ⟨ρ3, hfa3, hnw3⟩ := ih w2 γ2 ρ2 (noCross_tail hnc) hfa2
              (by rw [hfa.2]; exact hnw)
            refine ⟨ρ3, ?_, hnw3⟩
            rw [fuzzyAfter_cons_nonspace hsp2, if_pos hle, hfa3, ← hfa.1]
            rfl
        · rw [if_neg hle] at hfa
          exact Option.noConfusion hfa
  | fire p c t2 r mt rest o2 hfire htr ih =>
    intro w γ ρ hnc hfa hnw
    obtain ⟨hles, x, hdrop, hlet, hnwr, hr, hmt⟩ := tmSt_inv hfire
    rw [hr] at hfa
    cases w with
    | nil =>
      exfalso
      simp only [fuzzyAfter, Option.some.injEq, Prod.mk.injEq] at hfa
      rw [← hfa.2] at hnw
      exact Bool.noConfusion hnw
    | cons l w2 =>
      exfalso
      have hSns : isSpaceChar 'S' = false := by decide
      rw [show ("St".toList ++ o2) = 'S' :: 't' :: o2 from rfl,
        fuzzyAfter_cons_nonspace hSns] at hfa
      by_cases hle1 : lowEq 'S' l = true
      · rw [if_pos hle1] at hfa
        cases w2 with
        | nil =>
          simp only [fuzzyAfter, Option.map_some', Option.some.injEq,
            Prod.mk.injEq] at hfa
          rw [← hfa.2] at hnw
          exact Bool.noConfusion hnw
        | cons l2 w3 =>
          have htns : isSpaceChar 't' = false := by decide
          rw [fuzzyAfter_cons_nonspace htns] at hfa
          by_cases hle2 : lowEq 't' l2 = true
          · have hpf := hnc 0
            rw [List.drop_zero] at hpf
            have : ((lowerStr "St".toList).isPrefixOf
                (lowerStr (l :: l2 :: w3))) = true := by
              rw [List.isPrefixOf_iff_prefix]
              refine ⟨lowerStr w3, ?_⟩
              show ['s', 't'] ++ lowerStr w3 = lowerStr (l :: l2 :: w3)
              simp only [lowerStr, List.map_cons, List.cons_append,
                List.nil_append, List.cons.injEq]
              exact ⟨lowEq_iff.mp hle1, lowEq_iff.mp hle2, trivial⟩
            rw [this] at hpf
            exact Bool.noConfusion hpf
          · rw [if_neg hle2] at hfa
            simp only [Option.map_none'] at hfa
            exact Option.noConfusion hfa
      · rw [if_neg hle1] at hfa
        exact Option.noConfusion hfa

/-- Transfer of a fuzzy match backwards through the hyphen pass, for
letter patterns. -/
theorem hyph_core :
    ∀ {p t o}, Trace tmHyph p t o →
      ∀ w γ ρ, (∀ a ∈ w, isLetterChar a = true) →
        fuzzyAfter w o = some (γ, ρ) → nextNonWord ρ = true →
        ∃ ρ2, fuzzyAfter w t = some (γ, ρ2) ∧ nextNonWord ρ2 = true := by
  intro p t o tr
  induction tr with
  | nil p =>
    intro w γ ρ hw hfa hnw
    cases w with
    | nil =>
      simp only [fuzzyAfter, Option.some.injEq, Prod.mk.injEq] at hfa
      exact ⟨[], by rw [← hfa.1]; rfl, rfl⟩
    | cons l w2 =>
      simp only [fuzzyAfter, List.dropWhile_nil] at hfa
      exact Option.noConfusion hfa
  | copy p c t2 o2 hnone htr ih =>
    intro w γ ρ hw hfa hnw
    cases w with
    | nil =>
      simp only [fuzzyAfter, Option.some.injEq, Prod.mk.injEq] at hfa
      refine ⟨c :: t2, by rw [← hfa.1]; rfl, ?_⟩
      rw [← hfa.2] at hnw
      exact hnw
    | cons l w2 =>
      by_cases hsp : isSpaceChar c = true
      · rw [fuzzyAfter_cons_space hsp] at hfa
        cases hfa2 : fuzzyAfter (l :: w2) o2 with
        | none => rw [hfa2] at hfa; exact Option.noConfusion hfa
        | some pr =>
          obtain ⟨γ2, ρ2⟩ := pr
          rw [hfa2] at hfa
          simp only [Option.map_some', Option.some.injEq, Prod.mk.injEq] at hfa
          obtain ⟨ρ3, hfa3, hnw3⟩ := ih (l :: w2) γ2 ρ2 hw hfa2
            (by rw [hfa.2]; exact hnw)
          refine ⟨ρ3, ?_, hnw3⟩
          rw [fuzzyAfter_cons_space hsp, hfa3, ← hfa.1]
          rfl
      · have hsp2 : isSpaceChar c = false := by
          cases hv : isSpaceChar c
          · rfl
          · exact absurd hv hsp
        rw [fuzzyAfter_cons_nonspace hsp2] at hfa
        by_cases hle : lowEq c l = true
        · rw [if_pos hle] at hfa
          cases hfa2 : fuzzyAfter w2 o2 with
          | none => rw [hfa2] at hfa; exact Option.noConfusion hfa
          | some pr =>
            obtain ⟨γ2, ρ2⟩ := pr
            rw [hfa2] at hfa
            simp only [Option.map_some', Option.some.injEq, Prod.mk.injEq] at hfa
            obtain ⟨ρ3, hfa3, hnw3⟩ := ih w2 γ2 ρ2
              (fun a ha => hw a (by simp [ha])) hfa2
              (by rw [hfa.2]; exact hnw)
            refine ⟨ρ3, ?_, hnw3⟩
            rw [fuzzyAfter_cons_nonspace hsp2, if_pos hle, hfa3, ← hfa.1]
            rfl
        · rw [if_neg hle] at hfa
          exact Option.noConfusion hfa
  | fire p c t2 r mt rest o2 hfire htr ih =>
    intro w γ ρ hw hfa hnw
    obtain ⟨hr, hcase⟩ := tmHyph_inv hfire
    rw [hr] at hfa
    have hcnw : isWordChar c = false := by
      rcases hcase with ⟨hc, _, _⟩ | ⟨hc, _, _, _, _⟩
      · rw [hc]; decide
      · exact space_not_word hc
    cases w with
    | nil =>
      simp only [fuzzyAfter, Option.some.injEq, Prod.mk.injEq] at hfa
      refine ⟨c :: t2, by rw [← hfa.1]; rfl, ?_⟩
      simp [nextNonWord, hcnw]
    | cons l w2 =>
      exfalso
      have hmns : isSpaceChar '-' = false := by decide
      rw [show (['-'] ++ o2) = '-' :: o2 from rfl,
        fuzzyAfter_cons_nonspace hmns] at hfa
      by_cases hle : lowEq '-' l = true
      · have h1 := lowEq_letter hle
        rw [hw l (by simp)] at h1
        exact Bool.noConfusion h1
      · rw [if_neg hle] at hfa
        exact Option.noConfusion hfa

/-- Transfer of a fuzzy match backwards through the digit-joining pass,
for letter patterns. -/
theorem dig_core :
    ∀ {p t o}, Trace tmDig p t o →
      ∀ w γ ρ, (∀ a ∈ w, isLetterChar a = true) →
        fuzzyAfter w o = some (γ, ρ) → nextNonWord ρ = true →
        ∃ ρ2, fuzzyAfter w t = some (γ, ρ2) ∧ nextNonWord ρ2 = true := by
  intro p t o tr
  induction tr with
  | nil p =>
    intro w γ ρ hw hfa hnw
    cases w with
    | nil =>
      simp only [fuzzyAfter, Option.some.injEq, Prod.mk.injEq] at hfa
      exact ⟨[], by rw [← hfa.1]; rfl, rfl⟩
    | cons l w2 =>
      simp only [fuzzyAfter, List.dropWhile_nil] at hfa
      exact Option.noConfusion hfa
  | copy p c t2 o2 hnone htr ih =>
    intro w γ ρ hw hfa hnw
    cases w with
    | nil =>
      simp only [fuzzyAfter, Option.some.injEq, Prod.mk.injEq] at hfa
      refine ⟨c :: t2, by rw [← hfa.1]; rfl, ?_⟩
      rw [← hfa.2] at hnw
      exact hnw
    | cons l w2 =>
      by_cases hsp : isSpaceChar c = true
      · rw [fuzzyAfter_cons_space hsp] at hfa
        cases hfa2 : fuzzyAfter (l :: w2) o2 with
        | none => rw [hfa2] at hfa; exact Option.noConfusion hfa
        | some pr =>
          obtain ⟨γ2, ρ2⟩ := pr
          rw [hfa2] at hfa
          simp only [Option.map_some', Option.some.injEq, Prod.mk.injEq] at hfa
          obtain ⟨ρ3, hfa3, hnw3⟩ := ih (l :: w2) γ2 ρ2 hw hfa2
            (by rw [hfa.2]; exact hnw)
          refine ⟨ρ3, ?_, hnw3⟩
          rw [fuzzyAfter_cons_space hsp, hfa3, ← hfa.1]
          rfl
      · have hsp2 : isSpaceChar c = false := by
          cases hv : isSpaceChar c
          · rfl
          · exact absurd hv hsp
        rw [fuzzyAfter_cons_nonspace hsp2] at hfa
        by_cases hle : lowEq c l = true
        · rw [if_pos hle] at hfa
          cases hfa2 : fuzzyAfter w2 o2 with
          | none => rw [hfa2] at hfa; exact Option.noConfusion hfa
          | some pr =>
            obtain ⟨γ2, ρ2⟩ := pr
            rw [hfa2] at hfa
            simp only [Option.map_some', Option.some.injEq, Prod.mk.injEq] at hfa
            obtain ⟨ρ3, hfa3, hnw3⟩ := ih w2 γ2 ρ2
              (fun a ha => hw a (by simp [ha])) hfa2
              (by rw [hfa.2]; exact hnw)
            refine ⟨ρ3, ?_, hnw3⟩
            rw [fuzzyAfter_cons_nonspace hsp2, if_pos hle, hfa3, ← hfa.1]
            rfl
        · rw [if_neg hle] at hfa
          exact Option.noConfusion hfa
  | fire p c t2 r mt rest o2 hfire htr ih =>
    intro w γ ρ hw hfa hnw
    exfalso
    obtain ⟨hc, hpd, x, r2, hdrop, hx, hr, hmt, hrest⟩ := tmDig_inv hfire
    rw [hr, List.nil_append] at hfa
    rw [hrest] at htr
    cases htr with
    | copy _ _ _ o3 hnone2 htr2 =>
      cases w with
      | nil =>
        simp only [fuzzyAfter, Option.some.injEq, Prod.mk.injEq] at hfa
        rw [← hfa.2] at hnw
        simp only [nextNonWord, digit_word hx] at hnw
        exact Bool.noConfusion hnw
      | cons l w2 =>
        rw [fuzzyAfter_cons_nonspace (digit_not_space hx)] at hfa
        by_cases hle : lowEq x l = true
        · have h1 := lowEq_digit hle
          rw [hx, letter_not_digit (hw l (by simp))] at h1
          exact Bool.noConfusion h1
        · rw [if_neg hle] at hfa
          exact Option.noConfusion hfa
    | fire _ _ _ r2b mt2b rest2b o3 hfire2 htr2 =>
      obtain ⟨hc2, _, _⟩ := tmDig_inv hfire2
      rw [digit_not_space hx] at hc2
      exact Bool.noConfusion hc2

/- ## Preservation of literal-only fuzzy fires by the later passes -/

/-- The unit pass preserves literal-only fuzzy fires of a letter token
that cannot spell "St" past its first position and whose first two
letters, if they are case-insensitively "St", are exactly "St". -/
theorem st_fz (tok : List Char)
    (hl : ∀ a ∈ tok, isLetterChar a = true)
    (hnc : NoCrossP ("St".toList) (tok.drop 1))
    (hSt : ∀ c0 l2 w2, tok = c0 :: l2 :: w2 → lowEq c0 'S' = true →
      lowEq l2 't' = true → c0 = 'S' ∧ l2 = 't') :
    ∀ {p s o}, Trace tmSt p s o → allIdB (tmFuzzy tok) p s = true →
      ∀ q : Option Char, (prevNonWord q = true → prevNonWord p = true) →
        allIdB (tmFuzzy tok) q o = true := by
  intro p s o tr
  induction tr with
  | nil p => intro _ q _; rfl
  | copy p c t2 o2 hnone htr ih =>
    intro hpre q hq
    simp only [allIdB, Bool.and_eq_true]
    constructor
    · cases hfo : tmFuzzy tok q c o2 with
      | none => rfl
      | some pr =>
        obtain ⟨r1, mt1, rest1⟩ := pr
        obtain ⟨c0, tokRest, γf, htokB, hpvB, hlecB, hfaB, hnwB, hrB, hmtB⟩ :=
          tmFuzzy_inv hfo
        have hnc2 : NoCrossP ("St".toList) tokRest := by
          have hd1 : tok.drop 1 = tokRest := by rw [htokB]; rfl
          rw [← hd1]; exact hnc
        obtain ⟨ρ2, hfa2, hnw2⟩ := st_core htr tokRest γf rest1 hnc2 hfaB hnwB
        have hmk := tmFuzzy_mk htokB (hq hpvB) hlecB hfa2 hnw2
        simp only [allIdB, hmk, Bool.and_eq_true, decide_eq_true_eq] at hpre
        rw [hrB, hmtB, hpre.1]
        simp
    · refine ih ?_ (some c) (fun h2 => h2)
      simp only [allIdB, Bool.and_eq_true] at hpre
      exact hpre.2
  | fire p c t2 r mt rest o2 hfire htr ih =>
    intro hpre q hq
    obtain ⟨hles, x, hdrop, hlet, hnwr, hr, hmt⟩ := tmSt_inv hfire
    have hpre2 : allIdB (tmFuzzy tok) (lastD mt p) rest = true := by
      have hsound := tmSound_st p c t2 r mt rest hfire
      have h2 : allIdB (tmFuzzy tok) p (mt ++ rest) = true := by
        rw [hsound.1]; exact hpre
      exact allId_append _ mt p rest h2
    rw [hr]
    show allIdB (tmFuzzy tok) q ('S' :: 't' :: o2) = true
    simp only [allIdB, Bool.and_eq_true]
    refine ⟨?_, ?_, ?_⟩
    · cases hfo : tmFuzzy tok q 'S' ('t' :: o2) with
      | none => rfl
      | some pr =>
        obtain ⟨r1, mt1, rest1⟩ := pr
        obtain ⟨c0, tokRest, γ1, htokB, hpvB, hlecB, hfaB, hnwB, hrB, hmtB⟩ :=
          tmFuzzy_inv hfo
        cases tokRest with
        | nil =>
          exfalso
          simp only [fuzzyAfter, Option.some.injEq, Prod.mk.injEq] at hfaB
          rw [← hfaB.2] at hnwB
          exact Bool.noConfusion hnwB
        | cons l2 w3 =>
          rw [fuzzyAfter_cons_nonspace (show isSpaceChar 't' = false by decide)]
            at hfaB
          by_cases hle2 : lowEq 't' l2 = true
          · rw [if_pos hle2] at hfaB
            cases hfa3 : fuzzyAfter w3 o2 with
            | none => rw [hfa3] at hfaB; exact Option.noConfusion hfaB
            | some pr3 =>
              obtain ⟨γ3, ρ3⟩ := pr3
              rw [hfa3] at hfaB
              simp only [Option.map_some', Option.some.injEq,
                Prod.mk.injEq] at hfaB
              have hnc3 : NoCrossP ("St".toList) w3 := by
                have hd1 : tok.drop 1 = l2 :: w3 := by rw [htokB]; rfl
                exact noCross_tail (hd1 ▸ hnc)
              obtain ⟨ρ4, hfa4, hnw4⟩ := st_core htr w3 γ3 rest1 hnc3
                (by rw [← hfaB.2]; exact hfa3) hnwB
              have ht2 : t2 = t2.takeWhile isSpaceChar ++ x :: rest := by
                rw [← hdrop, List.takeWhile_append_dropWhile]
              have hxns : isSpaceChar x = false := by
                rw [lowEq_space hlet]; decide
              have hfain : fuzzyAfter (l2 :: w3) t2 =
                  some (t2.takeWhile isSpaceChar ++ x :: γ3, ρ4) := by
                conv_lhs => rw [ht2]
                rw [fuzzyAfter_spaces _
                  (fun a ha => List.mem_takeWhile_imp ha) l2 w3 (x :: rest),
                  fuzzyAfter_cons_nonspace hxns,
                  if_pos (lowEq_trans hlet hle2), hfa4]
                rfl
              have hmk := tmFuzzy_mk htokB (hq hpvB)
                (lowEq_trans hles hlecB) hfain hnw4
              simp only [allIdB, hmk, Bool.and_eq_true,
                decide_eq_true_eq] at hpre
              have hid := hpre.1
              rw [htokB] at hid
              cases hsp : t2.takeWhile isSpaceChar with
              | cons a sp2 =>
                exfalso
                rw [hsp, List.cons_append] at hid
                simp only [List.cons.injEq] at hid
                have hmem2 : a ∈ t2.takeWhile isSpaceChar := by
                  rw [hsp]; simp
                have hasp : isSpaceChar a = true :=
                  List.mem_takeWhile_imp hmem2
                rw [← hid.2.1,
                  letter_not_space (hl l2 (by rw [htokB]; simp))] at hasp
                exact Bool.noConfusion hasp
              | nil =>
                rw [hsp, List.nil_append] at hid
                simp only [List.cons.injEq] at hid
                obtain ⟨hc0S, hl2t⟩ := hSt c0 l2 w3 htokB (lowEq_symm hlecB)
                  (by rw [hid.2.1]; exact hlet)
                show decide (r1 = mt1) = true
                rw [hrB, hmtB, ← hfaB.1, htokB, hc0S, hl2t, hid.2.2]
                simp
          · rw [if_neg hle2] at hfaB
            exact Option.noConfusion hfaB
    · simp [tmFuzzy_blocked (show prevNonWord (some 'S') = false by decide)]
    · refine ih hpre2 (some 't') ?_
      intro h2
      rw [show prevNonWord (some 't') = false by decide] at h2
      exact Bool.noConfusion h2

/-- The hyphen pass preserves literal-only fuzzy fires of letter tokens. -/
theorem hyph_fz (tok : List Char)
    (hl : ∀ a ∈ tok, isLetterChar a = true) :
    ∀ {p s o}, Trace tmHyph p s o → allIdB (tmFuzzy tok) p s = true →
      ∀ q : Option Char, (prevNonWord q = true → prevNonWord p = true) →
        allIdB (tmFuzzy tok) q o = true := by
  intro p s o tr
  induction tr with
  | nil p => intro _ q _; rfl
  | copy p c t2 o2 hnone htr ih =>
    intro hpre q hq
    simp only [allIdB, Bool.and_eq_true]
    constructor
    · cases hfo : tmFuzzy tok q c o2 with
      | none => rfl
      | some pr =>
        obtain ⟨r1, mt1, rest1⟩ := pr
        obtain ⟨c0, tokRest, γf, htokB, hpvB, hlecB, hfaB, hnwB, hrB, hmtB⟩ :=
          tmFuzzy_inv hfo
        obtain ⟨ρ2, hfa2, hnw2⟩ := hyph_core htr tokRest γf rest1
          (fun a ha => hl a (by rw [htokB]; simp [ha])) hfaB hnwB
        have hmk := tmFuzzy_mk htokB (hq hpvB) hlecB hfa2 hnw2
        simp only [allIdB, hmk, Bool.and_eq_true, decide_eq_true_eq] at hpre
        rw [hrB, hmtB, hpre.1]
        simp
    · refine ih ?_ (some c) (fun h2 => h2)
      simp only [allIdB, Bool.and_eq_true] at hpre
      exact hpre.2
  | fire p c t2 r mt rest o2 hfire htr ih =>
    intro hpre q hq
    have hpre2 : allIdB (tmFuzzy tok) (lastD mt p) rest = true := by
      have hsound := tmSound_hyph p c t2 r mt rest hfire
      have h2 : allIdB (tmFuzzy tok) p (mt ++ rest) = true := by
        rw [hsound.1]; exact hpre
      exact allId_append _ mt p rest h2
    obtain ⟨hr, hcase⟩ := tmHyph_inv hfire
    rw [hr]
    show allIdB (tmFuzzy tok) q ('-' :: o2) = true
    simp only [allIdB, Bool.and_eq_true]
    constructor
    · cases hfo : tmFuzzy tok q '-' o2 with
      | none => rfl
      | some pr =>
        exfalso
        obtain ⟨r1, mt1, rest1⟩ := pr
        obtain ⟨c0, tokRest, γf, htokB, hpvB, hlecB, hfaB, hnwB, hrB, hmtB⟩ :=
          tmFuzzy_inv hfo
        have h1 := lowEq_letter hlecB
        rw [hl c0 (by rw [htokB]; simp)] at h1
        exact absurd h1 (by decide)
    · exact ih hpre2 (some '-') (fun _ => lastD_hyph_nonword hfire)

/-- The digit-joining pass preserves literal-only fuzzy fires of letter
tokens. -/
theorem dig_fz (tok : List Char)
    (hl : ∀ a ∈ tok, isLetterChar a = true) :
    ∀ {p s o}, Trace tmDig p s o → allIdB (tmFuzzy tok) p s = true →
      ∀ q : Option Char, (prevNonWord q = true → prevNonWord p = true) →
        allIdB (tmFuzzy tok) q o = true := by
  intro p s o tr
  induction tr with
  | nil p => intro _ q _; rfl
  | copy p c t2 o2 hnone htr ih =>
    intro hpre q hq
    simp only [allIdB, Bool.and_eq_true]
    constructor
    · cases hfo : tmFuzzy tok q c o2 with
      | none => rfl
      | some pr =>
        obtain ⟨r1, mt1, rest1⟩ := pr
        obtain ⟨c0, tokRest, γf, htokB, hpvB, hlecB, hfaB, hnwB, hrB, hmtB⟩ :=
          tmFuzzy_inv hfo
        obtain ⟨ρ2, hfa2, hnw2⟩ := dig_core htr tokRest γf rest1
          (fun a ha => hl a (by rw [htokB]; simp [ha])) hfaB hnwB
        have hmk := tmFuzzy_mk htokB (hq hpvB) hlecB hfa2 hnw2
        simp only [allIdB, hmk, Bool.and_eq_true, decide_eq_true_eq] at hpre
        rw [hrB, hmtB, hpre.1]
        simp
    · refine ih ?_ (some c) (fun h2 => h2)
      simp only [allIdB, Bool.and_eq_true] at hpre
      exact hpre.2
  | fire p c t2 r mt rest o2 hfire htr ih =>
    intro hpre q hq
    have hpre2 : allIdB (tmFuzzy tok) (lastD mt p) rest = true := by
      have hsound := tmSound_dig p c t2 r mt rest hfire
      have h2 : allIdB (tmFuzzy tok) p (mt ++ rest) = true := by
        rw [hsound.1]; exact hpre
      exact allId_append _ mt p rest h2
    obtain ⟨hc, hpd, x, r2, hdrop, hx, hr, hmt, hrest⟩ := tmDig_inv hfire
    rw [hr, List.nil_append]
    exact ih hpre2 q (fun _ => lastD_dig_nonword hfire)

/- ## Literal-only unit fires: establishment and preservation -/

/-- The unit pattern ignores its lookbehind, so the literal-fire test
gives the all-identity property for any context. -/
theorem stOK_allId : ∀ (s : List Char), stOKB s = true →
    ∀ p, allIdB tmSt p s = true := by
  intro s
  induction s with
  | nil => intro _ p; rfl
  | cons c t ih =>
    intro h p
    simp only [stOKB, Bool.and_eq_true] at h
    simp only [allIdB, Bool.and_eq_true]
    exact ⟨h.1, ih h.2 (some c)⟩

/-- The unit pass preserves a non-word head. -/
theorem st_trace_nnw {p : Option Char} {t o : List Char}
    (tr : Trace tmSt p t o) (h : nextNonWord t = true) :
    nextNonWord o = true := by
  cases tr with
  | nil => rfl
  | copy p c t2 o2 hnone htr => exact h
  | fire p c t2 r mt rest o2 hfire htr =>
    exfalso
    obtain ⟨hles, x, hdrop, hlet, hnwr, hr, hmt⟩ := tmSt_inv hfire
    have hw : isWordChar c = true := by rw [lowEq_word hles]; decide
    simp only [nextNonWord, hw] at h
    exact Bool.noConfusion h

/-- Transfer of the unit-pattern lookahead backwards through the unit
pass. -/
theorem st_tail_core :
    ∀ {p t o}, Trace tmSt p t o →
      ∀ x ρ, o.dropWhile isSpaceChar = x :: ρ → lowEq x 't' = true →
        nextNonWord ρ = true →
        o.takeWhile isSpaceChar = t.takeWhile isSpaceChar ∧
        ∃ ρ2, t.dropWhile isSpaceChar = x :: ρ2 ∧ nextNonWord ρ2 = true := by
  intro p t o tr
  induction tr with
  | nil p =>
    intro x ρ hdrop _ _
    exact absurd hdrop (by simp)
  | copy p c t2 o2 hnone htr ih =>
    intro x ρ hdrop hx hnw
    by_cases hsp : isSpaceChar c = true
    · rw [List.dropWhile_cons, hsp] at hdrop
      simp only [if_true] at hdrop
      obtain ⟨h1, ρ2, h2, h3⟩ := ih x ρ hdrop hx hnw
      refine ⟨?_, ρ2, ?_, h3⟩
      · simp only [List.takeWhile_cons, hsp, if_true, h1]
      · simp only [List.dropWhile_cons, hsp, if_true, h2]
    · have hsp2 : isSpaceChar c = false := by
        cases hv : isSpaceChar c
        · rfl
        · exact absurd hv hsp
      rw [List.dropWhile_cons, hsp2] at hdrop
      simp only [Bool.false_eq_true, if_false, List.cons.injEq] at hdrop
      obtain ⟨hxc, hρ⟩ := hdrop
      have hnn : nextNonWord t2 = true := by
        cases htr with
        | nil => rfl
        | copy _ d t3 o3 hnone2 htr2 =>
          rw [← hρ] at hnw
          exact hnw
        | fire _ d t3 r2 mt2 rest2 o3 hfire2 htr2 =>
          exfalso
          obtain ⟨hles2, x2, hdrop2, hlet2, hnwr2, hr2, hmt2⟩ := tmSt_inv hfire2
          rw [← hρ, hr2] at hnw
          simp only [nextNonWord] at hnw
          exact Bool.noConfusion hnw
      refine ⟨?_, t2, ?_, hnn⟩
      · simp [List.takeWhile_cons, hsp2]
      · rw [List.dropWhile_cons]
        simp only [hsp2, Bool.false_eq_true, if_false]
        rw [hxc]
  | fire p c t2 r mt rest o2 hfire htr ih =>
    intro x ρ hdrop hx hnw
    exfalso
    obtain ⟨hles, x2, hdrop2, hlet2, hnwr2, hr, hmt⟩ := tmSt_inv hfire
    rw [hr] at hdrop
    have hSns : isSpaceChar 'S' = false := by decide
    rw [show ("St".toList ++ o2) = 'S' :: 't' :: o2 from rfl,
      List.dropWhile_cons, hSns] at hdrop
    simp only [Bool.false_eq_true, if_false, List.cons.injEq] at hdrop
    rw [← hdrop.1] at hx
    exact absurd hx (by decide)

/-- Any output of the unit pass has only literal unit fires. -/
theorem st_complete :
    ∀ {p s o}, Trace tmSt p s o → stOKB o = true := by
  intro p s o tr
  induction tr with
  | nil p => rfl
  | copy p c t2 o2 hnone htr ih =>
    simp only [stOKB, Bool.and_eq_true]
    refine ⟨?_, ih⟩
    cases hfo : tmSt none c o2 with
    | none => rfl
    | some pr =>
      exfalso
      obtain ⟨r1, mt1, rest1⟩ := pr
      obtain ⟨hles, x, hdropO, hlet, hnwr, hr1, hmt1⟩ := tmSt_inv hfo
      obtain ⟨h1, ρ2, h2, h3⟩ := st_tail_core htr x rest1 hdropO hlet hnwr
      have hmk : tmSt p c t2 = some ("St".toList,
          c :: t2.takeWhile isSpaceChar ++ [x], ρ2) := by
        simp [tmSt, hles, h2, hlet, h3]
      rw [hmk] at hnone
      exact Option.noConfusion hnone
  | fire p c t2 r mt rest o2 hfire htr ih =>
    obtain ⟨hles, x, hdrop, hlet, hnwr, hr, hmt⟩ := tmSt_inv hfire
    rw [hr]
    show stOKB ('S' :: 't' :: o2) = true
    simp only [stOKB, Bool.and_eq_true]
    have hnn : nextNonWord o2 = true := st_trace_nnw htr hnwr
    refine ⟨?_, ?_, ih⟩
    · cases hfo : tmSt none 'S' ('t' :: o2) with
      | none => rfl
      | some pr =>
        obtain ⟨r1, mt1, rest1⟩ := pr
        obtain ⟨hles1, x1, hdrop1, hlet1, hnwr1, hr1, hmt1⟩ := tmSt_inv hfo
        have htns : isSpaceChar 't' = false := by decide
        rw [List.dropWhile_cons, htns] at hdrop1
        simp only [Bool.false_eq_true, if_false, List.cons.injEq] at hdrop1
        rw [hr1, hmt1]
        simp only [List.takeWhile_cons, htns, Bool.false_eq_true, if_false]
        rw [← hdrop1.1]
        simp
    · cases hfo : tmSt none 't' o2 with
      | none => rfl
      | some pr =>
        exfalso
        obtain ⟨r1, mt1, rest1⟩ := pr
        obtain ⟨hles1, _⟩ := tmSt_inv hfo
        exact absurd hles1 (by decide)

/-- Space characters are not digits. -/
theorem space_not_digit {c : Char} (h : isSpaceChar c = true) :
    Char.isDigit c = false := by
  simp only [isSpaceChar, Bool.or_eq_true, decide_eq_true_eq] at h
  rcases h with ((((h | h) | h) | h) | h) | h
  all_goals subst h; decide

/-- The literal-fire test restricts to suffixes. -/
theorem stOK_suffix : ∀ (u v : List Char),
    stOKB (u ++ v) = true → stOKB v = true := by
  intro u
  induction u with
  | nil => intro v h; exact h
  | cons c u2 ih =>
    intro v h
    rw [List.cons_append] at h
    simp only [stOKB, Bool.and_eq_true] at h
    exact ih v h.2

/-- Transfer of the unit-pattern lookahead backwards through the hyphen
pass. -/
theorem hyph_st_tail :
    ∀ {p t o}, Trace tmHyph p t o →
      ∀ x ρ, o.dropWhile isSpaceChar = x :: ρ → lowEq x 't' = true →
        nextNonWord ρ = true →
        o.takeWhile isSpaceChar = t.takeWhile isSpaceChar ∧
        ∃ ρ2, t.dropWhile isSpaceChar = x :: ρ2 ∧ nextNonWord ρ2 = true := by
  intro p t o tr
  induction tr with
  | nil p =>
    intro x ρ hdrop _ _
    exact absurd hdrop (by simp)
  | copy p c t2 o2 hnone htr ih =>
    intro x ρ hdrop hx hnw
    by_cases hsp : isSpaceChar c = true
    · rw [List.dropWhile_cons, hsp] at hdrop
      simp only [if_true] at hdrop
      obtain ⟨h1, ρ2, h2, h3⟩ := ih x ρ hdrop hx hnw
      refine ⟨?_, ρ2, ?_, h3⟩
      · simp only [List.takeWhile_cons, hsp, if_true, h1]
      · simp only [List.dropWhile_cons, hsp, if_true, h2]
    · have hsp2 : isSpaceChar c = false := by
        cases hv : isSpaceChar c
        · rfl
        · exact absurd hv hsp
      rw [List.dropWhile_cons, hsp2] at hdrop
      simp only [Bool.false_eq_true, if_false, List.cons.injEq] at hdrop
      obtain ⟨hxc, hρ⟩ := hdrop
      have hnn : nextNonWord t2 = true := by
        cases htr with
        | nil => rfl
        | copy _ d t3 o3 hnone2 htr2 =>
          rw [← hρ] at hnw
          exact hnw
        | fire _ d t3 r2 mt2 rest2 o3 hfire2 htr2 =>
          obtain ⟨hr2, hcase2⟩ := tmHyph_inv hfire2
          have hdw : isWordChar d = false := by
            rcases hcase2 with ⟨hc2, _, _⟩ | ⟨hc2, _, _, _, _⟩
            · rw [hc2]; decide
            · exact space_not_word hc2
          simp [nextNonWord, hdw]
      refine ⟨?_, t2, ?_, hnn⟩
      · simp [List.takeWhile_cons, hsp2]
      · rw [List.dropWhile_cons]
        simp only [hsp2, Bool.false_eq_true, if_false]
        rw [hxc]
  | fire p c t2 r mt rest o2 hfire htr ih =>
    intro x ρ hdrop hx hnw
    exfalso
    obtain ⟨hr, hcase⟩ := tmHyph_inv hfire
    rw [hr] at hdrop
    have hmns : isSpaceChar '-' = false := by decide
    rw [show (['-'] ++ o2) = '-' :: o2 from rfl,
      List.dropWhile_cons, hmns] at hdrop
    simp only [Bool.false_eq_true, if_false, List.cons.injEq] at hdrop
    rw [← hdrop.1] at hx
    exact absurd hx (by decide)

/-- Transfer of the unit-pattern lookahead backwards through the
digit-joining pass, under a non-digit lookbehind. -/
theorem dig_st_tail :
    ∀ {p t o}, Trace tmDig p t o →
      (match p with | some d => Char.isDigit d = false | none => True) →
      ∀ x ρ, o.dropWhile isSpaceChar = x :: ρ → lowEq x 't' = true →
        nextNonWord ρ = true →
        o.takeWhile isSpaceChar = t.takeWhile isSpaceChar ∧
        ∃ ρ2, t.dropWhile isSpaceChar = x :: ρ2 ∧ nextNonWord ρ2 = true := by
  intro p t o tr
  induction tr with
  | nil p =>
    intro _ x ρ hdrop _ _
    exact absurd hdrop (by simp)
  | copy p c t2 o2 hnone htr ih =>
    intro hpd x ρ hdrop hx hnw
    by_cases hsp : isSpaceChar c = true
    · rw [List.dropWhile_cons, hsp] at hdrop
      simp only [if_true] at hdrop
      obtain ⟨h1, ρ2, h2, h3⟩ := ih (by simp [space_not_digit hsp]) x ρ
        hdrop hx hnw
      refine ⟨?_, ρ2, ?_, h3⟩
      · simp only [List.takeWhile_cons, hsp, if_true, h1]
      · simp only [List.dropWhile_cons, hsp, if_true, h2]
    · have hsp2 : isSpaceChar c = false := by
        cases hv : isSpaceChar c
        · rfl
        · exact absurd hv hsp
      rw [List.dropWhile_cons, hsp2] at hdrop
      simp only [Bool.false_eq_true, if_false, List.cons.injEq] at hdrop
      obtain ⟨hxc, hρ⟩ := hdrop
      have hcd : Char.isDigit c = false := by
        rw [hxc, lowEq_digit hx]; decide
      have hnn : nextNonWord t2 = true := by
        cases htr with
        | nil => rfl
        | copy _ d t3 o3 hnone2 htr2 =>
          rw [← hρ] at hnw
          exact hnw
        | fire _ d t3 r2 mt2 rest2 o3 hfire2 htr2 =>
          exfalso
          obtain ⟨hc2, hpd2, _⟩ := tmDig_inv hfire2
          obtain ⟨d2, hd2, hdig2⟩ := hpd2
          have h9 : d2 = c := by injection hd2 with h8; exact h8.symm
          rw [h9, hcd] at hdig2
          exact Bool.noConfusion hdig2
      refine ⟨?_, t2, ?_, hnn⟩
      · simp [List.takeWhile_cons, hsp2]
      · rw [List.dropWhile_cons]
        simp only [hsp2, Bool.false_eq_true, if_false]
        rw [hxc]
  | fire p c t2 r mt rest o2 hfire htr ih =>
    intro hpd x ρ hdrop hx hnw
    exfalso
    obtain ⟨hc, hpdig, _⟩ := tmDig_inv hfire
    obtain ⟨d, hd, hdig⟩ := hpdig
    rw [hd] at hpd
    simp only at hpd
    rw [hpd] at hdig
    exact Bool.noConfusion hdig

/-- The hyphen pass preserves literal-only unit fires. -/
theorem hyph_st :
    ∀ {p s o}, Trace tmHyph p s o → stOKB s = true → stOKB o = true := by
  intro p s o tr
  induction tr with
  | nil p => intro _; rfl
  | copy p c t2 o2 hnone htr ih =>
    intro hpre
    simp only [stOKB, Bool.and_eq_true] at hpre ⊢
    refine ⟨?_, ih hpre.2⟩
    cases hfo : tmSt none c o2 with
    | none => rfl
    | some pr =>
      obtain ⟨r1, mt1, rest1⟩ := pr
      obtain ⟨hles, x, hdropO, hlet, hnwr, hr1, hmt1⟩ := tmSt_inv hfo
      obtain ⟨h1, ρ2, h2, h3⟩ := hyph_st_tail htr x rest1 hdropO hlet hnwr
      have hmk : tmSt none c t2 = some ("St".toList,
          c :: t2.takeWhile isSpaceChar ++ [x], ρ2) := by
        simp [tmSt, hles, h2, hlet, h3]
      rw [hmk] at hpre
      simp only [decide_eq_true_eq] at hpre
      rw [hr1, hmt1, h1]
      simp only [decide_eq_true_eq]
      exact hpre.1
  | fire p c t2 r mt rest o2 hfire htr ih =>
    intro hpre
    obtain ⟨hr, hcase⟩ := tmHyph_inv hfire
    rw [hr]
    show stOKB ('-' :: o2) = true
    simp only [stOKB, Bool.and_eq_true]
    constructor
    · cases hfo : tmSt none '-' o2 with
      | none => rfl
      | some pr =>
        obtain ⟨r1, mt1, rest1⟩ := pr
        obtain ⟨hles, _⟩ := tmSt_inv hfo
        exact absurd hles (by decide)
    · refine ih ?_
      have hsound := tmSound_hyph p c t2 r mt rest hfire
      have h2 : stOKB (mt ++ rest) = true := by
        rw [hsound.1]; exact hpre
      exact stOK_suffix mt rest h2

/-- The digit-joining pass preserves literal-only unit fires. -/
theorem dig_st :
    ∀ {p s o}, Trace tmDig p s o → stOKB s = true → stOKB o = true := by
  intro p s o tr
  induction tr with
  | nil p => intro _; rfl
  | copy p c t2 o2 hnone htr ih =>
    intro hpre
    simp only [stOKB, Bool.and_eq_true] at hpre ⊢
    refine ⟨?_, ih hpre.2⟩
    cases hfo : tmSt none c o2 with
    | none => rfl
    | some pr =>
      obtain ⟨r1, mt1, rest1⟩ := pr
      obtain ⟨hles, x, hdropO, hlet, hnwr, hr1, hmt1⟩ := tmSt_inv hfo
      have hcd : Char.isDigit c = false := by
        rw [lowEq_digit hles]; decide
      obtain ⟨h1, ρ2, h2, h3⟩ := dig_st_tail htr (by simp [hcd]) x rest1
        hdropO hlet hnwr
      have hmk : tmSt none c t2 = some ("St".toList,
          c :: t2.takeWhile isSpaceChar ++ [x], ρ2) := by
        simp [tmSt, hles, h2, hlet, h3]
      rw [hmk] at hpre
      simp only [decide_eq_true_eq] at hpre
      rw [hr1, hmt1, h1]
      simp only [decide_eq_true_eq]
      exact hpre.1
  | fire p c t2 r mt rest o2 hfire htr ih =>
    intro hpre
    obtain ⟨hc, hpdig, x, r2, hdrop, hx, hr, hmt, hrest⟩ := tmDig_inv hfire
    rw [hr, List.nil_append]
    refine ih ?_
    have hsound := tmSound_dig p c t2 r mt rest hfire
    have h2 : stOKB (mt ++ rest) = true := by
      rw [hsound.1]; exact hpre
    exact stOK_suffix mt rest h2

/- ## Hyphen pair structure: establishment and preservation -/

/-- The pair property ignores a benign left context. -/
theorem npH_tail {a : Char} {s : List Char} (h : npH (some a) s = true) :
    npH none s = true := by
  cases s with
  | nil => rfl
  | cons c t =>
    simp only [npH, Bool.and_eq_true] at h
    exact h.2

/-- The pair property restricts to suffixes with their context. -/
theorem np_append : ∀ (u : List Char) (q : Option Char) (v : List Char),
    npH q (u ++ v) = true → npH (lastD u q) v = true := by
  intro u
  induction u with
  | nil => intro q v h; exact h
  | cons c u2 ih =>
    intro q v h
    rw [lastD_cons]
    cases q with
    | none =>
      rw [List.cons_append] at h
      exact ih (some c) v h
    | some a =>
      rw [List.cons_append] at h
      simp only [npH, Bool.and_eq_true] at h
      exact ih (some c) v h.2

/-- The head of a dropWhile result fails the predicate. -/
theorem head_dropWhile_not_space :
    ∀ (z : List Char) (x : Char) (ρ : List Char),
      z.dropWhile isSpaceChar = x :: ρ → isSpaceChar x = false := by
  intro z
  induction z with
  | nil => intro x ρ h; exact absurd h (by simp)
  | cons b z2 ih =>
    intro x ρ h
    by_cases hb : isSpaceChar b = true
    · rw [List.dropWhile_cons, hb] at h
      simp only [if_true] at h
      exact ih x ρ h
    · have hb2 : isSpaceChar b = false := by
        cases hv : isSpaceChar b
        · rfl
        · exact absurd hv hb
      rw [List.dropWhile_cons, hb2] at h
      simp only [Bool.false_eq_true, if_false, List.cons.injEq] at h
      rw [← h.1]
      exact hb2

/-- After spaces with no hyphen reachable, pair-clean strings do not
start their non-space part with a hyphen. -/
theorem no_space_hyphen :
    ∀ (t : List Char) (c : Char), isSpaceChar c = true →
      npH (some c) t = true →
      ∀ x ρ, t.dropWhile isSpaceChar = x :: ρ → x ≠ '-' := by
  intro t
  induction t with
  | nil => intro c _ _ x ρ h; exact absurd h (by simp)
  | cons b t2 ih =>
    intro c hc h x ρ hdrop
    simp only [npH, Bool.and_eq_true] at h
    by_cases hb : isSpaceChar b = true
    · rw [List.dropWhile_cons, hb] at hdrop
      simp only [if_true] at hdrop
      exact ih b hb h.2 x ρ hdrop
    · have hb2 : isSpaceChar b = false := by
        cases hv : isSpaceChar b
        · rfl
        · exact absurd hv hb
      rw [List.dropWhile_cons, hb2] at hdrop
      simp only [Bool.false_eq_true, if_false, List.cons.injEq] at hdrop
      intro hxm
      rw [← hdrop.1] at hxm
      subst hxm
      have h1 := h.1
      simp only [hyphPairOK, hc, Bool.true_and, Bool.or_eq_true,
        Bool.and_eq_true, decide_eq_true_eq] at h1
      simp at h1

/-- A hyphen always fires the hyphen pattern. -/
theorem tmHyph_hyphen (p : Option Char) (t : List Char) :
    tmHyph p '-' t = some (['-'], '-' :: t.takeWhile isSpaceChar,
      t.dropWhile isSpaceChar) := by
  simp [tmHyph]

/-- A space whose following non-space is a hyphen fires the hyphen
pattern. -/
theorem tmHyph_space_mk {c : Char} {t r2 : List Char} (p : Option Char)
    (hsp : isSpaceChar c = true)
    (hdw : t.dropWhile isSpaceChar = '-' :: r2) :
    tmHyph p c t = some (['-'],
      c :: t.takeWhile isSpaceChar ++ '-' :: r2.takeWhile isSpaceChar,
      r2.dropWhile isSpaceChar) := by
  have hcm : ¬ c = '-' := by
    intro h
    rw [h] at hsp
    exact absurd hsp (by decide)
  simp [tmHyph, hcm, hsp, hdw]

/-- Any output of the hyphen pass is pair-clean, for a compatible left
context. -/
theorem hyph_complete :
    ∀ {p s o}, Trace tmHyph p s o →
      ∀ op : Option Char,
        (∀ a, op = some a → isSpaceChar a = true →
          ∀ x ρ, s.dropWhile isSpaceChar = x :: ρ → x ≠ '-') →
        (∀ a, op = some a → a = '-' →
          ∀ b t3, s = b :: t3 → isSpaceChar b = true →
          ∃ ρ, s.dropWhile isSpaceChar = '-' :: ρ) →
        npH op o = true := by
  intro p s o tr
  induction tr with
  | nil p => intro op _ _; cases op <;> rfl
  | copy p c t2 o2 hnone htr ih =>
    intro op hc1 hc2
    have hcm : ¬ c = '-' := by
      intro h
      rw [h, tmHyph_hyphen] at hnone
      exact Option.noConfusion hnone
    have hno : ∀ r2, ¬ (isSpaceChar c = true ∧
        t2.dropWhile isSpaceChar = '-' :: r2) := by
      rintro r2 ⟨hsp, hdw⟩
      rw [tmHyph_space_mk p hsp hdw] at hnone
      exact Option.noConfusion hnone
    have hsub : npH (some c) o2 = true := by
      apply ih (some c)
      · intro a ha hsp x ρ hdrop hxm
        have hac : a = c := by injection ha with h9; exact h9.symm
        subst hxm
        exact hno ρ ⟨by rw [← hac]; exact hsp, hdrop⟩
      · intro a ha ham b t3 hbt3 hbsp
        exfalso
        have hac : a = c := by injection ha with h9; exact h9.symm
        rw [hac] at ham
        exact hcm ham
    cases op with
    | none => exact hsub
    | some a =>
      simp only [npH, Bool.and_eq_true]
      refine ⟨?_, hsub⟩
      simp only [hyphPairOK, Bool.not_eq_true', Bool.or_eq_false_iff,
        Bool.and_eq_false_iff]
      constructor
      · right
        cases hcv : decide (c = '-') with
        | false => rfl
        | true => exact absurd (of_decide_eq_true hcv) hcm
      · by_cases ham : a = '-'
        · by_cases hcs : isSpaceChar c = true
          · exfalso
            obtain ⟨ρ, hρ⟩ := hc2 a rfl ham c t2 rfl hcs
            rw [List.dropWhile_cons, hcs] at hρ
            simp only [if_true] at hρ
            exact hno ρ ⟨hcs, hρ⟩
          · right
            cases hv : isSpaceChar c
            · rfl
            · exact absurd hv hcs
        · left
          cases hv : decide (a = '-') with
          | false => rfl
          | true => exact absurd (of_decide_eq_true hv) ham
  | fire p c t2 r mt rest o2 hfire htr ih =>
    intro op hc1 hc2
    obtain ⟨hr, hcase⟩ := tmHyph_inv hfire
    have hrest : ∀ b t3, rest = b :: t3 → isSpaceChar b = false := by
      intro b t3 hb
      rcases hcase with ⟨_, _, hrw⟩ | ⟨_, r2, _, _, hrw⟩
      · exact head_dropWhile_not_space t2 b t3 (by rw [← hrw]; exact hb)
      · exact head_dropWhile_not_space r2 b t3 (by rw [← hrw]; exact hb)
    have hsub : npH (some '-') o2 = true := by
      apply ih (some '-')
      · intro a ha hsp x ρ hdrop hxm
        have ham : a = '-' := by injection ha with h9; exact h9.symm
        rw [ham] at hsp
        exact absurd hsp (by decide)
      · intro a ha ham b t3 hbt3 hbsp
        exfalso
        rw [hrest b t3 hbt3] at hbsp
        exact Bool.noConfusion hbsp
    rw [hr]
    show npH op ('-' :: o2) = true
    cases op with
    | none => exact hsub
    | some a =>
      simp only [npH, Bool.and_eq_true]
      refine ⟨?_, hsub⟩
      simp only [hyphPairOK, Bool.not_eq_true', Bool.or_eq_false_iff,
        Bool.and_eq_false_iff]
      constructor
      · left
        by_cases has : isSpaceChar a = true
        · exfalso
          rcases hcase with ⟨hcm, _, _⟩ | ⟨hcs, r2, hdw2, _, _⟩
          · refine hc1 a rfl has '-' t2 ?_ rfl
            rw [hcm]
            rw [List.dropWhile_cons]
            simp [show isSpaceChar '-' = false by decide]
          · refine hc1 a rfl has '-' (r2 : List Char) ?_ rfl
            rw [List.dropWhile_cons, hcs]
            simp only [if_true]
            exact hdw2
        · cases hv : isSpaceChar a
          · rfl
          · exact absurd hv has
      · right
        decide

/-- Digit-digit adjacencies are benign for the hyphen pattern. -/
theorem digit_pairOK {a b : Char} (ha : Char.isDigit a = true)
    (hb : Char.isDigit b = true) : hyphPairOK a b = true := by
  have ham : ¬ a = '-' := by
    intro h; rw [h] at ha; exact absurd ha (by decide)
  simp [hyphPairOK, digit_not_space ha, digit_not_space hb, ham]

/-- The digit-joining pass preserves hyphen pair-cleanliness. -/
theorem dig_np :
    ∀ {p s o}, Trace tmDig p s o →
      ∀ op : Option Char, npH op s = true →
        (p = op ∨ (∃ a b, p = some a ∧ isSpaceChar a = true ∧
          op = some b ∧ Char.isDigit b = true)) →
        npH op o = true := by
  intro p s o tr
  induction tr with
  | nil p => intro op _ _; cases op <;> rfl
  | copy p c t2 o2 hnone htr ih =>
    intro op hnp hcompat
    have hsub : npH (some c) o2 = true := by
      refine ih (some c) ?_ (Or.inl rfl)
      cases op with
      | none => exact hnp
      | some a =>
        simp only [npH, Bool.and_eq_true] at hnp
        exact hnp.2
    cases op with
    | none => exact hsub
    | some a =>
      simp only [npH, Bool.and_eq_true] at hnp ⊢
      exact ⟨hnp.1, hsub⟩
  | fire p c t2 r mt rest o2 hfire htr ih =>
    intro op hnp hcompat
    obtain ⟨hc, hpdig, x, r2, hdrop, hx, hr, hmt, hrest⟩ := tmDig_inv hfire
    obtain ⟨d, hpd, hddig⟩ := hpdig
    have hop : op = some d := by
      rcases hcompat with h1 | ⟨a, b, hpa, hasp, hopb, hbdig⟩
      · rw [← h1, hpd]
      · exfalso
        rw [hpd] at hpa
        have had : a = d := by injection hpa with h9; exact h9.symm
        rw [had] at hasp
        rw [space_not_digit hasp] at hddig
        exact Bool.noConfusion hddig
    have hga : ∃ a2, mt.getLast? = some a2 ∧ isSpaceChar a2 = true := by
      have hmtsp : ∀ a ∈ mt, isSpaceChar a = true := by
        rw [hmt]; intro a ha
        rcases List.mem_cons.mp ha with h1 | h1
        · rw [h1]; exact hc
        · exact List.mem_takeWhile_imp h1
      cases hg : mt.getLast? with
      | none => rw [hmt] at hg; simp at hg
      | some a2 => exact ⟨a2, rfl, hmtsp a2 (List.mem_of_mem_getLast? hg)⟩
    obtain ⟨a2, hga2, ha2sp⟩ := hga
    have hnp2 : npH (some d) (x :: r2) = true ∧
        npH (some x) r2 = true := by
      have hs : c :: t2 = mt ++ (x :: r2) := by
        have hsound := tmSound_dig p c t2 r mt rest hfire
        rw [← hsound.1, hrest]
      rw [hop] at hnp
      have hnp3 : npH (some d) (mt ++ (x :: r2)) = true := by
        rw [← hs]; exact hnp
      have hnp4 := np_append mt (some d) (x :: r2) hnp3
      rw [show lastD mt (some d) = some a2 from by simp [lastD, hga2]] at hnp4
      simp only [npH, Bool.and_eq_true] at hnp4
      refine ⟨?_, hnp4.2⟩
      simp only [npH, Bool.and_eq_true]
      exact ⟨digit_pairOK hddig hx, hnp4.2⟩
    rw [hr, List.nil_append]
    refine ih op ?_ ?_
    · rw [hrest, hop]
      exact hnp2.1
    · right
      refine ⟨a2, d, ?_, ha2sp, hop, hddig⟩
      simp [lastD, hga2]

/-- Pair-clean strings have only identity hyphen fires. -/
theorem npH_allId : ∀ (s : List Char), npH none s = true →
    ∀ q, allIdB tmHyph q s = true := by
  intro s
  induction s with
  | nil => intro _ q; rfl
  | cons c t ih =>
    intro h q
    have ht : npH (some c) t = true := h
    simp only [allIdB, Bool.and_eq_true]
    refine ⟨?_, ih (npH_tail ht) (some c)⟩
    cases hfo : tmHyph q c t with
    | none => rfl
    | some pr =>
      obtain ⟨r1, mt1, rest1⟩ := pr
      obtain ⟨hr1, hcase⟩ := tmHyph_inv hfo
      rcases hcase with ⟨hcm, hmt1, hrest1⟩ | ⟨hcs, r2, hdw, hmt1, hrest1⟩
      · have htw : t.takeWhile isSpaceChar = [] := by
          cases t with
          | nil => rfl
          | cons b t2 =>
            simp only [npH, Bool.and_eq_true] at ht
            have h1 := ht.1
            rw [hcm] at h1
            have h2 : isSpaceChar b = false := by
              have h3 := by simpa [hyphPairOK] using h1
              exact h3.2
            rw [List.takeWhile_cons, h2]
            simp
        rw [hr1, hmt1, htw, hcm]
        simp
      · exfalso
        exact no_space_hyphen t c hcs ht '-' r2 hdw rfl

/-- The first non-space character survives the digit-joining pass. -/
theorem dig_fns :
    ∀ {p t o}, Trace tmDig p t o →
      (o.dropWhile isSpaceChar).head? = (t.dropWhile isSpaceChar).head? := by
  intro p t o tr
  induction tr with
  | nil p => rfl
  | copy p c t2 o2 hnone htr ih =>
    by_cases hsp : isSpaceChar c = true
    · rw [List.dropWhile_cons, List.dropWhile_cons, hsp]
      simp only [if_true]
      exact ih
    · have hsp2 : isSpaceChar c = false := by
        cases hv : isSpaceChar c
        · rfl
        · exact absurd hv hsp
      rw [List.dropWhile_cons, List.dropWhile_cons, hsp2]
      simp
  | fire p c t2 r mt rest o2 hfire htr ih =>
    obtain ⟨hc, hpdig, x, r2, hdrop, hx, hr, hmt, hrest⟩ := tmDig_inv hfire
    rw [hr, List.nil_append, ih, hrest]
    rw [List.dropWhile_cons, digit_not_space hx]
    simp only [Bool.false_eq_true, if_false]
    rw [List.dropWhile_cons, hc]
    simp only [if_true]
    rw [hdrop]

/-- Any output of the digit-joining pass has no remaining digit-joining
fire, for a compatible context. -/
theorem dig_complete :
    ∀ {p s o}, Trace tmDig p s o →
      ∀ q : Option Char,
        ((∃ dq, q = some dq ∧ Char.isDigit dq = true) →
          ((∃ dp, p = some dp ∧ Char.isDigit dp = true) ∨
           (∃ dh t3, s = dh :: t3 ∧ Char.isDigit dh = true))) →
        noFireB tmDig q o = true := by
  intro p s o tr
  induction tr with
  | nil p => intro q _; rfl
  | copy p c t2 o2 hnone htr ih =>
    intro q hcompat
    simp only [noFireB, Bool.and_eq_true]
    constructor
    · cases hfo : tmDig q c o2 with
      | none => rfl
      | some pr =>
        exfalso
        obtain ⟨r1, mt1, rest1⟩ := pr
        obtain ⟨hc1, hqd, x1, r1b, hdropO, hx1, _⟩ := tmDig_inv hfo
        obtain ⟨dq, hdq, hdqd⟩ := hqd
        rcases hcompat ⟨dq, hdq, hdqd⟩ with ⟨dp, hdp, hdpd⟩ | ⟨dh, t3, hsh, hdh⟩
        · have hfns := dig_fns htr
          rw [hdropO] at hfns
          cases hdt : t2.dropWhile isSpaceChar with
          | nil => rw [hdt] at hfns; simp at hfns
          | cons x2 r2b =>
            rw [hdt] at hfns
            simp only [List.head?_cons, Option.some.injEq] at hfns
            have hx2 : Char.isDigit x2 = true := by rw [← hfns]; exact hx1
            have hmk : tmDig p c t2 =
                some ([], c :: t2.takeWhile isSpaceChar, x2 :: r2b) := by
              simp [tmDig, hc1, hdp, hdpd, hdt, hx2]
            rw [hmk] at hnone
            exact Option.noConfusion hnone
        · have hcd : c = dh := by injection hsh
          rw [hcd, digit_not_space hdh] at hc1
          exact Bool.noConfusion hc1
    · refine ih (some c) ?_
      rintro ⟨dc, hdc, hdcd⟩
      left
      exact ⟨dc, hdc, hdcd⟩
  | fire p c t2 r mt rest o2 hfire htr ih =>
    intro q hcompat
    obtain ⟨hc, hpdig, x, r2, hdrop, hx, hr, hmt, hrest⟩ := tmDig_inv hfire
    rw [hr, List.nil_append]
    refine ih q ?_
    intro _
    right
    exact ⟨x, r2, hrest, hx⟩

/-- A string with no fires has only identity fires. -/
theorem noFire_allId (tm : TryFun) :
    ∀ (s : List Char) (p : Option Char), noFireB tm p s = true →
      allIdB tm p s = true := by
  intro s
  induction s with
  | nil => intro p _; rfl
  | cons c t ih =>
    intro p h
    simp only [noFireB, Bool.and_eq_true, Option.isNone_iff_eq_none] at h
    simp only [allIdB, Bool.and_eq_true, h.1, Bool.true_and]
    exact ih (some c) h.2

/- ## Assembly: the cleaned line is a fixed point of every pass -/

/-- Folding identity passes is the identity. -/
theorem foldl_subBy_id (toks : List (List Char)) (y : List Char)
    (h : ∀ tok ∈ toks, subBy (tmFuzzy tok) y = y) :
    toks.foldl (fun s tok => subBy (tmFuzzy tok) s) y = y := by
  induction toks with
  | nil => rfl
  | cons t ts ih =>
    simp only [List.foldl_cons]
    rw [h t (by simp)]
    exact ih (fun tok htok => h tok (by simp [htok]))

/-- No-cross conditions reduce to finitely many checks. -/
theorem noCross_of_checks (tokp w : List Char) (hne : tokp ≠ [])
    (hch : ∀ j, j < w.length →
      (lowerStr tokp).isPrefixOf (lowerStr (List.drop j w)) = false) :
    NoCrossP tokp w := by
  intro j
  by_cases hj : j < w.length
  · exact hch j hj
  · have hd : List.drop j w = [] := List.drop_eq_nil_of_le (Nat.le_of_not_lt hj)
    rw [hd]
    cases tokp with
    | nil => exact absurd rfl hne
    | cons a u => rfl

/-- All-letter check in elementwise form. -/
theorem letters_of_all (tok : List Char) (h : tok.all isLetterChar = true) :
    ∀ a ∈ tok, isLetterChar a = true :=
  fun a ha => List.all_eq_true.mp h a ha

/-- A line on which every pass has only identity fires is a fixed point
of the cleaning function. -/
theorem clean_fix (y : List Char)
    (hA : ∀ tok ∈ FIX_TOKENS, allIdB (tmFuzzy tok) none y = true)
    (hB : stOKB y = true) (hC : npH none y = true)
    (hD : noFireB tmDig none y = true) :
    clean_line_for_matching y = y := by
  unfold clean_line_for_matching
  rw [foldl_subBy_id FIX_TOKENS y
      (fun tok htok => subBy_of_allId (tmSound_fuzzy tok) (hA tok htok)),
    subBy_of_allId tmSound_st (stOK_allId y hB none),
    subBy_of_allId tmSound_hyph (npH_allId y hC none),
    subBy_of_allId tmSound_dig (noFire_allId tmDig y none hD)]

/-- Every cleaned line satisfies the four normality properties that
make each pass an identity. -/
theorem clean_normal (x : List Char) :
    (∀ tok ∈ FIX_TOKENS,
      allIdB (tmFuzzy tok) none (clean_line_for_matching x) = true) ∧
    stOKB (clean_line_for_matching x) = true ∧
    npH none (clean_line_for_matching x) = true ∧
    noFireB tmDig none (clean_line_for_matching x) = true := by
  have hl1 := letters_of_all ("Schöck".toList) (by decide)
  have hl2 := letters_of_all ("Schoeck".toList) (by decide)
  have hl3 := letters_of_all ("Isokorb".toList) (by decide)
  have hl4 := letters_of_all ("Tronsole".toList) (by decide)
  have hl5 := letters_of_all ("Tronsolen".toList) (by decide)
  have hl6 := letters_of_all ("Stacon".toList) (by decide)
  have hl7 := letters_of_all ("Brandschutzmanschette".toList) (by decide)
  have ha1_1 : allIdB (tmFuzzy ("Schöck".toList)) none (subBy (tmFuzzy ("Schöck".toList)) x) = true :=
    fz_master ("Schöck".toList) ("Schöck".toList) hl1
      (noCross_of_checks _ _ (by decide) (by decide)) (Or.inl rfl)
      (subBy_trace _ (tmSound_fuzzy ("Schöck".toList)) x)
      (Or.inl rfl) none (fun h => h)
  have ha1_2 : allIdB (tmFuzzy ("Schöck".toList)) none (subBy (tmFuzzy ("Schoeck".toList)) (subBy (tmFuzzy ("Schöck".toList)) x)) = true :=
    fz_master ("Schöck".toList) ("Schoeck".toList) hl2
      (noCross_of_checks _ _ (by decide) (by decide))
      (Or.inr (Or.inl (by decide)))
      (subBy_trace _ (tmSound_fuzzy ("Schoeck".toList)) (subBy (tmFuzzy ("Schöck".toList)) x))
      (Or.inr ha1_1) none (fun h => h)
  have ha1_3 : allIdB (tmFuzzy ("Schöck".toList)) none (subBy (tmFuzzy ("Isokorb".toList)) (subBy (tmFuzzy ("Schoeck".toList)) (subBy (tmFuzzy ("Schöck".toList)) x))) = true :=
    fz_master ("Schöck".toList) ("Isokorb".toList) hl3
      (noCross_of_checks _ _ (by decide) (by decide))
      (Or.inr (Or.inl (by decide)))
      (subBy_trace _ (tmSound_fuzzy ("Isokorb".toList)) (subBy (tmFuzzy ("Schoeck".toList)) (subBy (tmFuzzy ("Schöck".toList)) x)))
      (Or.inr ha1_2) none (fun h => h)
  have ha1_4 : allIdB (tmFuzzy ("Schöck".toList)) none (subBy (tmFuzzy ("Tronsole".toList)) (subBy (tmFuzzy ("Isokorb".toList)) (subBy (tmFuzzy ("Schoeck".toList)) (subBy (tmFuzzy ("Schöck".toList)) x)))) = true :=
    fz_master ("Schöck".toList) ("Tronsole".toList) hl4
      (noCross_of_checks _ _ (by decide) (by decide))
      (Or.inr (Or.inl (by decide)))
      (subBy_trace _ (tmSound_fuzzy ("Tronsole".toList)) (subBy (tmFuzzy ("Isokorb".toList)) (subBy (tmFuzzy ("Schoeck".toList)) (subBy (tmFuzzy ("Schöck".toList)) x))))
      (Or.inr ha1_3) none (fun h => h)
  have ha1_5 : allIdB (tmFuzzy ("Schöck".toList)) none (subBy (tmFuzzy ("Tronsolen".toList)) (subBy (tmFuzzy ("Tronsole".toList)) (subBy (tmFuzzy ("Isokorb".toList)) (subBy (tmFuzzy ("Schoeck".toList)) (subBy (tmFuzzy ("Schöck".toList)) x))))) = true :=
    fz_master ("Schöck".toList) ("Tronsolen".toList) hl5
      (noCross_of_checks _ _ (by decide) (by decide))
      (Or.inr (Or.inl (by decide)))
      (subBy_trace _ (tmSound_fuzzy ("Tronsolen".toList)) (subBy (tmFuzzy ("Tronsole".toList)) (subBy (tmFuzzy ("Isokorb".toList)) (subBy (tmFuzzy ("Schoeck".toList)) (subBy (tmFuzzy ("Schöck".toList)) x)))))
      (Or.inr ha1_4) none (fun h => h)
  have ha1_6 : allIdB (tmFuzzy ("Schöck".toList)) none (subBy (tmFuzzy ("Stacon".toList)) (subBy (tmFuzzy ("Tronsolen".toList)) (subBy (tmFuzzy ("Tronsole".toList)) (subBy (tmFuzzy ("Isokorb".toList)) (subBy (tmFuzzy ("Schoeck".toList)) (subBy (tmFuzzy ("Schöck".toList)) x)))))) = true :=
    fz_master ("Schöck".toList) ("Stacon".toList) hl6
      (noCross_of_checks _ _ (by decide) (by decide))
      (Or.inr (Or.inl (by decide)))
      (subBy_trace _ (tmSound_fuzzy ("Stacon".toList)) (subBy (tmFuzzy ("Tronsolen".toList)) (subBy (tmFuzzy ("Tronsole".toList)) (subBy (tmFuzzy ("Isokorb".toList)) (subBy (tmFuzzy ("Schoeck".toList)) (subBy (tmFuzzy ("Schöck".toList)) x))))))
      (Or.inr ha1_5) none (fun h => h)
  have ha1_7 : allIdB (tmFuzzy ("Schöck".toList)) none (subBy (tmFuzzy ("Brandschutzmanschette".toList)) (subBy (tmFuzzy ("Stacon".toList)) (subBy (tmFuzzy ("Tronsolen".toList)) (subBy (tmFuzzy ("Tronsole".toList)) (subBy (tmFuzzy ("Isokorb".toList)) (subBy (tmFuzzy ("Schoeck".toList)) (subBy (tmFuzzy ("Schöck".toList)) x))))))) = true :=
    fz_master ("Schöck".toList) ("Brandschutzmanschette".toList) hl7
      (noCross_of_checks _ _ (by decide) (by decide))
      (Or.inr (Or.inl (by decide)))
      (subBy_trace _ (tmSound_fuzzy ("Brandschutzmanschette".toList)) (subBy (tmFuzzy ("Stacon".toList)) (subBy (tmFuzzy ("Tronsolen".toList)) (subBy (tmFuzzy ("Tronsole".toList)) (subBy (tmFuzzy ("Isokorb".toList)) (subBy (tmFuzzy ("Schoeck".toList)) (subBy (tmFuzzy ("Schöck".toList)) x)))))))
      (Or.inr ha1_6) none (fun h => h)
  have ha2_2 : allIdB (tmFuzzy ("Schoeck".toList)) none (subBy (tmFuzzy ("Schoeck".toList)) (subBy (tmFuzzy ("Schöck".toList)) x)) = true :=
    fz_master ("Schoeck".toList) ("Schoeck".toList) hl2
      (noCross_of_checks _ _ (by decide) (by decide)) (Or.inl rfl)
      (subBy_trace _ (tmSound_fuzzy ("Schoeck".toList)) (subBy (tmFuzzy ("Schöck".toList)) x))
      (Or.inl rfl) none (fun h => h)
  have ha2_3 : allIdB (tmFuzzy ("Schoeck".toList)) none (subBy (tmFuzzy ("Isokorb".toList)) (subBy (tmFuzzy ("Schoeck".toList)) (subBy (tmFuzzy ("Schöck".toList)) x))) = true :=
    fz_master ("Schoeck".toList) ("Isokorb".toList) hl3
      (noCross_of_checks _ _ (by decide) (by decide))
      (Or.inr (Or.inl (by decide)))
      (subBy_trace _ (tmSound_fuzzy ("Isokorb".toList)) (subBy (tmFuzzy ("Schoeck".toList)) (subBy (tmFuzzy ("Schöck".toList)) x)))
      (Or.inr ha2_2) none (fun h => h)
  have ha2_4 : allIdB (tmFuzzy ("Schoeck".toList)) none (subBy (tmFuzzy ("Tronsole".toList)) (subBy (tmFuzzy ("Isokorb".toList)) (subBy (tmFuzzy ("Schoeck".toList)) (subBy (tmFuzzy ("Schöck".toList)) x)))) = true :=
    fz_master ("Schoeck".toList) ("Tronsole".toList) hl4
      (noCross_of_checks _ _ (by decide) (by decide))
      (Or.inr (Or.inl (by decide)))
      (subBy_trace _ (tmSound_fuzzy ("Tronsole".toList)) (subBy (tmFuzzy ("Isokorb".toList)) (subBy (tmFuzzy ("Schoeck".toList)) (subBy (tmFuzzy ("Schöck".toList)) x))))
      (Or.inr ha2_3) none (fun h => h)
  have ha2_5 : allIdB (tmFuzzy ("Schoeck".toList)) none (subBy (tmFuzzy ("Tronsolen".toList)) (subBy (tmFuzzy ("Tronsole".toList)) (subBy (tmFuzzy ("Isokorb".toList)) (subBy (tmFuzzy ("Schoeck".toList)) (subBy (tmFuzzy ("Schöck".toList)) x))))) = true :=
    fz_master ("Schoeck".toList) ("Tronsolen".toList) hl5
      (noCross_of_checks _ _ (by decide) (by decide))
      (Or.inr (Or.inl (by decide)))
      (subBy_trace _ (tmSound_fuzzy ("Tronsolen".toList)) (subBy (tmFuzzy ("Tronsole".toList)) (subBy (tmFuzzy ("Isokorb".toList)) (subBy (tmFuzzy ("Schoeck".toList)) (subBy (tmFuzzy ("Schöck".toList)) x)))))
      (Or.inr ha2_4) none (fun h => h)
  have ha2_6 : allIdB (tmFuzzy ("Schoeck".toList)) none (subBy (tmFuzzy ("Stacon".toList)) (subBy (tmFuzzy ("Tronsolen".toList)) (subBy (tmFuzzy ("Tronsole".toList)) (subBy (tmFuzzy ("Isokorb".toList)) (subBy (tmFuzzy ("Schoeck".toList)) (subBy (tmFuzzy ("Schöck".toList)) x)))))) = true :=
    fz_master ("Schoeck".toList) ("Stacon".toList) hl6
      (noCross_of_checks _ _ (by decide) (by decide))
      (Or.inr (Or.inl (by decide)))
      (subBy_trace _ (tmSound_fuzzy ("Stacon".toList)) (subBy (tmFuzzy ("Tronsolen".toList)) (subBy (tmFuzzy ("Tronsole".toList)) (subBy (tmFuzzy ("Isokorb".toList)) (subBy (tmFuzzy ("Schoeck".toList)) (subBy (tmFuzzy ("Schöck".toList)) x))))))
      (Or.inr ha2_5) none (fun h => h)
  have ha2_7 : allIdB (tmFuzzy ("Schoeck".toList)) none (subBy (tmFuzzy ("Brandschutzmanschette".toList)) (subBy (tmFuzzy ("Stacon".toList)) (subBy (tmFuzzy ("Tronsolen".toList)) (subBy (tmFuzzy ("Tronsole".toList)) (subBy (tmFuzzy ("Isokorb".toList)) (subBy (tmFuzzy ("Schoeck".toList)) (subBy (tmFuzzy ("Schöck".toList)) x))))))) = true :=
    fz_master ("Schoeck".toList) ("Brandschutzmanschette".toList) hl7
      (noCross_of_checks _ _ (by decide) (by decide))
      (Or.inr (Or.inl (by decide)))
      (subBy_trace _ (tmSound_fuzzy ("Brandschutzmanschette".toList)) (subBy (tmFuzzy ("Stacon".toList)) (subBy (tmFuzzy ("Tronsolen".toList)) (subBy (tmFuzzy ("Tronsole".toList)) (subBy (tmFuzzy ("Isokorb".toList)) (subBy (tmFuzzy ("Schoeck".toList)) (subBy (tmFuzzy ("Schöck".toList)) x)))))))
      (Or.inr ha2_6) none (fun h => h)
  have ha3_3 : allIdB (tmFuzzy ("Isokorb".toList)) none (subBy (tmFuzzy ("Isokorb".toList)) (subBy (tmFuzzy ("Schoeck".toList)) (subBy (tmFuzzy ("Schöck".toList)) x))) = true :=
    fz_master ("Isokorb".toList) ("Isokorb".toList) hl3
      (noCross_of_checks _ _ (by decide) (by decide)) (Or.inl rfl)
      (subBy_trace _ (tmSound_fuzzy ("Isokorb".toList)) (subBy (tmFuzzy ("Schoeck".toList)) (subBy (tmFuzzy ("Schöck".toList)) x)))
      (Or.inl rfl) none (fun h => h)
  have ha3_4 : allIdB (tmFuzzy ("Isokorb".toList)) none (subBy (tmFuzzy ("Tronsole".toList)) (subBy (tmFuzzy ("Isokorb".toList)) (subBy (tmFuzzy ("Schoeck".toList)) (subBy (tmFuzzy ("Schöck".toList)) x)))) = true :=
    fz_master ("Isokorb".toList) ("Tronsole".toList) hl4
      (noCross_of_checks _ _ (by decide) (by decide))
      (Or.inr (Or.inl (by decide)))
      (subBy_trace _ (tmSound_fuzzy ("Tronsole".toList)) (subBy (tmFuzzy ("Isokorb".toList)) (subBy (tmFuzzy ("Schoeck".toList)) (subBy (tmFuzzy ("Schöck".toList)) x))))
      (Or.inr ha3_3) none (fun h => h)
  have ha3_5 : allIdB (tmFuzzy ("Isokorb".toList)) none (subBy (tmFuzzy ("Tronsolen".toList)) (subBy (tmFuzzy ("Tronsole".toList)) (subBy (tmFuzzy ("Isokorb".toList)) (subBy (tmFuzzy ("Schoeck".toList)) (subBy (tmFuzzy ("Schöck".toList)) x))))) = true :=
    fz_master ("Isokorb".toList) ("Tronsolen".toList) hl5
      (noCross_of_checks _ _ (by decide) (by decide))
      (Or.inr (Or.inl (by decide)))
      (subBy_trace _ (tmSound_fuzzy ("Tronsolen".toList)) (subBy (tmFuzzy ("Tronsole".toList)) (subBy (tmFuzzy ("Isokorb".toList)) (subBy (tmFuzzy ("Schoeck".toList)) (subBy (tmFuzzy ("Schöck".toList)) x)))))
      (Or.inr ha3_4) none (fun h => h)
  have ha3_6 : allIdB (tmFuzzy ("Isokorb".toList)) none (subBy (tmFuzzy ("Stacon".toList)) (subBy (tmFuzzy ("Tronsolen".toList)) (subBy (tmFuzzy ("Tronsole".toList)) (subBy (tmFuzzy ("Isokorb".toList)) (subBy (tmFuzzy ("Schoeck".toList)) (subBy (tmFuzzy ("Schöck".toList)) x)))))) = true :=
    fz_master ("Isokorb".toList) ("Stacon".toList) hl6
      (noCross_of_checks _ _ (by decide) (by decide))
      (Or.inr (Or.inl (by decide)))
      (subBy_trace _ (tmSound_fuzzy ("Stacon".toList)) (subBy (tmFuzzy ("Tronsolen".toList)) (subBy (tmFuzzy ("Tronsole".toList)) (subBy (tmFuzzy ("Isokorb".toList)) (subBy (tmFuzzy ("Schoeck".toList)) (subBy (tmFuzzy ("Schöck".toList)) x))))))
      (Or.inr ha3_5) none (fun h => h)
  have ha3_7 : allIdB (tmFuzzy ("Isokorb".toList)) none (subBy (tmFuzzy ("Brandschutzmanschette".toList)) (subBy (tmFuzzy ("Stacon".toList)) (subBy (tmFuzzy ("Tronsolen".toList)) (subBy (tmFuzzy ("Tronsole".toList)) (subBy (tmFuzzy ("Isokorb".toList)) (subBy (tmFuzzy ("Schoeck".toList)) (subBy (tmFuzzy ("Schöck".toList)) x))))))) = true :=
    fz_master ("Isokorb".toList) ("Brandschutzmanschette".toList) hl7
      (noCross_of_checks _ _ (by decide) (by decide))
      (Or.inr (Or.inl (by decide)))
      (subBy_trace _ (tmSound_fuzzy ("Brandschutzmanschette".toList)) (subBy (tmFuzzy ("Stacon".toList)) (subBy (tmFuzzy ("Tronsolen".toList)) (subBy (tmFuzzy ("Tronsole".toList)) (subBy (tmFuzzy ("Isokorb".toList)) (subBy (tmFuzzy ("Schoeck".toList)) (subBy (tmFuzzy ("Schöck".toList)) x)))))))
      (Or.inr ha3_6) none (fun h => h)
  have ha4_4 : allIdB (tmFuzzy ("Tronsole".toList)) none (subBy (tmFuzzy ("Tronsole".toList)) (subBy (tmFuzzy ("Isokorb".toList)) (subBy (tmFuzzy ("Schoeck".toList)) (subBy (tmFuzzy ("Schöck".toList)) x)))) = true :=
    fz_master ("Tronsole".toList) ("Tronsole".toList) hl4
      (noCross_of_checks _ _ (by decide) (by decide)) (Or.inl rfl)
      (subBy_trace _ (tmSound_fuzzy ("Tronsole".toList)) (subBy (tmFuzzy ("Isokorb".toList)) (subBy (tmFuzzy ("Schoeck".toList)) (subBy (tmFuzzy ("Schöck".toList)) x))))
      (Or.inl rfl) none (fun h => h)
  have ha4_5 : allIdB (tmFuzzy ("Tronsole".toList)) none (subBy (tmFuzzy ("Tronsolen".toList)) (subBy (tmFuzzy ("Tronsole".toList)) (subBy (tmFuzzy ("Isokorb".toList)) (subBy (tmFuzzy ("Schoeck".toList)) (subBy (tmFuzzy ("Schöck".toList)) x))))) = true :=
    fz_master ("Tronsole".toList) ("Tronsolen".toList) hl5
      (noCross_of_checks _ _ (by decide) (by decide))
      (Or.inr (Or.inl (by decide)))
      (subBy_trace _ (tmSound_fuzzy ("Tronsolen".toList)) (subBy (tmFuzzy ("Tronsole".toList)) (subBy (tmFuzzy ("Isokorb".toList)) (subBy (tmFuzzy ("Schoeck".toList)) (subBy (tmFuzzy ("Schöck".toList)) x)))))
      (Or.inr ha4_4) none (fun h => h)
  have ha4_6 : allIdB (tmFuzzy ("Tronsole".toList)) none (subBy (tmFuzzy ("Stacon".toList)) (subBy (tmFuzzy ("Tronsolen".toList)) (subBy (tmFuzzy ("Tronsole".toList)) (subBy (tmFuzzy ("Isokorb".toList)) (subBy (tmFuzzy ("Schoeck".toList)) (subBy (tmFuzzy ("Schöck".toList)) x)))))) = true :=
    fz_master ("Tronsole".toList) ("Stacon".toList) hl6
      (noCross_of_checks _ _ (by decide) (by decide))
      (Or.inr (Or.inl (by decide)))
      (subBy_trace _ (tmSound_fuzzy ("Stacon".toList)) (subBy (tmFuzzy ("Tronsolen".toList)) (subBy (tmFuzzy ("Tronsole".toList)) (subBy (tmFuzzy ("Isokorb".toList)) (subBy (tmFuzzy ("Schoeck".toList)) (subBy (tmFuzzy ("Schöck".toList)) x))))))
      (Or.inr ha4_5) none (fun h => h)
  have ha4_7 : allIdB (tmFuzzy ("Tronsole".toList)) none (subBy (tmFuzzy ("Brandschutzmanschette".toList)) (subBy (tmFuzzy ("Stacon".toList)) (subBy (tmFuzzy ("Tronsolen".toList)) (subBy (tmFuzzy ("Tronsole".toList)) (subBy (tmFuzzy ("Isokorb".toList)) (subBy (tmFuzzy ("Schoeck".toList)) (subBy (tmFuzzy ("Schöck".toList)) x))))))) = true :=
    fz_master ("Tronsole".toList) ("Brandschutzmanschette".toList) hl7
      (noCross_of_checks _ _ (by decide) (by decide))
      (Or.inr (Or.inl (by decide)))
      (subBy_trace _ (tmSound_fuzzy ("Brandschutzmanschette".toList)) (subBy (tmFuzzy ("Stacon".toList)) (subBy (tmFuzzy ("Tronsolen".toList)) (subBy (tmFuzzy ("Tronsole".toList)) (subBy (tmFuzzy ("Isokorb".toList)) (subBy (tmFuzzy ("Schoeck".toList)) (subBy (tmFuzzy ("Schöck".toList)) x)))))))
      (Or.inr ha4_6) none (fun h => h)
  have ha5_5 : allIdB (tmFuzzy ("Tronsolen".toList)) none (subBy (tmFuzzy ("Tronsolen".toList)) (subBy (tmFuzzy ("Tronsole".toList)) (subBy (tmFuzzy ("Isokorb".toList)) (subBy (tmFuzzy ("Schoeck".toList)) (subBy (tmFuzzy ("Schöck".toList)) x))))) = true :=
    fz_master ("Tronsolen".toList) ("Tronsolen".toList) hl5
      (noCross_of_checks _ _ (by decide) (by decide)) (Or.inl rfl)
      (subBy_trace _ (tmSound_fuzzy ("Tronsolen".toList)) (subBy (tmFuzzy ("Tronsole".toList)) (subBy (tmFuzzy ("Isokorb".toList)) (subBy (tmFuzzy ("Schoeck".toList)) (subBy (tmFuzzy ("Schöck".toList)) x)))))
      (Or.inl rfl) none (fun h => h)
  have ha5_6 : allIdB (tmFuzzy ("Tronsolen".toList)) none (subBy (tmFuzzy ("Stacon".toList)) (subBy (tmFuzzy ("Tronsolen".toList)) (subBy (tmFuzzy ("Tronsole".toList)) (subBy (tmFuzzy ("Isokorb".toList)) (subBy (tmFuzzy ("Schoeck".toList)) (subBy (tmFuzzy ("Schöck".toList)) x)))))) = true :=
    fz_master ("Tronsolen".toList) ("Stacon".toList) hl6
      (noCross_of_checks _ _ (by decide) (by decide))
      (Or.inr (Or.inl (by decide)))
      (subBy_trace _ (tmSound_fuzzy ("Stacon".toList)) (subBy (tmFuzzy ("Tronsolen".toList)) (subBy (tmFuzzy ("Tronsole".toList)) (subBy (tmFuzzy ("Isokorb".toList)) (subBy (tmFuzzy ("Schoeck".toList)) (subBy (tmFuzzy ("Schöck".toList)) x))))))
      (Or.inr ha5_5) none (fun h => h)
  have ha5_7 : allIdB (tmFuzzy ("Tronsolen".toList)) none (subBy (tmFuzzy ("Brandschutzmanschette".toList)) (subBy (tmFuzzy ("Stacon".toList)) (subBy (tmFuzzy ("Tronsolen".toList)) (subBy (tmFuzzy ("Tronsole".toList)) (subBy (tmFuzzy ("Isokorb".toList)) (subBy (tmFuzzy ("Schoeck".toList)) (subBy (tmFuzzy ("Schöck".toList)) x))))))) = true :=
    fz_master ("Tronsolen".toList) ("Brandschutzmanschette".toList) hl7
      (noCross_of_checks _ _ (by decide) (by decide))
      (Or.inr (Or.inl (by decide)))
      (subBy_trace _ (tmSound_fuzzy ("Brandschutzmanschette".toList)) (subBy (tmFuzzy ("Stacon".toList)) (subBy (tmFuzzy ("Tronsolen".toList)) (subBy (tmFuzzy ("Tronsole".toList)) (subBy (tmFuzzy ("Isokorb".toList)) (subBy (tmFuzzy ("Schoeck".toList)) (subBy (tmFuzzy ("Schöck".toList)) x)))))))
      (Or.inr ha5_6) none (fun h => h)
  have ha6_6 : allIdB (tmFuzzy ("Stacon".toList)) none (subBy (tmFuzzy ("Stacon".toList)) (subBy (tmFuzzy ("Tronsolen".toList)) (subBy (tmFuzzy ("Tronsole".toList)) (subBy (tmFuzzy ("Isokorb".toList)) (subBy (tmFuzzy ("Schoeck".toList)) (subBy (tmFuzzy ("Schöck".toList)) x)))))) = true :=
    fz_master ("Stacon".toList) ("Stacon".toList) hl6
      (noCross_of_checks _ _ (by decide) (by decide)) (Or.inl rfl)
      (subBy_trace _ (tmSound_fuzzy ("Stacon".toList)) (subBy (tmFuzzy ("Tronsolen".toList)) (subBy (tmFuzzy ("Tronsole".toList)) (subBy (tmFuzzy ("Isokorb".toList)) (subBy (tmFuzzy ("Schoeck".toList)) (subBy (tmFuzzy ("Schöck".toList)) x))))))
      (Or.inl rfl) none (fun h => h)
  have ha6_7 : allIdB (tmFuzzy ("Stacon".toList)) none (subBy (tmFuzzy ("Brandschutzmanschette".toList)) (subBy (tmFuzzy ("Stacon".toList)) (subBy (tmFuzzy ("Tronsolen".toList)) (subBy (tmFuzzy ("Tronsole".toList)) (subBy (tmFuzzy ("Isokorb".toList)) (subBy (tmFuzzy ("Schoeck".toList)) (subBy (tmFuzzy ("Schöck".toList)) x))))))) = true :=
    fz_master ("Stacon".toList) ("Brandschutzmanschette".toList) hl7
      (noCross_of_checks _ _ (by decide) (by decide))
      (Or.inr (Or.inl (by decide)))
      (subBy_trace _ (tmSound_fuzzy ("Brandschutzmanschette".toList)) (subBy (tmFuzzy ("Stacon".toList)) (subBy (tmFuzzy ("Tronsolen".toList)) (subBy (tmFuzzy ("Tronsole".toList)) (subBy (tmFuzzy ("Isokorb".toList)) (subBy (tmFuzzy ("Schoeck".toList)) (subBy (tmFuzzy ("Schöck".toList)) x)))))))
      (Or.inr ha6_6) none (fun h => h)
  have ha7_7 : allIdB (tmFuzzy ("Brandschutzmanschette".toList)) none (subBy (tmFuzzy ("Brandschutzmanschette".toList)) (subBy (tmFuzzy ("Stacon".toList)) (subBy (tmFuzzy ("Tronsolen".toList)) (subBy (tmFuzzy ("Tronsole".toList)) (subBy (tmFuzzy ("Isokorb".toList)) (subBy (tmFuzzy ("Schoeck".toList)) (subBy (tmFuzzy ("Schöck".toList)) x))))))) = true :=
    fz_master ("Brandschutzmanschette".toList) ("Brandschutzmanschette".toList) hl7
      (noCross_of_checks _ _ (by decide) (by decide)) (Or.inl rfl)
      (subBy_trace _ (tmSound_fuzzy ("Brandschutzmanschette".toList)) (subBy (tmFuzzy ("Stacon".toList)) (subBy (tmFuzzy ("Tronsolen".toList)) (subBy (tmFuzzy ("Tronsole".toList)) (subBy (tmFuzzy ("Isokorb".toList)) (subBy (tmFuzzy ("Schoeck".toList)) (subBy (tmFuzzy ("Schöck".toList)) x)))))))
      (Or.inl rfl) none (fun h => h)
  have hs1 : allIdB (tmFuzzy ("Schöck".toList)) none (subBy tmSt (subBy (tmFuzzy ("Brandschutzmanschette".toList)) (subBy (tmFuzzy ("Stacon".toList)) (subBy (tmFuzzy ("Tronsolen".toList)) (subBy (tmFuzzy ("Tronsole".toList)) (subBy (tmFuzzy ("Isokorb".toList)) (subBy (tmFuzzy ("Schoeck".toList)) (subBy (tmFuzzy ("Schöck".toList)) x)))))))) = true :=
    st_fz ("Schöck".toList) hl1
      (noCross_of_checks _ _ (by decide) (by decide))
      (by
        intro c0 l2 w2 htok h1 h2
        injection htok with e1 e2
        injection e2 with e3 e4
        rw [← e3] at h2
        exact absurd h2 (by decide))
      (subBy_trace _ tmSound_st (subBy (tmFuzzy ("Brandschutzmanschette".toList)) (subBy (tmFuzzy ("Stacon".toList)) (subBy (tmFuzzy ("Tronsolen".toList)) (subBy (tmFuzzy ("Tronsole".toList)) (subBy (tmFuzzy ("Isokorb".toList)) (subBy (tmFuzzy ("Schoeck".toList)) (subBy (tmFuzzy ("Schöck".toList)) x)))))))) ha1_7 none (fun h => h)
  have hs2 : allIdB (tmFuzzy ("Schoeck".toList)) none (subBy tmSt (subBy (tmFuzzy ("Brandschutzmanschette".toList)) (subBy (tmFuzzy ("Stacon".toList)) (subBy (tmFuzzy ("Tronsolen".toList)) (subBy (tmFuzzy ("Tronsole".toList)) (subBy (tmFuzzy ("Isokorb".toList)) (subBy (tmFuzzy ("Schoeck".toList)) (subBy (tmFuzzy ("Schöck".toList)) x)))))))) = true :=
    st_fz ("Schoeck".toList) hl2
      (noCross_of_checks _ _ (by decide) (by decide))
      (by
        intro c0 l2 w2 htok h1 h2
        injection htok with e1 e2
        injection e2 with e3 e4
        rw [← e3] at h2
        exact absurd h2 (by decide))
      (subBy_trace _ tmSound_st (subBy (tmFuzzy ("Brandschutzmanschette".toList)) (subBy (tmFuzzy ("Stacon".toList)) (subBy (tmFuzzy ("Tronsolen".toList)) (subBy (tmFuzzy ("Tronsole".toList)) (subBy (tmFuzzy ("Isokorb".toList)) (subBy (tmFuzzy ("Schoeck".toList)) (subBy (tmFuzzy ("Schöck".toList)) x)))))))) ha2_7 none (fun h => h)
  have hs3 : allIdB (tmFuzzy ("Isokorb".toList)) none (subBy tmSt (subBy (tmFuzzy ("Brandschutzmanschette".toList)) (subBy (tmFuzzy ("Stacon".toList)) (subBy (tmFuzzy ("Tronsolen".toList)) (subBy (tmFuzzy ("Tronsole".toList)) (subBy (tmFuzzy ("Isokorb".toList)) (subBy (tmFuzzy ("Schoeck".toList)) (subBy (tmFuzzy ("Schöck".toList)) x)))))))) = true :=
    st_fz ("Isokorb".toList) hl3
      (noCross_of_checks _ _ (by decide) (by decide))
      (by
        intro c0 l2 w2 htok h1 h2
        injection htok with e1 e2
        injection e2 with e3 e4
        rw [← e1] at h1
        exact absurd h1 (by decide))
      (subBy_trace _ tmSound_st (subBy (tmFuzzy ("Brandschutzmanschette".toList)) (subBy (tmFuzzy ("Stacon".toList)) (subBy (tmFuzzy ("Tronsolen".toList)) (subBy (tmFuzzy ("Tronsole".toList)) (subBy (tmFuzzy ("Isokorb".toList)) (subBy (tmFuzzy ("Schoeck".toList)) (subBy (tmFuzzy ("Schöck".toList)) x)))))))) ha3_7 none (fun h => h)
  have hs4 : allIdB (tmFuzzy ("Tronsole".toList)) none (subBy tmSt (subBy (tmFuzzy ("Brandschutzmanschette".toList)) (subBy (tmFuzzy ("Stacon".toList)) (subBy (tmFuzzy ("Tronsolen".toList)) (subBy (tmFuzzy ("Tronsole".toList)) (subBy (tmFuzzy ("Isokorb".toList)) (subBy (tmFuzzy ("Schoeck".toList)) (subBy (tmFuzzy ("Schöck".toList)) x)))))))) = true :=
    st_fz ("Tronsole".toList) hl4
      (noCross_of_checks _ _ (by decide) (by decide))
      (by
        intro c0 l2 w2 htok h1 h2
        injection htok with e1 e2
        injection e2 with e3 e4
        rw [← e1] at h1
        exact absurd h1 (by decide))
      (subBy_trace _ tmSound_st (subBy (tmFuzzy ("Brandschutzmanschette".toList)) (subBy (tmFuzzy ("Stacon".toList)) (subBy (tmFuzzy ("Tronsolen".toList)) (subBy (tmFuzzy ("Tronsole".toList)) (subBy (tmFuzzy ("Isokorb".toList)) (subBy (tmFuzzy ("Schoeck".toList)) (subBy (tmFuzzy ("Schöck".toList)) x)))))))) ha4_7 none (fun h => h)
  have hs5 : allIdB (tmFuzzy ("Tronsolen".toList)) none (subBy tmSt (subBy (tmFuzzy ("Brandschutzmanschette".toList)) (subBy (tmFuzzy ("Stacon".toList)) (subBy (tmFuzzy ("Tronsolen".toList)) (subBy (tmFuzzy ("Tronsole".toList)) (subBy (tmFuzzy ("Isokorb".toList)) (subBy (tmFuzzy ("Schoeck".toList)) (subBy (tmFuzzy ("Schöck".toList)) x)))))))) = true :=
    st_fz ("Tronsolen".toList) hl5
      (noCross_of_checks _ _ (by decide) (by decide))
      (by
        intro c0 l2 w2 htok h1 h2
        injection htok with e1 e2
        injection e2 with e3 e4
        rw [← e1] at h1
        exact absurd h1 (by decide))
      (subBy_trace _ tmSound_st (subBy (tmFuzzy ("Brandschutzmanschette".toList)) (subBy (tmFuzzy ("Stacon".toList)) (subBy (tmFuzzy ("Tronsolen".toList)) (subBy (tmFuzzy ("Tronsole".toList)) (subBy (tmFuzzy ("Isokorb".toList)) (subBy (tmFuzzy ("Schoeck".toList)) (subBy (tmFuzzy ("Schöck".toList)) x)))))))) ha5_7 none (fun h => h)
  have hs6 : allIdB (tmFuzzy ("Stacon".toList)) none (subBy tmSt (subBy (tmFuzzy ("Brandschutzmanschette".toList)) (subBy (tmFuzzy ("Stacon".toList)) (subBy (tmFuzzy ("Tronsolen".toList)) (subBy (tmFuzzy ("Tronsole".toList)) (subBy (tmFuzzy ("Isokorb".toList)) (subBy (tmFuzzy ("Schoeck".toList)) (subBy (tmFuzzy ("Schöck".toList)) x)))))))) = true :=
    st_fz ("Stacon".toList) hl6
      (noCross_of_checks _ _ (by decide) (by decide))
      (by
        intro c0 l2 w2 htok h1 h2
        injection htok with e1 e2
        injection e2 with e3 e4
        exact ⟨e1.symm, e3.symm⟩)
      (subBy_trace _ tmSound_st (subBy (tmFuzzy ("Brandschutzmanschette".toList)) (subBy (tmFuzzy ("Stacon".toList)) (subBy (tmFuzzy ("Tronsolen".toList)) (subBy (tmFuzzy ("Tronsole".toList)) (subBy (tmFuzzy ("Isokorb".toList)) (subBy (tmFuzzy ("Schoeck".toList)) (subBy (tmFuzzy ("Schöck".toList)) x)))))))) ha6_7 none (fun h => h)
  have hs7 : allIdB (tmFuzzy ("Brandschutzmanschette".toList)) none (subBy tmSt (subBy (tmFuzzy ("Brandschutzmanschette".toList)) (subBy (tmFuzzy ("Stacon".toList)) (subBy (tmFuzzy ("Tronsolen".toList)) (subBy (tmFuzzy ("Tronsole".toList)) (subBy (tmFuzzy ("Isokorb".toList)) (subBy (tmFuzzy ("Schoeck".toList)) (subBy (tmFuzzy ("Schöck".toList)) x)))))))) = true :=
    st_fz ("Brandschutzmanschette".toList) hl7
      (noCross_of_checks _ _ (by decide) (by decide))
      (by
        intro c0 l2 w2 htok h1 h2
        injection htok with e1 e2
        injection e2 with e3 e4
        rw [← e1] at h1
        exact absurd h1 (by decide))
      (subBy_trace _ tmSound_st (subBy (tmFuzzy ("Brandschutzmanschette".toList)) (subBy (tmFuzzy ("Stacon".toList)) (subBy (tmFuzzy ("Tronsolen".toList)) (subBy (tmFuzzy ("Tronsole".toList)) (subBy (tmFuzzy ("Isokorb".toList)) (subBy (tmFuzzy ("Schoeck".toList)) (subBy (tmFuzzy ("Schöck".toList)) x)))))))) ha7_7 none (fun h => h)
  have hh1 : allIdB (tmFuzzy ("Schöck".toList)) none (subBy tmHyph (subBy tmSt (subBy (tmFuzzy ("Brandschutzmanschette".toList)) (subBy (tmFuzzy ("Stacon".toList)) (subBy (tmFuzzy ("Tronsolen".toList)) (subBy (tmFuzzy ("Tronsole".toList)) (subBy (tmFuzzy ("Isokorb".toList)) (subBy (tmFuzzy ("Schoeck".toList)) (subBy (tmFuzzy ("Schöck".toList)) x))))))))) = true :=
    hyph_fz ("Schöck".toList) hl1 (subBy_trace _ tmSound_hyph (subBy tmSt (subBy (tmFuzzy ("Brandschutzmanschette".toList)) (subBy (tmFuzzy ("Stacon".toList)) (subBy (tmFuzzy ("Tronsolen".toList)) (subBy (tmFuzzy ("Tronsole".toList)) (subBy (tmFuzzy ("Isokorb".toList)) (subBy (tmFuzzy ("Schoeck".toList)) (subBy (tmFuzzy ("Schöck".toList)) x))))))))) hs1 none (fun h => h)
  have hh2 : allIdB (tmFuzzy ("Schoeck".toList)) none (subBy tmHyph (subBy tmSt (subBy (tmFuzzy ("Brandschutzmanschette".toList)) (subBy (tmFuzzy ("Stacon".toList)) (subBy (tmFuzzy ("Tronsolen".toList)) (subBy (tmFuzzy ("Tronsole".toList)) (subBy (tmFuzzy ("Isokorb".toList)) (subBy (tmFuzzy ("Schoeck".toList)) (subBy (tmFuzzy ("Schöck".toList)) x))))))))) = true :=
    hyph_fz ("Schoeck".toList) hl2 (subBy_trace _ tmSound_hyph (subBy tmSt (subBy (tmFuzzy ("Brandschutzmanschette".toList)) (subBy (tmFuzzy ("Stacon".toList)) (subBy (tmFuzzy ("Tronsolen".toList)) (subBy (tmFuzzy ("Tronsole".toList)) (subBy (tmFuzzy ("Isokorb".toList)) (subBy (tmFuzzy ("Schoeck".toList)) (subBy (tmFuzzy ("Schöck".toList)) x))))))))) hs2 none (fun h => h)
  have hh3 : allIdB (tmFuzzy ("Isokorb".toList)) none (subBy tmHyph (subBy tmSt (subBy (tmFuzzy ("Brandschutzmanschette".toList)) (subBy (tmFuzzy ("Stacon".toList)) (subBy (tmFuzzy ("Tronsolen".toList)) (subBy (tmFuzzy ("Tronsole".toList)) (subBy (tmFuzzy ("Isokorb".toList)) (subBy (tmFuzzy ("Schoeck".toList)) (subBy (tmFuzzy ("Schöck".toList)) x))))))))) = true :=
    hyph_fz ("Isokorb".toList) hl3 (subBy_trace _ tmSound_hyph (subBy tmSt (subBy (tmFuzzy ("Brandschutzmanschette".toList)) (subBy (tmFuzzy ("Stacon".toList)) (subBy (tmFuzzy ("Tronsolen".toList)) (subBy (tmFuzzy ("Tronsole".toList)) (subBy (tmFuzzy ("Isokorb".toList)) (subBy (tmFuzzy ("Schoeck".toList)) (subBy (tmFuzzy ("Schöck".toList)) x))))))))) hs3 none (fun h => h)
  have hh4 : allIdB (tmFuzzy ("Tronsole".toList)) none (subBy tmHyph (subBy tmSt (subBy (tmFuzzy ("Brandschutzmanschette".toList)) (subBy (tmFuzzy ("Stacon".toList)) (subBy (tmFuzzy ("Tronsolen".toList)) (subBy (tmFuzzy ("Tronsole".toList)) (subBy (tmFuzzy ("Isokorb".toList)) (subBy (tmFuzzy ("Schoeck".toList)) (subBy (tmFuzzy ("Schöck".toList)) x))))))))) = true :=
    hyph_fz ("Tronsole".toList) hl4 (subBy_trace _ tmSound_hyph (subBy tmSt (subBy (tmFuzzy ("Brandschutzmanschette".toList)) (subBy (tmFuzzy ("Stacon".toList)) (subBy (tmFuzzy ("Tronsolen".toList)) (subBy (tmFuzzy ("Tronsole".toList)) (subBy (tmFuzzy ("Isokorb".toList)) (subBy (tmFuzzy ("Schoeck".toList)) (subBy (tmFuzzy ("Schöck".toList)) x))))))))) hs4 none (fun h => h)
  have hh5 : allIdB (tmFuzzy ("Tronsolen".toList)) none (subBy tmHyph (subBy tmSt (subBy (tmFuzzy ("Brandschutzmanschette".toList)) (subBy (tmFuzzy ("Stacon".toList)) (subBy (tmFuzzy ("Tronsolen".toList)) (subBy (tmFuzzy ("Tronsole".toList)) (subBy (tmFuzzy ("Isokorb".toList)) (subBy (tmFuzzy ("Schoeck".toList)) (subBy (tmFuzzy ("Schöck".toList)) x))))))))) = true :=
    hyph_fz ("Tronsolen".toList) hl5 (subBy_trace _ tmSound_hyph (subBy tmSt (subBy (tmFuzzy ("Brandschutzmanschette".toList)) (subBy (tmFuzzy ("Stacon".toList)) (subBy (tmFuzzy ("Tronsolen".toList)) (subBy (tmFuzzy ("Tronsole".toList)) (subBy (tmFuzzy ("Isokorb".toList)) (subBy (tmFuzzy ("Schoeck".toList)) (subBy (tmFuzzy ("Schöck".toList)) x))))))))) hs5 none (fun h => h)
  have hh6 : allIdB (tmFuzzy ("Stacon".toList)) none (subBy tmHyph (subBy tmSt (subBy (tmFuzzy ("Brandschutzmanschette".toList)) (subBy (tmFuzzy ("Stacon".toList)) (subBy (tmFuzzy ("Tronsolen".toList)) (subBy (tmFuzzy ("Tronsole".toList)) (subBy (tmFuzzy ("Isokorb".toList)) (subBy (tmFuzzy ("Schoeck".toList)) (subBy (tmFuzzy ("Schöck".toList)) x))))))))) = true :=
    hyph_fz ("Stacon".toList) hl6 (subBy_trace _ tmSound_hyph (subBy tmSt (subBy (tmFuzzy ("Brandschutzmanschette".toList)) (subBy (tmFuzzy ("Stacon".toList)) (subBy (tmFuzzy ("Tronsolen".toList)) (subBy (tmFuzzy ("Tronsole".toList)) (subBy (tmFuzzy ("Isokorb".toList)) (subBy (tmFuzzy ("Schoeck".toList)) (subBy (tmFuzzy ("Schöck".toList)) x))))))))) hs6 none (fun h => h)
  have hh7 : allIdB (tmFuzzy ("Brandschutzmanschette".toList)) none (subBy tmHyph (subBy tmSt (subBy (tmFuzzy ("Brandschutzmanschette".toList)) (subBy (tmFuzzy ("Stacon".toList)) (subBy (tmFuzzy ("Tronsolen".toList)) (subBy (tmFuzzy ("Tronsole".toList)) (subBy (tmFuzzy ("Isokorb".toList)) (subBy (tmFuzzy ("Schoeck".toList)) (subBy (tmFuzzy ("Schöck".toList)) x))))))))) = true :=
    hyph_fz ("Brandschutzmanschette".toList) hl7 (subBy_trace _ tmSound_hyph (subBy tmSt (subBy (tmFuzzy ("Brandschutzmanschette".toList)) (subBy (tmFuzzy ("Stacon".toList)) (subBy (tmFuzzy ("Tronsolen".toList)) (subBy (tmFuzzy ("Tronsole".toList)) (subBy (tmFuzzy ("Isokorb".toList)) (subBy (tmFuzzy ("Schoeck".toList)) (subBy (tmFuzzy ("Schöck".toList)) x))))))))) hs7 none (fun h => h)
  have hd1 : allIdB (tmFuzzy ("Schöck".toList)) none (subBy tmDig (subBy tmHyph (subBy tmSt (subBy (tmFuzzy ("Brandschutzmanschette".toList)) (subBy (tmFuzzy ("Stacon".toList)) (subBy (tmFuzzy ("Tronsolen".toList)) (subBy (tmFuzzy ("Tronsole".toList)) (subBy (tmFuzzy ("Isokorb".toList)) (subBy (tmFuzzy ("Schoeck".toList)) (subBy (tmFuzzy ("Schöck".toList)) x)))))))))) = true :=
    dig_fz ("Schöck".toList) hl1 (subBy_trace _ tmSound_dig (subBy tmHyph (subBy tmSt (subBy (tmFuzzy ("Brandschutzmanschette".toList)) (subBy (tmFuzzy ("Stacon".toList)) (subBy (tmFuzzy ("Tronsolen".toList)) (subBy (tmFuzzy ("Tronsole".toList)) (subBy (tmFuzzy ("Isokorb".toList)) (subBy (tmFuzzy ("Schoeck".toList)) (subBy (tmFuzzy ("Schöck".toList)) x)))))))))) hh1 none (fun h => h)
  have hd2 : allIdB (tmFuzzy ("Schoeck".toList)) none (subBy tmDig (subBy tmHyph (subBy tmSt (subBy (tmFuzzy ("Brandschutzmanschette".toList)) (subBy (tmFuzzy ("Stacon".toList)) (subBy (tmFuzzy ("Tronsolen".toList)) (subBy (tmFuzzy ("Tronsole".toList)) (subBy (tmFuzzy ("Isokorb".toList)) (subBy (tmFuzzy ("Schoeck".toList)) (subBy (tmFuzzy ("Schöck".toList)) x)))))))))) = true :=
    dig_fz ("Schoeck".toList) hl2 (subBy_trace _ tmSound_dig (subBy tmHyph (subBy tmSt (subBy (tmFuzzy ("Brandschutzmanschette".toList)) (subBy (tmFuzzy ("Stacon".toList)) (subBy (tmFuzzy ("Tronsolen".toList)) (subBy (tmFuzzy ("Tronsole".toList)) (subBy (tmFuzzy ("Isokorb".toList)) (subBy (tmFuzzy ("Schoeck".toList)) (subBy (tmFuzzy ("Schöck".toList)) x)))))))))) hh2 none (fun h => h)
  have hd3 : allIdB (tmFuzzy ("Isokorb".toList)) none (subBy tmDig (subBy tmHyph (subBy tmSt (subBy (tmFuzzy ("Brandschutzmanschette".toList)) (subBy (tmFuzzy ("Stacon".toList)) (subBy (tmFuzzy ("Tronsolen".toList)) (subBy (tmFuzzy ("Tronsole".toList)) (subBy (tmFuzzy ("Isokorb".toList)) (subBy (tmFuzzy ("Schoeck".toList)) (subBy (tmFuzzy ("Schöck".toList)) x)))))))))) = true :=
    dig_fz ("Isokorb".toList) hl3 (subBy_trace _ tmSound_dig (subBy tmHyph (subBy tmSt (subBy (tmFuzzy ("Brandschutzmanschette".toList)) (subBy (tmFuzzy ("Stacon".toList)) (subBy (tmFuzzy ("Tronsolen".toList)) (subBy (tmFuzzy ("Tronsole".toList)) (subBy (tmFuzzy ("Isokorb".toList)) (subBy (tmFuzzy ("Schoeck".toList)) (subBy (tmFuzzy ("Schöck".toList)) x)))))))))) hh3 none (fun h => h)
  have hd4 : allIdB (tmFuzzy ("Tronsole".toList)) none (subBy tmDig (subBy tmHyph (subBy tmSt (subBy (tmFuzzy ("Brandschutzmanschette".toList)) (subBy (tmFuzzy ("Stacon".toList)) (subBy (tmFuzzy ("Tronsolen".toList)) (subBy (tmFuzzy ("Tronsole".toList)) (subBy (tmFuzzy ("Isokorb".toList)) (subBy (tmFuzzy ("Schoeck".toList)) (subBy (tmFuzzy ("Schöck".toList)) x)))))))))) = true :=
    dig_fz ("Tronsole".toList) hl4 (subBy_trace _ tmSound_dig (subBy tmHyph (subBy tmSt (subBy (tmFuzzy ("Brandschutzmanschette".toList)) (subBy (tmFuzzy ("Stacon".toList)) (subBy (tmFuzzy ("Tronsolen".toList)) (subBy (tmFuzzy ("Tronsole".toList)) (subBy (tmFuzzy ("Isokorb".toList)) (subBy (tmFuzzy ("Schoeck".toList)) (subBy (tmFuzzy ("Schöck".toList)) x)))))))))) hh4 none (fun h => h)
  have hd5 : allIdB (tmFuzzy ("Tronsolen".toList)) none (subBy tmDig (subBy tmHyph (subBy tmSt (subBy (tmFuzzy ("Brandschutzmanschette".toList)) (subBy (tmFuzzy ("Stacon".toList)) (subBy (tmFuzzy ("Tronsolen".toList)) (subBy (tmFuzzy ("Tronsole".toList)) (subBy (tmFuzzy ("Isokorb".toList)) (subBy (tmFuzzy ("Schoeck".toList)) (subBy (tmFuzzy ("Schöck".toList)) x)))))))))) = true :=
    dig_fz ("Tronsolen".toList) hl5 (subBy_trace _ tmSound_dig (subBy tmHyph (subBy tmSt (subBy (tmFuzzy ("Brandschutzmanschette".toList)) (subBy (tmFuzzy ("Stacon".toList)) (subBy (tmFuzzy ("Tronsolen".toList)) (subBy (tmFuzzy ("Tronsole".toList)) (subBy (tmFuzzy ("Isokorb".toList)) (subBy (tmFuzzy ("Schoeck".toList)) (subBy (tmFuzzy ("Schöck".toList)) x)))))))))) hh5 none (fun h => h)
  have hd6 : allIdB (tmFuzzy ("Stacon".toList)) none (subBy tmDig (subBy tmHyph (subBy tmSt (subBy (tmFuzzy ("Brandschutzmanschette".toList)) (subBy (tmFuzzy ("Stacon".toList)) (subBy (tmFuzzy ("Tronsolen".toList)) (subBy (tmFuzzy ("Tronsole".toList)) (subBy (tmFuzzy ("Isokorb".toList)) (subBy (tmFuzzy ("Schoeck".toList)) (subBy (tmFuzzy ("Schöck".toList)) x)))))))))) = true :=
    dig_fz ("Stacon".toList) hl6 (subBy_trace _ tmSound_dig (subBy tmHyph (subBy tmSt (subBy (tmFuzzy ("Brandschutzmanschette".toList)) (subBy (tmFuzzy ("Stacon".toList)) (subBy (tmFuzzy ("Tronsolen".toList)) (subBy (tmFuzzy ("Tronsole".toList)) (subBy (tmFuzzy ("Isokorb".toList)) (subBy (tmFuzzy ("Schoeck".toList)) (subBy (tmFuzzy ("Schöck".toList)) x)))))))))) hh6 none (fun h => h)
  have hd7 : allIdB (tmFuzzy ("Brandschutzmanschette".toList)) none (subBy tmDig (subBy tmHyph (subBy tmSt (subBy (tmFuzzy ("Brandschutzmanschette".toList)) (subBy (tmFuzzy ("Stacon".toList)) (subBy (tmFuzzy ("Tronsolen".toList)) (subBy (tmFuzzy ("Tronsole".toList)) (subBy (tmFuzzy ("Isokorb".toList)) (subBy (tmFuzzy ("Schoeck".toList)) (subBy (tmFuzzy ("Schöck".toList)) x)))))))))) = true :=
    dig_fz ("Brandschutzmanschette".toList) hl7 (subBy_trace _ tmSound_dig (subBy tmHyph (subBy tmSt (subBy (tmFuzzy ("Brandschutzmanschette".toList)) (subBy (tmFuzzy ("Stacon".toList)) (subBy (tmFuzzy ("Tronsolen".toList)) (subBy (tmFuzzy ("Tronsole".toList)) (subBy (tmFuzzy ("Isokorb".toList)) (subBy (tmFuzzy ("Schoeck".toList)) (subBy (tmFuzzy ("Schöck".toList)) x)))))))))) hh7 none (fun h => h)
  have hB1 : stOKB (subBy tmSt (subBy (tmFuzzy ("Brandschutzmanschette".toList)) (subBy (tmFuzzy ("Stacon".toList)) (subBy (tmFuzzy ("Tronsolen".toList)) (subBy (tmFuzzy ("Tronsole".toList)) (subBy (tmFuzzy ("Isokorb".toList)) (subBy (tmFuzzy ("Schoeck".toList)) (subBy (tmFuzzy ("Schöck".toList)) x)))))))) = true :=
    st_complete (subBy_trace _ tmSound_st (subBy (tmFuzzy ("Brandschutzmanschette".toList)) (subBy (tmFuzzy ("Stacon".toList)) (subBy (tmFuzzy ("Tronsolen".toList)) (subBy (tmFuzzy ("Tronsole".toList)) (subBy (tmFuzzy ("Isokorb".toList)) (subBy (tmFuzzy ("Schoeck".toList)) (subBy (tmFuzzy ("Schöck".toList)) x))))))))
  have hB2 : stOKB (subBy tmHyph (subBy tmSt (subBy (tmFuzzy ("Brandschutzmanschette".toList)) (subBy (tmFuzzy ("Stacon".toList)) (subBy (tmFuzzy ("Tronsolen".toList)) (subBy (tmFuzzy ("Tronsole".toList)) (subBy (tmFuzzy ("Isokorb".toList)) (subBy (tmFuzzy ("Schoeck".toList)) (subBy (tmFuzzy ("Schöck".toList)) x))))))))) = true :=
    hyph_st (subBy_trace _ tmSound_hyph (subBy tmSt (subBy (tmFuzzy ("Brandschutzmanschette".toList)) (subBy (tmFuzzy ("Stacon".toList)) (subBy (tmFuzzy ("Tronsolen".toList)) (subBy (tmFuzzy ("Tronsole".toList)) (subBy (tmFuzzy ("Isokorb".toList)) (subBy (tmFuzzy ("Schoeck".toList)) (subBy (tmFuzzy ("Schöck".toList)) x))))))))) hB1
  have hB3 : stOKB (subBy tmDig (subBy tmHyph (subBy tmSt (subBy (tmFuzzy ("Brandschutzmanschette".toList)) (subBy (tmFuzzy ("Stacon".toList)) (subBy (tmFuzzy ("Tronsolen".toList)) (subBy (tmFuzzy ("Tronsole".toList)) (subBy (tmFuzzy ("Isokorb".toList)) (subBy (tmFuzzy ("Schoeck".toList)) (subBy (tmFuzzy ("Schöck".toList)) x)))))))))) = true :=
    dig_st (subBy_trace _ tmSound_dig (subBy tmHyph (subBy tmSt (subBy (tmFuzzy ("Brandschutzmanschette".toList)) (subBy (tmFuzzy ("Stacon".toList)) (subBy (tmFuzzy ("Tronsolen".toList)) (subBy (tmFuzzy ("Tronsole".toList)) (subBy (tmFuzzy ("Isokorb".toList)) (subBy (tmFuzzy ("Schoeck".toList)) (subBy (tmFuzzy ("Schöck".toList)) x)))))))))) hB2
  have hC1 : npH none (subBy tmHyph (subBy tmSt (subBy (tmFuzzy ("Brandschutzmanschette".toList)) (subBy (tmFuzzy ("Stacon".toList)) (subBy (tmFuzzy ("Tronsolen".toList)) (subBy (tmFuzzy ("Tronsole".toList)) (subBy (tmFuzzy ("Isokorb".toList)) (subBy (tmFuzzy ("Schoeck".toList)) (subBy (tmFuzzy ("Schöck".toList)) x))))))))) = true :=
    hyph_complete (subBy_trace _ tmSound_hyph (subBy tmSt (subBy (tmFuzzy ("Brandschutzmanschette".toList)) (subBy (tmFuzzy ("Stacon".toList)) (subBy (tmFuzzy ("Tronsolen".toList)) (subBy (tmFuzzy ("Tronsole".toList)) (subBy (tmFuzzy ("Isokorb".toList)) (subBy (tmFuzzy ("Schoeck".toList)) (subBy (tmFuzzy ("Schöck".toList)) x))))))))) none
      (fun a ha => absurd ha (by simp)) (fun a ha => absurd ha (by simp))
  have hC2 : npH none (subBy tmDig (subBy tmHyph (subBy tmSt (subBy (tmFuzzy ("Brandschutzmanschette".toList)) (subBy (tmFuzzy ("Stacon".toList)) (subBy (tmFuzzy ("Tronsolen".toList)) (subBy (tmFuzzy ("Tronsole".toList)) (subBy (tmFuzzy ("Isokorb".toList)) (subBy (tmFuzzy ("Schoeck".toList)) (subBy (tmFuzzy ("Schöck".toList)) x)))))))))) = true :=
    dig_np (subBy_trace _ tmSound_dig (subBy tmHyph (subBy tmSt (subBy (tmFuzzy ("Brandschutzmanschette".toList)) (subBy (tmFuzzy ("Stacon".toList)) (subBy (tmFuzzy ("Tronsolen".toList)) (subBy (tmFuzzy ("Tronsole".toList)) (subBy (tmFuzzy ("Isokorb".toList)) (subBy (tmFuzzy ("Schoeck".toList)) (subBy (tmFuzzy ("Schöck".toList)) x)))))))))) none hC1 (Or.inl rfl)
  have hD1 : noFireB tmDig none (subBy tmDig (subBy tmHyph (subBy tmSt (subBy (tmFuzzy ("Brandschutzmanschette".toList)) (subBy (tmFuzzy ("Stacon".toList)) (subBy (tmFuzzy ("Tronsolen".toList)) (subBy (tmFuzzy ("Tronsole".toList)) (subBy (tmFuzzy ("Isokorb".toList)) (subBy (tmFuzzy ("Schoeck".toList)) (subBy (tmFuzzy ("Schöck".toList)) x)))))))))) = true := by
    refine dig_complete (subBy_trace _ tmSound_dig (subBy tmHyph (subBy tmSt (subBy (tmFuzzy ("Brandschutzmanschette".toList)) (subBy (tmFuzzy ("Stacon".toList)) (subBy (tmFuzzy ("Tronsolen".toList)) (subBy (tmFuzzy ("Tronsole".toList)) (subBy (tmFuzzy ("Isokorb".toList)) (subBy (tmFuzzy ("Schoeck".toList)) (subBy (tmFuzzy ("Schöck".toList)) x)))))))))) none ?_
    rintro ⟨dq, hdq, _⟩
    exact Option.noConfusion hdq
  refine ⟨?_, hB3, hC2, hD1⟩
  intro tok htok
  simp only [FIX_TOKENS, List.mem_cons, List.not_mem_nil, or_false] at htok
  rcases htok with h | h | h | h | h | h | h <;> rw [h]
  · exact hd1
  · exact hd2
  · exact hd3
  · exact hd4
  · exact hd5
  · exact hd6
  · exact hd7

/-- C5: the text normaliser clean_line_for_matching is idempotent: for
every input line, applying the cleaning function twice yields the same
result as applying it once. -/
theorem c5_clean_idempotent (x : List Char) :
    clean_line_for_matching (clean_line_for_matching x) =
      clean_line_for_matching x := by
  obtain ⟨hA, hB, hC, hD⟩ := clean_normal x
  exact clean_fix _ hA hB hC hD

end Pdf
